import Mathlib

/-!
# FlashJ: flashcard / MCQ generation and quiz bookkeeping

A shallow embedding of the text-processing core of `flashcard-generator.js`
and `mcq-generator.js`.

Modelling conventions.

* A JavaScript string is a `List Char`; one `Char` stands for one UTF-16 code
  unit, so the model speaks about texts of the Basic Multilingual Plane.
* Regular expressions are kept as syntax trees (`JS.RE`) that mirror the
  literals of the source one to one and are run by a backtracking matcher that
  follows the ECMAScript pattern semantics (continuation-passing matchers,
  greedy and lazy quantifiers, capture groups, lookbehind, `\b`, `$`, the `i`
  flag).
* Everything the page obtains from its host (random numbers, fresh ids, the
  clock, locale-independent lower-casing, the order produced by a sort with a
  random comparator) is a field of `JS.Runtime`; theorems quantify over it.
-/

namespace JS

/-- A JavaScript string, as the sequence of its characters. -/
abbrev Str := List Char

/-! ## Character classification -/

/-- The ECMAScript `LineTerminator` code points. -/
def isLineTerminator (c : Char) : Bool :=
  c.toNat == 0x0A || c.toNat == 0x0D || c.toNat == 0x2028 || c.toNat == 0x2029

/-- What `\s` matches and what `trim` strips: `WhiteSpace` and `LineTerminator`. -/
def isWhiteSpace (c : Char) : Bool :=
  c.toNat == 0x20 || c.toNat == 0x09 || c.toNat == 0x0A || c.toNat == 0x0B ||
  c.toNat == 0x0C || c.toNat == 0x0D || c.toNat == 0xA0 || c.toNat == 0x1680 ||
  (decide (0x2000 ≤ c.toNat) && decide (c.toNat ≤ 0x200A)) ||
  c.toNat == 0x2028 || c.toNat == 0x2029 || c.toNat == 0x202F ||
  c.toNat == 0x205F || c.toNat == 0x3000 || c.toNat == 0xFEFF

/-- The class `[0-9]`, written `\d`. -/
def isDigit (c : Char) : Bool :=
  decide (48 ≤ c.toNat) && decide (c.toNat ≤ 57)

/-- The class `[A-Z]`. -/
def isUpperAZ (c : Char) : Bool :=
  decide (65 ≤ c.toNat) && decide (c.toNat ≤ 90)

/-- The class `[a-z]`. -/
def isLowerAZ (c : Char) : Bool :=
  decide (97 ≤ c.toNat) && decide (c.toNat ≤ 122)

/-- The class `[A-Za-z0-9_]`, written `\w`. -/
def isWordChar (c : Char) : Bool :=
  isUpperAZ c || isLowerAZ c || isDigit c || c.toNat == 95

/-- Upper-case image of a basic Latin letter, other characters unchanged. -/
def upperAZ (c : Char) : Char :=
  if isLowerAZ c then Char.ofNat (c.toNat - 32) else c

/-- Lower-case image of a basic Latin letter, other characters unchanged. -/
def lowerAZ (c : Char) : Char :=
  if isUpperAZ c then Char.ofNat (c.toNat + 32) else c

/-! ## Plain string operations -/

/-- JavaScript `String.prototype.trim`, leading part. -/
def trimStart (s : Str) : Str := s.dropWhile isWhiteSpace

/-- JavaScript `String.prototype.trim`, trailing part. -/
def trimEnd (s : Str) : Str := (s.reverse.dropWhile isWhiteSpace).reverse

/-- JavaScript `String.prototype.trim`. -/
def trim (s : Str) : Str := trimEnd (trimStart s)

/-- JavaScript `s.startsWith(p)`. -/
def startsWith (p s : Str) : Bool := p.isPrefixOf s

/-- JavaScript `s.endsWith(p)`. -/
def endsWith (p s : Str) : Bool := p.reverse.isPrefixOf s.reverse

/-- JavaScript `s.includes(p)`: `p` occurs in `s` as a contiguous block. -/
def includes (p : Str) : Str → Bool
  | [] => p.isEmpty
  | c :: cs => p.isPrefixOf (c :: cs) || includes p cs

/-- JavaScript `s.split(sep)` for a one-character separator string. -/
def splitOnChar (sep : Char) : Str → List Str
  | [] => [[]]
  | c :: cs =>
    if c == sep then [] :: splitOnChar sep cs
    else
      match splitOnChar sep cs with
      | [] => [[c]]
      | w :: ws => (c :: w) :: ws

/-- JavaScript `words.join(sep)`. -/
def join (sep : Str) : List Str → Str
  | [] => []
  | [w] => w
  | w :: ws => w ++ sep ++ join sep ws

/-- JavaScript `s.substring(0, n)`. -/
def substring0 (n : Nat) (s : Str) : Str := s.take n

/-- JavaScript `s.replace(pat, rep)` for a string pattern: only the first occurrence is replaced. -/
def replaceFirstStr (pat rep : Str) : Str → Str
  | [] => if pat.isEmpty then rep else []
  | c :: cs =>
    if pat.isPrefixOf (c :: cs) then rep ++ (c :: cs).drop pat.length
    else c :: replaceFirstStr pat rep cs

/-! ## Regular expressions -/

/-- One member of a bracketed character class. -/
inductive ClassAtom where
  | chr (c : Char)
  | range (lo hi : Char)
  | digit
  | word
  | space
  deriving DecidableEq, Repr

/-- Regular-expression syntax, restricted to the constructs the source uses. -/
inductive RE where
  | empty
  | chr (c : Char)
  | any
  | cls (negated : Bool) (atoms : List ClassAtom)
  | seq (a b : RE)
  | alt (a b : RE)
  | group (i : Nat) (r : RE)
  | rep (r : RE) (min : Nat) (max : Option Nat) (greedy : Bool)
  | lookbehind (negated : Bool) (r : RE)
  | wordBoundary
  | endOfInput
  deriving Repr

namespace RE

/-- A literal run of characters. -/
def lit : Str → RE
  | [] => RE.empty
  | [c] => RE.chr c
  | c :: cs => RE.seq (RE.chr c) (lit cs)

/-- An alternation `a|b|c|...`. -/
def alts : List RE → RE
  | [] => RE.empty
  | [r] => r
  | r :: rs => RE.alt r (alts rs)

/-- A concatenation of several terms. -/
def seqs : List RE → RE
  | [] => RE.empty
  | [r] => r
  | r :: rs => RE.seq r (seqs rs)

/-- The quantifier `r+`. -/
def plus (r : RE) : RE := RE.rep r 1 none true

/-- The escape `\s`. -/
def space : RE := RE.cls false [ClassAtom.space]

/-- The escape `\w`. -/
def word : RE := RE.cls false [ClassAtom.word]

/-- The escape `\d`. -/
def digit : RE := RE.cls false [ClassAtom.digit]

/-- The class `[A-Z]`. -/
def upper : RE := RE.cls false [ClassAtom.range 'A' 'Z']

/-- The class `[a-z]`. -/
def lower : RE := RE.cls false [ClassAtom.range 'a' 'z']

/-- Indices of the capture groups that occur in a pattern. -/
def groups : RE → List Nat
  | RE.seq a b => groups a ++ groups b
  | RE.alt a b => groups a ++ groups b
  | RE.group i r => i :: groups r
  | RE.rep r _ _ _ => groups r
  | RE.lookbehind _ r => groups r
  | _ => []

end RE

/-- Membership of a character in one class member, case-sensitively. -/
def ClassAtom.has (a : ClassAtom) (c : Char) : Bool :=
  match a with
  | ClassAtom.chr d => c == d
  | ClassAtom.range lo hi => decide (lo.toNat ≤ c.toNat) && decide (c.toNat ≤ hi.toNat)
  | ClassAtom.digit => isDigit c
  | ClassAtom.word => isWordChar c
  | ClassAtom.space => isWhiteSpace c

/-- Does some member `a` of the class satisfy `Canonicalize(a) = Canonicalize(c)`?
Without the `i` flag this is membership; with it (and an ASCII pattern) the
members with the same canonical form as `c` are the two cases of `c`. -/
def classHas (ic : Bool) (atoms : List ClassAtom) (c : Char) : Bool :=
  atoms.any fun a => a.has c || (ic && (a.has (upperAZ c) || a.has (lowerAZ c)))

/-- Matcher state: the text before the current position (nearest character
first), the text from the current position on, and the captures set so far. -/
structure MState where
  before : Str
  after : Str
  caps : List (Nat × Str)
  deriving DecidableEq, Repr

/-- The end index of a state. -/
def MState.pos (x : MState) : Nat := x.before.length

/-- Value of capture `i`, `none` when undefined. -/
def MState.cap (x : MState) (i : Nat) : Option Str :=
  (x.caps.find? fun p => p.1 == i).map Prod.snd

/-- Record capture `i`. -/
def setCap (i : Nat) (s : Str) (caps : List (Nat × Str)) : List (Nat × Str) :=
  (i, s) :: caps.filter fun p => p.1 != i

/-- Reset the captures of the listed groups to undefined. -/
def clearCaps (gs : List Nat) (caps : List (Nat × Str)) : List (Nat × Str) :=
  caps.filter fun p => !gs.contains p.1

/-- A matcher continuation. -/
abbrev Cont := MState → Option MState

/-- A matcher: given a state and a continuation, the final state or failure. -/
abbrev Matcher := MState → Cont → Option MState

/-- Consume one character satisfying `p` in the given direction. -/
def charMatcher (fwd : Bool) (p : Char → Bool) : Matcher := fun x c =>
  if fwd then
    match x.after with
    | [] => none
    | a :: rest => if p a then c { x with before := a :: x.before, after := rest } else none
  else
    match x.before with
    | [] => none
    | a :: rest => if p a then c { x with before := rest, after := a :: x.after } else none

/-- The ECMAScript `RepeatMatcher`. `fuel` bounds the number of iterations; the
caller passes a bound that the iteration count cannot reach (`repeatMatcher_fuel`). -/
def repeatMatcher (m : Matcher) (greedy : Bool) (gs : List Nat) :
    Nat → Nat → Option Nat → Matcher
  | 0, _, _ => fun _ _ => none
  | fuel + 1, min, max => fun x c =>
    if max == some 0 then c x
    else
      let d : Cont := fun y =>
        if min == 0 && y.pos == x.pos then none
        else repeatMatcher m greedy gs fuel (min - 1) (max.map fun k => k - 1) y c
      let xr : MState := { x with caps := clearCaps gs x.caps }
      if min != 0 then m xr d
      else if greedy then
        match m xr d with
        | some z => some z
        | none => c x
      else
        match c x with
        | some z => some z
        | none => m xr d

/-- Compile a pattern to a matcher (`ic`: the `i` flag; `fwd`: direction). -/
def compile (ic : Bool) : RE → Bool → Matcher
  | RE.empty, _ => fun x c => c x
  | RE.chr ch, fwd => charMatcher fwd fun a =>
      if ic then upperAZ a == upperAZ ch else a == ch
  | RE.any, fwd => charMatcher fwd fun a => !isLineTerminator a
  | RE.cls negated atoms, fwd => charMatcher fwd fun a => classHas ic atoms a != negated
  | RE.seq a b, fwd => fun x c =>
      if fwd then compile ic a fwd x fun y => compile ic b fwd y c
      else compile ic b fwd x fun y => compile ic a fwd y c
  | RE.alt a b, fwd => fun x c =>
      match compile ic a fwd x c with
      | some z => some z
      | none => compile ic b fwd x c
  | RE.group i r, fwd => fun x c =>
      compile ic r fwd x fun y =>
        let s : Str :=
          if fwd then x.after.take (x.after.length - y.after.length)
          else y.after.take (y.after.length - x.after.length)
        c { y with caps := setCap i s y.caps }
  | RE.rep r min max greedy, fwd => fun x c =>
      let fuel := match max with
        | some k => k + 1
        | none => min + (x.before.length + x.after.length) + 1
      repeatMatcher (compile ic r fwd) greedy r.groups fuel min max x c
  | RE.lookbehind negated r, _ => fun x c =>
      match compile ic r false x some with
      | some y => if negated then none else c { x with caps := y.caps }
      | none => if negated then c x else none
  | RE.wordBoundary, _ => fun x c =>
      let a := match x.before with
        | [] => false
        | p :: _ => isWordChar p
      let b := match x.after with
        | [] => false
        | n :: _ => isWordChar n
      if a != b then c x else none
  | RE.endOfInput, _ => fun x c =>
      if x.after.isEmpty then c x else none

/-- A regular expression literal: its pattern and its `i` flag. -/
structure Regex where
  pattern : RE
  ignoreCase : Bool := false

/-- A match attempt anchored at the position of `x` (what a sticky `exec` does). -/
def Regex.matchAt (re : Regex) (before after : Str) : Option MState :=
  compile re.ignoreCase re.pattern true { before := before, after := after, caps := [] } some

/-- Leftmost match at or after the current position: the state where it
starts paired with the state where it ends. -/
def Regex.search (re : Regex) : Str → Str → Option (MState × MState)
  | before, [] =>
    (re.matchAt before []).map fun y => ({ before := before, after := [], caps := [] }, y)
  | before, a :: rest =>
    match re.matchAt before (a :: rest) with
    | some y => some ({ before := before, after := a :: rest, caps := [] }, y)
    | none => re.search (a :: before) rest

/-- The text a match covers (`match[0]`). -/
def matchedText (x y : MState) : Str := x.after.take (y.pos - x.pos)

/-- JavaScript `re.test(s)`. -/
def Regex.test (re : Regex) (s : Str) : Bool := (re.search [] s).isSome

/-- JavaScript `s.match(re)` for a non-global `re`: `match[0]` and `match[1]`. -/
def Regex.exec (re : Regex) (s : Str) : Option (Str × Option Str) :=
  (re.search [] s).map fun p => (matchedText p.1 p.2, p.2.cap 1)

/-- Loop of `s.match(re)` for a global `re`: all successive matches. -/
def matchAllFrom (re : Regex) : Nat → Str → Str → List Str
  | 0, _, _ => []
  | fuel + 1, before, after =>
    match re.search before after with
    | none => []
    | some (x, y) =>
      let t := matchedText x y
      if t.isEmpty then
        match y.after with
        | [] => [t]
        | a :: rest => t :: matchAllFrom re fuel (a :: y.before) rest
      else t :: matchAllFrom re fuel y.before y.after

/-- JavaScript `s.match(re)` for a global `re`; `none` is the `null` of no match at all. -/
def Regex.matchAll (re : Regex) (s : Str) : Option (List Str) :=
  match matchAllFrom re (s.length + 2) [] s with
  | [] => none
  | ms => some ms

/-- Loop of `s.replace(re, rep)` for a global `re` and a replacement text
without `$` patterns. -/
def replaceAllFrom (re : Regex) (rep : Str) : Nat → Str → Str → Str
  | 0, _, after => after
  | fuel + 1, before, after =>
    match re.search before after with
    | none => after
    | some (x, y) =>
      let skipped := after.take (x.pos - before.length)
      if y.pos == x.pos then
        match y.after with
        | [] => skipped ++ rep
        | a :: rest => skipped ++ rep ++ a :: replaceAllFrom re rep fuel (a :: y.before) rest
      else skipped ++ rep ++ replaceAllFrom re rep fuel y.before y.after

/-- JavaScript `s.replace(re, rep)` for a global `re`. -/
def Regex.replaceAll (re : Regex) (rep : Str) (s : Str) : Str :=
  replaceAllFrom re rep (s.length + 2) [] s

/-- JavaScript `s.replace(re, rep)` for a non-global `re`: the leftmost match only. -/
def Regex.replaceFirst (re : Regex) (rep : Str) (s : Str) : Str :=
  match re.search [] s with
  | none => s
  | some (x, y) => s.take x.pos ++ rep ++ y.after

/-- Loop of `s.split(re)` on a non-empty `s`, for a pattern without capture
groups. `cur` is the pending piece `s.substring(p, q)`, last character first. -/
def splitFrom (re : Regex) : Nat → Str → Str → Str → List Str
  | 0, _, after, cur => [cur.reverse ++ after]
  | _ + 1, _, [], cur => [cur.reverse]
  | fuel + 1, before, a :: rest, cur =>
    match re.matchAt before (a :: rest) with
    | none => splitFrom re fuel (a :: before) rest (a :: cur)
    | some y =>
      if y.pos == before.length && cur.isEmpty then
        splitFrom re fuel (a :: before) rest (a :: cur)
      else
        cur.reverse :: splitFrom re fuel y.before y.after []

/-- JavaScript `s.split(re)`. -/
def Regex.split (re : Regex) (s : Str) : List Str :=
  if s.isEmpty then
    if (re.matchAt [] []).isSome then [] else [[]]
  else splitFrom re (2 * s.length + 2) [] s []

/-! ### Vocabulary for reasoning about matchers -/

/-- State `y` belongs to the same text as `x` and is not behind it in the
direction of matching. -/
def Adv (fwd : Bool) (x y : MState) : Prop :=
  y.before.reverse ++ y.after = x.before.reverse ++ x.after ∧
    (if fwd then x.pos ≤ y.pos else y.pos ≤ x.pos)

/-- A matcher consults its continuation only at states of the same text that
are not behind its own state. -/
def Local (fwd : Bool) (m : Matcher) : Prop :=
  ∀ (x : MState) (c c' : Cont), (∀ y, Adv fwd x y → c y = c' y) → m x c = m x c'

/-- The text a state still has in front of it in the direction of matching. -/
def MState.room (fwd : Bool) (x : MState) : Nat :=
  if fwd then x.after.length else x.before.length

/-- The number of rounds after which `repeatMatcher` has certainly stopped. -/
def roundsBound (fwd : Bool) (min : Nat) (max : Option Nat) (x : MState) : Nat :=
  match max with
  | some k => k + 1
  | none => min + x.room fwd + 1

/-- A matcher succeeds only through its continuation, called at a state of the
same text that is not behind its own state. -/
def Through (fwd : Bool) (m : Matcher) : Prop :=
  ∀ (x : MState) (c : Cont) (z : MState), m x c = some z → ∃ y, Adv fwd x y ∧ c y = some z

/-- A `Set` built from an array: first occurrences, in insertion order. -/
def toSet : List Str → List Str
  | [] => []
  | w :: ws => w :: (toSet ws).filter fun v => v != w

/-- Decimal rendering of a number inside a template literal. -/
def natToStr (n : Nat) : Str := (Nat.repr n).toList

/-- JavaScript `Math.round` of a non-negative rational: nearest integer, halves upward. -/
def mathRound (q : ℚ) : Int := Int.floor (q + 1 / 2)

/-! ## Double-precision numbers -/

/-- Loop computing the position of the leading binary digit. -/
def log2Loop : Nat → Nat → Nat
  | 0, _ => 0
  | fuel + 1, n => if n < 2 then 0 else log2Loop fuel (n / 2) + 1

/-- The position of the leading binary digit of a positive number. -/
def natLog2 (n : Nat) : Nat := log2Loop n n

/-- The integer `k` with `2 ^ k ≤ q < 2 ^ (k + 1)`, for a positive rational. -/
def floorLog2 (q : ℚ) : Int :=
  let k : Int := (natLog2 q.num.toNat : Int) - (natLog2 q.den : Int)
  if (2 : ℚ) ^ k ≤ q then k else k - 1

/-- Rounding to the nearest integer, halves to the even neighbour. -/
def roundHalfEven (q : ℚ) : Int :=
  let f := Int.floor q
  let r := q - f
  if r < 1 / 2 then f
  else if r > 1 / 2 then f + 1
  else if f % 2 = 0 then f else f + 1

/-- The double nearest to a rational (normal range). -/
def toDouble (q : ℚ) : ℚ :=
  if q = 0 then 0
  else
    let e := floorLog2 |q| - 52
    let m := roundHalfEven (|q| / (2 : ℚ) ^ e)
    (if q < 0 then -1 else 1) * m * (2 : ℚ) ^ e

/-- The percentage `Math.round((c / n) * 100)` for `n > 0`: the quotient and the
product are each rounded to a double before `Math.round` is applied. -/
def jsPercent (c n : Nat) : Int := mathRound (toDouble (toDouble ((c : ℚ) / (n : ℚ)) * 100))

/-- What the page takes from its host. Calls are numbered by a running
counter; the `k`-th call of an operation returns the value stored at `k`. -/
structure Runtime where
  /-- Result of `String.prototype.toLowerCase`. -/
  toLowerCase : Str → Str
  /-- Result of `FlashJUtils.generateId()` at call `k`. -/
  generateId : Nat → Str
  /-- Result of `new Date().toISOString()` at call `k`. -/
  isoNow : Nat → Str
  /-- Raw outcome of `Math.random()` at call `k`; `Math.floor(Math.random() * n)`
  is `random k % n`, which ranges over exactly `0, ..., n - 1`. -/
  random : Nat → Nat
  /-- Outcome of `[...arr].sort(() => Math.random() - 0.5)` at call `k` on an
  array of length `n`: the old indices in their new order. The language leaves
  the order produced by such a comparator to the engine. -/
  sortOrder : Nat → Nat → List Nat

/-- JavaScript `Math.floor(Math.random() * n)` at call `k`. -/
def Runtime.randomBelow (rt : Runtime) (k n : Nat) : Nat := rt.random k % n

/-- Lower-casing of a text whose cased letters are basic Latin. -/
def asciiLowerCase (s : Str) : Str := s.map lowerAZ

/-- A host for texts whose cased letters are basic Latin; the other outcomes
are left open. -/
def asciiRuntime (generateId isoNow : Nat → Str) (random : Nat → Nat)
    (sortOrder : Nat → Nat → List Nat) : Runtime :=
  { toLowerCase := asciiLowerCase
    generateId := generateId
    isoNow := isoNow
    random := random
    sortOrder := sortOrder }

/-- One concrete host: ids `i0, i1, ...`, a fixed clock, the `k`-th random
outcome `k`, and a sort that leaves the order alone. -/
def sampleRuntime : Runtime :=
  asciiRuntime (fun k => 'i' :: natToStr k) (fun _ => "2024-01-01T00:00:00.000Z".toList)
    (fun k => k) (fun _ n => List.range n)

/-- The fragments occur in the text one after the other, in this order and
without overlap. -/
def InTextOrder : List Str → Str → Prop
  | [], _ => True
  | f :: fs, text => ∃ pre rest : Str, text = pre ++ f ++ rest ∧ InTextOrder fs rest

/-- The word `w` stands at the current position: the text ahead starts with
`w`, and neither the character before it nor the character after it is a word
character. -/
def wordAt (w before after : Str) : Bool :=
  w.isPrefixOf after &&
  !(match before with
    | [] => false
    | p :: _ => isWordChar p) &&
  !(match after.drop w.length with
    | [] => false
    | n :: _ => isWordChar n)

/-- The word `w` stands at the current position or further on. -/
def hasWordFrom (w : Str) : Str → Str → Bool
  | _, [] => false
  | before, a :: rest => wordAt w before (a :: rest) || hasWordFrom w (a :: before) rest

/-- The text contains `w` as a word of its own (`hasWord_iff`). -/
def hasWord (w s : Str) : Bool := hasWordFrom w [] s

end JS

/-- The three difficulty levels. -/
inductive Difficulty where
  | easy
  | medium
  | hard
  deriving DecidableEq, Repr

/-- A flashcard record. -/
structure Flashcard where
  id : JS.Str
  topic : JS.Str
  front : JS.Str
  back : JS.Str
  notes : JS.Str
  tags : List JS.Str
  difficulty : Difficulty
  createdAt : JS.Str
  lastReviewed : Option JS.Str
  leitnerBox : Nat
  deriving DecidableEq, Repr

namespace FlashcardGenerator

open JS

/-- The literal `/\r\n/g`. -/
def reCRLF : Regex := { pattern := RE.lit ['\r', '\n'] }

/-- The literal `/\n+/g`. -/
def reNewlines : Regex := { pattern := RE.plus (RE.chr '\n') }

/-- The literal `/\s+/` (also used with the `g` flag). -/
def reSpaces : Regex := { pattern := RE.plus RE.space }

/-- Method `cleanText`. -/
def cleanText (text : Str) : Str :=
  trim (reSpaces.replaceAll [' '] (reNewlines.replaceAll ['\n'] (reCRLF.replaceAll ['\n'] text)))

/-- The literal `/(?<!\w\.\w.)(?<![A-Z][a-z]\.)(?<=\.|\?|\!)\s+/`. -/
def reSentenceBreak : Regex :=
  { pattern := RE.seqs
      [ RE.lookbehind true (RE.seqs [RE.word, RE.chr '.', RE.word, RE.any]),
        RE.lookbehind true (RE.seqs [RE.upper, RE.lower, RE.chr '.']),
        RE.lookbehind false (RE.alts [RE.chr '.', RE.chr '?', RE.chr '!']),
        RE.plus RE.space ] }

/-- Method `splitIntoSentences`. -/
def splitIntoSentences (text : Str) : List Str :=
  (reSentenceBreak.split text).filter fun sentence => decide ((trim sentence).length > 0)

/-- The keyword vocabulary of `containsSubstantiveContent`. -/
def substantiveKeywords : List Str :=
  ["system", "method", "process", "technique", "theory", "concept", "principle", "approach",
   "model", "framework", "study", "research", "analysis", "development", "implementation",
   "definition", "function", "purpose", "benefit", "advantage", "disadvantage",
   "characteristic", "feature"].map String.toList

/-- The literal `/(system|method|...|feature)/`. -/
def reKeywords : Regex :=
  { pattern := RE.group 1 (RE.alts (substantiveKeywords.map RE.lit)) }

/-- The literal `/[A-Z][a-z]+ [A-Z][a-z]+/`. -/
def reProperNouns : Regex :=
  { pattern := RE.seqs [RE.upper, RE.plus RE.lower, RE.chr ' ', RE.upper, RE.plus RE.lower] }

/-- The literal `/\d+/`. -/
def reDigits : Regex := { pattern := RE.plus RE.digit }

/-- Method `containsSubstantiveContent`. -/
def containsSubstantiveContent (rt : Runtime) (sentence : Str) : Bool :=
  let lowerSentence := rt.toLowerCase sentence
  let hasKeywords := reKeywords.test lowerSentence
  let hasProperNouns := reProperNouns.test sentence
  let hasNumbers := reDigits.test sentence
  hasKeywords || hasProperNouns || hasNumbers || decide (sentence.length > 50)

/-- The word list `sentence.trim().split(/\s+/)` of `isValidFlashcardSentence`. -/
def sentenceWords (sentence : Str) : List Str := reSpaces.split (trim sentence)

/-- Method `isValidFlashcardSentence`. -/
def isValidFlashcardSentence (rt : Runtime) (sentence : Str) : Bool :=
  let words := sentenceWords sentence
  decide (words.length ≥ 5) &&
  decide (words.length ≤ 35) &&
  !includes "http".toList sentence &&
  containsSubstantiveContent rt sentence

/-- The class `[^,.!?]`. -/
def notClauseEnd : RE :=
  RE.cls true [ClassAtom.chr ',', ClassAtom.chr '.', ClassAtom.chr '!', ClassAtom.chr '?']

/-- The three literals of `extractMainConcept`, all with the `i` flag:
`/([A-Z][^,.!?]{10,50}?)\s+(?:is|are|was|were|refers to|means|defined as)/i`,
`/(?:The|A|An)\s+([^,.!?]{10,40}?)\s+(?:is|are|was|were)/i`,
`/([A-Z][^,.!?]{10,50}?)\s+(?:can|may|might|should|must)/i`. -/
def conceptPatterns : List Regex :=
  [ { pattern := RE.seqs
        [ RE.group 1 (RE.seq RE.upper (RE.rep notClauseEnd 10 (some 50) false)),
          RE.plus RE.space,
          RE.alts (["is", "are", "was", "were", "refers to", "means", "defined as"].map
            fun w => RE.lit w.toList) ],
      ignoreCase := true },
    { pattern := RE.seqs
        [ RE.alts (["The", "A", "An"].map fun w => RE.lit w.toList),
          RE.plus RE.space,
          RE.group 1 (RE.rep notClauseEnd 10 (some 40) false),
          RE.plus RE.space,
          RE.alts (["is", "are", "was", "were"].map fun w => RE.lit w.toList) ],
      ignoreCase := true },
    { pattern := RE.seqs
        [ RE.group 1 (RE.seq RE.upper (RE.rep notClauseEnd 10 (some 50) false)),
          RE.plus RE.space,
          RE.alts (["can", "may", "might", "should", "must"].map fun w => RE.lit w.toList) ],
      ignoreCase := true } ]

/-- The literal `/[.,!?;:]$/`. -/
def reTrailingPunct : Regex :=
  { pattern := RE.seq
      (RE.cls false [ClassAtom.chr '.', ClassAtom.chr ',', ClassAtom.chr '!', ClassAtom.chr '?',
        ClassAtom.chr ';', ClassAtom.chr ':'])
      RE.endOfInput }

/-- The loop over the patterns in `extractMainConcept`: the first pattern that
matches with a non-empty group 1 gives the trimmed group. -/
def firstConceptMatch (sentence : Str) : List Regex → Option Str
  | [] => none
  | pattern :: rest =>
    match pattern.exec sentence with
    | some (_, some g) => if g.isEmpty then firstConceptMatch sentence rest else some (trim g)
    | _ => firstConceptMatch sentence rest

/-- Method `extractMainConcept`; `none` is `null`. -/
def extractMainConcept (sentence : Str) : Option Str :=
  match firstConceptMatch sentence conceptPatterns with
  | some concept => some concept
  | none =>
    let words := splitOnChar ' ' sentence
    if words.length > 5 then
      some (reTrailingPunct.replaceFirst [] (join [' '] (words.take 4)))
    else none

/-- JavaScript truthiness of a string-or-null value. -/
def truthy : Option Str → Bool
  | none => false
  | some s => !s.isEmpty

/-- Method `generateFrontContent`. -/
def generateFrontContent (sentence : Str) (mainConcept : Option Str) : Str :=
  if truthy mainConcept && decide ((mainConcept.getD []).length ≤ 40) then mainConcept.getD []
  else
    let words := splitOnChar ' ' sentence
    if words.length ≤ 8 then sentence
    else join [' '] (words.take 6) ++ (if words.length > 6 then "...".toList else [])

/-- The connectives of `getMostImportantClause`. -/
def importantWords : List Str :=
  ["because", "therefore", "however", "although", "while", "since"].map String.toList

/-- Method `getMostImportantClause`. It is only called on a non-empty list. -/
def getMostImportantClause (rt : Runtime) (clauses : List Str) : Str :=
  match clauses.find? fun clause =>
      let lowerClause := rt.toLowerCase clause
      importantWords.any (fun word => includes word lowerClause) ||
      reProperNouns.test clause ||
      reDigits.test clause with
  | some clause => trim clause
  | none => trim (clauses.headD [])

/-- The literal `/[,;:]|\band\b|\bor\b/`. -/
def reClauseBreak : Regex :=
  { pattern := RE.alts
      [ RE.cls false [ClassAtom.chr ',', ClassAtom.chr ';', ClassAtom.chr ':'],
        RE.seqs [RE.wordBoundary, RE.lit "and".toList, RE.wordBoundary],
        RE.seqs [RE.wordBoundary, RE.lit "or".toList, RE.wordBoundary] ] }

/-- Method `generateBackContent`. -/
def generateBackContent (rt : Runtime) (sentence : Str) : Str :=
  if sentence.length ≤ 120 then sentence
  else
    let clauses := reClauseBreak.split sentence
    if clauses.length > 1 then
      trim (clauses.headD []) ++ ". ".toList ++ getMostImportantClause rt (clauses.drop 1)
    else substring0 150 sentence ++ "...".toList

/-- The literal `/[^\w\s]/g`. -/
def reNonWord : Regex :=
  { pattern := RE.cls true [ClassAtom.word, ClassAtom.space] }

/-- The stop-word set of `extractKeywords`. -/
def stopWords : List Str :=
  ["the", "a", "an", "and", "or", "but", "in", "on", "at", "to", "for", "of", "with", "by",
   "is", "are", "was", "were", "be", "been", "being", "have", "has", "had", "do", "does",
   "did", "will", "would", "could", "should", "may", "might", "must", "can", "this", "that",
   "these", "those", "it", "its", "they", "them", "their", "what", "which", "who", "whom",
   "when", "where", "why", "how"].map String.toList

/-- The verb set of `isCommonVerb`. -/
def commonVerbs : List Str :=
  ["have", "has", "had", "do", "does", "did", "say", "says", "said", "make", "makes", "made",
   "go", "goes", "went", "get", "gets", "got", "know", "knows", "known", "see", "sees", "saw",
   "think", "thinks", "thought", "take", "takes", "took", "come", "comes", "came", "look",
   "looks"].map String.toList

/-- Method `isCommonVerb`. -/
def isCommonVerb (word : Str) : Bool := commonVerbs.contains word

/-- The filtered word list of `extractKeywords`. -/
def keywordWords (rt : Runtime) (text : Str) : List Str :=
  (reSpaces.split (reNonWord.replaceAll [' '] (rt.toLowerCase text))).filter fun word =>
    decide (word.length > 3) && !stopWords.contains word && !isCommonVerb word

/-- Function-valued properties every plain object inherits from `Object.prototype`. -/
def inheritedMethodNames : List Str :=
  ["constructor", "hasOwnProperty", "isPrototypeOf", "propertyIsEnumerable", "toLocaleString",
   "toString", "valueOf", "__defineGetter__", "__defineSetter__", "__lookupGetter__",
   "__lookupSetter__"].map String.toList

/-- The own properties of the `frequency` object in creation order. A value is
a count, or `none` for the non-numeric string that arises when the key shadows
an inherited method (`(frequency[word] || 0) + 1` then concatenates). -/
abbrev Frequency := List (Str × Option Nat)

/-- The assignment `frequency[word] = (frequency[word] || 0) + 1` for a key
other than `__proto__`. -/
def bump : Frequency → Str → Frequency
  | [], word => [(word, if inheritedMethodNames.contains word then none else some 1)]
  | (key, value) :: rest, word =>
    if key == word then (key, value.map fun n => n + 1) :: rest
    else (key, value) :: bump rest word

/-- The counting loop of `extractKeywords`. Assigning a string to `__proto__`
is ignored by the inherited setter, so that key never becomes an own property. -/
def countWords (words : List Str) : Frequency :=
  words.foldl (fun freq word => if word == "__proto__".toList then freq else bump freq word) []

/-- The numeric value of a key that is an array index (a canonical decimal
numeral below `2^32 - 1`). -/
def arrayIndex (key : Str) : Option Nat :=
  if key.isEmpty || !key.all isDigit then none
  else if decide (key.length > 1) && key.head? == some '0' then none
  else
    let n := key.foldl (fun acc c => 10 * acc + (c.toNat - 48)) 0
    if n < 4294967295 then some n else none

/-- JavaScript `Object.entries(frequency)`: array-index keys in ascending numeric order,
then the other keys in creation order. -/
def entries (freq : Frequency) : Frequency :=
  (freq.filter fun e => (arrayIndex e.1).isSome).insertionSort
      (fun a b => (arrayIndex a.1).getD 0 ≤ (arrayIndex b.1).getD 0) ++
    freq.filter fun e => (arrayIndex e.1).isNone

/-- The score `count * word.length`; `none` is `NaN`. -/
def score (e : Str × Option Nat) : Option Nat := e.2.map fun count => count * e.1.length

/-- The comparator of `extractKeywords` does not ask for `b` before `a`:
`scoreB - scoreA` is not positive (a `NaN` difference counts as zero). -/
def keepsOrder (a b : Str × Option Nat) : Bool :=
  match score a, score b with
  | some sa, some sb => decide (sb ≤ sa)
  | _, _ => true

/-- Method `extractKeywords`. `Array.prototype.sort` is stable; it is run here
as a stable insertion sort. -/
def extractKeywords (rt : Runtime) (text : Str) : List Str :=
  (((entries (countWords (keywordWords rt text))).insertionSort
    fun a b => keepsOrder a b = true).take 5).map Prod.fst

/-- Method `assessDifficulty`. The comparisons of the quotient with `0.3` and
`0.15` are taken over the rationals; on doubles they give the same result
(`assessDifficulty_double`). -/
def assessDifficulty (sentence : Str) : Difficulty :=
  let words := splitOnChar ' ' sentence
  let longWords := (words.filter fun word => decide (word.length > 8)).length
  let ratio : ℚ := (longWords : ℚ) / (words.length : ℚ)
  if ratio > 3 / 10 then Difficulty.hard
  else if ratio > 15 / 100 then Difficulty.medium
  else Difficulty.easy

/-- The word set `new Set(str.toLowerCase().split(/\s+/))` of `calculateSimilarity`. -/
def wordSet (rt : Runtime) (str : Str) : List Str :=
  toSet (reSpaces.split (rt.toLowerCase str))

/-- Method `calculateSimilarity`, as an exact quotient. -/
def calculateSimilarity (rt : Runtime) (str1 str2 : Str) : ℚ :=
  let words1 := wordSet rt str1
  let words2 := wordSet rt str2
  let intersection := toSet (words1.filter fun x => words2.contains x)
  let union := toSet (words1 ++ words2)
  (intersection.length : ℚ) / (union.length : ℚ)

/-- Method `isDuplicateCard`. The threshold test `> 0.7` is taken over the
rationals; on doubles it gives the same result (`similarity_threshold_double`). -/
def isDuplicateCard (rt : Runtime) (newCard : Flashcard) (existingCards : List Flashcard) : Bool :=
  existingCards.any fun card =>
    card.front == newCard.front ||
    card.back == newCard.back ||
    decide (calculateSimilarity rt card.front newCard.front > 7 / 10)

/-- Method `createFlashcardFromSentence`; `none` is `null`. The two host calls
(`generateId`, `new Date()`) are calls `tick` and `tick + 1`. -/
def createFlashcardFromSentence (rt : Runtime) (tick : Nat) (sentence : Str) (index : Nat) :
    Option Flashcard :=
  let keywords := extractKeywords rt sentence
  let mainConcept := extractMainConcept sentence
  if !truthy mainConcept then none
  else some
    { id := rt.generateId tick
      topic := "Concept ".toList ++ natToStr (index + 1)
      front := generateFrontContent sentence mainConcept
      back := generateBackContent rt sentence
      notes := []
      tags := keywords.take 3
      difficulty := assessDifficulty sentence
      createdAt := rt.isoNow (tick + 1)
      lastReviewed := none
      leitnerBox := 0 }

/-- Body of the `forEach` callback in `processText`, on the pair of the cards
collected so far and the host-call counter. -/
def processSentence (rt : Runtime) (acc : List Flashcard × Nat) (entry : Nat × Str) :
    List Flashcard × Nat :=
  if isValidFlashcardSentence rt entry.2 then
    match createFlashcardFromSentence rt acc.2 entry.2 entry.1 with
    | some flashcard =>
      if !isDuplicateCard rt flashcard acc.1 then (acc.1 ++ [flashcard], acc.2 + 2)
      else (acc.1, acc.2 + 2)
    | none => acc
  else acc

/-- The array `flashcards` at the end of the `forEach` loop of `processText`,
with the host-call counter. -/
def collectCards (rt : Runtime) (tick : Nat) (sentences : List Str) : List Flashcard × Nat :=
  sentences.enum.foldl (processSentence rt) ([], tick)

/-- Method `processText`: the returned cards and the host-call counter afterwards. -/
def processText (rt : Runtime) (tick : Nat) (text : Str) : List Flashcard × Nat :=
  let cleanedText := cleanText text
  let sentences := splitIntoSentences cleanedText
  let collected := collectCards rt tick sentences
  (collected.1.take 10, collected.2)

/-- The generator state the model follows. -/
structure State where
  flashcards : List Flashcard
  currentInput : Str
  tick : Nat
  /-- The five Leitner boxes, each a list of card ids. -/
  leitnerBoxes : List (List Str) := [[], [], [], [], []]
  /-- The record stored under the key `flashj-flashcards`, if any. -/
  savedFlashcards : Option (List Flashcard) := none
  /-- The record stored under the key `flashj-leitner`, if any. -/
  savedLeitner : Option (List (List Str)) := none

/-- Method `saveData`. Modelled from the spec: `FlashJUtils.saveToLocalStorage`
is not part of the sources; it stores the given value under the given key of
the local key-value store. -/
def saveData (s : State) : State :=
  { s with savedFlashcards := some s.flashcards, savedLeitner := some s.leitnerBoxes }

/-- Method `generateFlashcards`, from the click to the end of the delayed
callback (the input is not edited in between). -/
def generateFlashcards (rt : Runtime) (s : State) : State :=
  if (trim s.currentInput).isEmpty then s
  else
    let newFlashcards := processText rt s.tick s.currentInput
    saveData { s with flashcards := s.flashcards ++ newFlashcards.1, tick := newFlashcards.2 }

/-- The text of the Leitner scenario. -/
def leitnerText : Str :=
  "The Leitner system is a spaced repetition technique. It was developed by Sebastian Leitner.".toList

/-- The first card generated from `leitnerText` under `sampleRuntime`. -/
def leitnerCard : Flashcard :=
  { id := "i0".toList
    topic := "Concept 1".toList
    front := "The Leitner system".toList
    back := "The Leitner system is a spaced repetition technique.".toList
    notes := []
    tags := ["repetition".toList, "technique".toList, "leitner".toList]
    difficulty := Difficulty.medium
    createdAt := "2024-01-01T00:00:00.000Z".toList
    lastReviewed := none
    leitnerBox := 0 }

/-- A generator state holding `leitnerText` as input and no cards yet. -/
def leitnerState : State :=
  { flashcards := [], currentInput := leitnerText, tick := 0 }

/-- Reading of "no card is added whose front or back equals that of another
card unless both were stored before": a pair of positions whose later member is
new has different fronts and different backs. -/
def NoNewDuplicate (before after : List Flashcard) : Prop :=
  ∀ i j : Nat, i < j → j < after.length → before.length ≤ j →
    (after.map Flashcard.front)[i]? ≠ (after.map Flashcard.front)[j]? ∧
    (after.map Flashcard.back)[i]? ≠ (after.map Flashcard.back)[j]?

/-- What the study modal shows: a card with the arguments its two buttons
pass on, or the closing summary. -/
inductive StudyView where
  | card (currentCard : Flashcard) (currentIndex knownCards total : Nat)
  | complete (knownCards totalCards : Nat)
  deriving DecidableEq, Repr

/-- Method `updateStudyModal`: past the end it calls `endStudySession`,
otherwise it draws `cards[currentIndex]` and buttons carrying
`(currentIndex, knownCards, cards.length)`. -/
def updateStudyModal (cards : List Flashcard) (currentIndex knownCards : Nat) : StudyView :=
  match cards[currentIndex]? with
  | none => StudyView.complete knownCards cards.length
  | some currentCard => StudyView.card currentCard currentIndex knownCards cards.length

/-- The local array `studyCards` of `showStudyModal`: the stored cards in the
order the sort with the random comparator leaves them in. -/
def studyCards (rt : Runtime) (s : State) : List Flashcard :=
  (rt.sortOrder s.tick s.flashcards.length).filterMap fun k => s.flashcards[k]?

/-- Method `showStudyModal`. -/
def showStudyModal (rt : Runtime) (s : State) : StudyView :=
  updateStudyModal (studyCards rt s) 0 0

/-- Method `startStudyMode`; `none` when there is nothing to study. -/
def startStudyMode (rt : Runtime) (s : State) : Option StudyView :=
  if s.flashcards.length = 0 then none else some (showStudyModal rt s)

/-- Method `markKnown`, with the modal on screen. -/
def markKnown (s : State) (currentIndex knownCards totalCards : Nat) : StudyView :=
  let newKnownCards := knownCards + 1
  let newIndex := currentIndex + 1
  if newIndex ≥ totalCards then StudyView.complete newKnownCards totalCards
  else updateStudyModal s.flashcards newIndex newKnownCards

/-- Method `markUnknown`, with the modal on screen. -/
def markUnknown (s : State) (currentIndex knownCards totalCards : Nat) : StudyView :=
  let newIndex := currentIndex + 1
  if newIndex ≥ totalCards then StudyView.complete knownCards totalCards
  else updateStudyModal s.flashcards newIndex knownCards

/-- A click on one of the two buttons of the view (`known` for "I Know This"). -/
def press (s : State) (view : StudyView) (known : Bool) : StudyView :=
  match view with
  | StudyView.card _ currentIndex knownCards total =>
    if known then markKnown s currentIndex knownCards total
    else markUnknown s currentIndex knownCards total
  | StudyView.complete knownCards totalCards => StudyView.complete knownCards totalCards

/-- A second card, built from the second sentence of `leitnerText`. -/
def developedCard : Flashcard :=
  { id := "i2".toList
    topic := "Concept 2".toList
    front := "It was developed by".toList
    back := "It was developed by Sebastian Leitner.".toList
    notes := []
    tags := ["developed".toList, "sebastian".toList, "leitner".toList]
    difficulty := Difficulty.hard
    createdAt := "2024-01-01T00:00:00.000Z".toList
    lastReviewed := none
    leitnerBox := 0 }

/-- A generator state storing `leitnerCard` and `developedCard`, in this order. -/
def twoCardState : State :=
  { flashcards := [leitnerCard, developedCard], currentInput := [], tick := 4 }

/-- A host whose sort with the random comparator reverses the array. -/
def reversingRuntime : Runtime :=
  asciiRuntime (fun k => 'i' :: natToStr k) (fun _ => "2024-01-01T00:00:00.000Z".toList)
    (fun k => k) (fun _ n => (List.range n).reverse)

/-- A sentence with the word `__proto__`. -/
def protoText : Str :=
  "The __proto__ property is a link to the prototype object.".toList

/-- A generator state with a whitespace-only input. -/
def blankState : State :=
  { flashcards := [leitnerCard], currentInput := " \n\t ".toList, tick := 2 }

/-- A sentence of 152 characters with a colon and no other clause break. -/
def colonSentence : Str :=
  ("The Leitner system sorts every flashcard into numbered boxes: cards answered correctly " ++
    "move forward while cards answered wrongly return to the first box").toList

/-- A sentence of 158 characters without clause breaks. -/
def plainSentence : Str :=
  ("The Leitner system sorts every flashcard into numbered boxes so that cards answered " ++
    "correctly move forward while cards answered wrongly return to the first box").toList

end FlashcardGenerator

/-- A multiple-choice question record. -/
structure MCQ where
  id : JS.Str
  question : JS.Str
  options : List JS.Str
  correctAnswer : Nat
  explanation : JS.Str
  difficulty : Difficulty
  topic : JS.Str
  createdAt : JS.Str
  deriving DecidableEq, Repr

/-- One entry of the quiz log. -/
structure QuizResult where
  mcqId : JS.Str
  question : JS.Str
  selectedAnswer : Nat
  isCorrect : Bool
  timestamp : JS.Str
  deriving DecidableEq, Repr

namespace MCQGenerator

open JS

/-- The literal `/[.!?]+/`. -/
def reSentenceEnd : Regex :=
  { pattern := RE.plus (RE.cls false [ClassAtom.chr '.', ClassAtom.chr '!', ClassAtom.chr '?']) }

/-- Method `isDeclarative`. -/
def isDeclarative (rt : Runtime) (sentence : Str) : Bool :=
  let lower := rt.toLowerCase sentence
  !startsWith "how".toList lower &&
  !startsWith "what".toList lower &&
  !startsWith "why".toList lower &&
  !startsWith "when".toList lower &&
  !startsWith "where".toList lower &&
  !startsWith "who".toList lower &&
  !startsWith "can you".toList lower &&
  !startsWith "please".toList lower &&
  !endsWith "?".toList lower

/-- Method `extractDeclarativeSentences`. -/
def extractDeclarativeSentences (rt : Runtime) (text : Str) : List Str :=
  let sentences := (reSentenceEnd.split text).filter fun sentence =>
    let trimmed := trim sentence
    decide (trimmed.length > 20) &&
    decide (trimmed.length < 150) &&
    !startsWith ['"'] trimmed &&
    isDeclarative rt trimmed
  sentences.take 15

/-- The four literals of `extractEntities`, all with the `g` flag:
`/(\b[A-Z][a-z]+ [A-Z][a-z]+\b)/g`, `/(\b[a-z]+ [a-z]+ [a-z]+\b)/g`,
`/(\b[a-z]+ [a-z]+\b)/g`, `/(\b[A-Z][a-z]+\b)/g`. -/
def nounPatterns : List Regex :=
  [ { pattern := RE.group 1 (RE.seqs
        [RE.wordBoundary, RE.upper, RE.plus RE.lower, RE.chr ' ', RE.upper, RE.plus RE.lower,
         RE.wordBoundary]) },
    { pattern := RE.group 1 (RE.seqs
        [RE.wordBoundary, RE.plus RE.lower, RE.chr ' ', RE.plus RE.lower, RE.chr ' ',
         RE.plus RE.lower, RE.wordBoundary]) },
    { pattern := RE.group 1 (RE.seqs
        [RE.wordBoundary, RE.plus RE.lower, RE.chr ' ', RE.plus RE.lower, RE.wordBoundary]) },
    { pattern := RE.group 1 (RE.seqs [RE.wordBoundary, RE.upper, RE.plus RE.lower,
        RE.wordBoundary]) } ]

/-- The array `entities` at the end of the `forEach` loop of `extractEntities`. -/
def rawEntities (sentence : Str) : List Str :=
  nounPatterns.foldl
    (fun entities pattern =>
      match pattern.matchAll sentence with
      | some found => entities ++ found.filter fun ent => decide (ent.length > 3)
      | none => entities)
    []

/-- Method `extractEntities`. -/
def extractEntities (sentence : Str) : List Str :=
  ((toSet (rawEntities sentence)).filter fun ent =>
    decide (ent.length > 3) && decide (ent.length < 30)).take 8

/-- Method `generateQuestion`. -/
def generateQuestion (sentence targetEntity : Str) : Str :=
  let questionBase := replaceFirstStr targetEntity "__________".toList sentence
  "What best fits in the blank: \"".toList ++ questionBase ++ "\"?".toList

/-- The common shape of the distractor loops: walk through `candidates` until
three distractors are collected, taking each candidate that is not yet used
and passes `ok`. The state is the pair of `distractors` and `usedEntities`. -/
def pick (ok : Str → Bool) : List Str → List Str × List Str → List Str × List Str
  | [], st => st
  | cand :: rest, st =>
    if st.1.length ≥ 3 then st
    else if !st.2.contains cand && ok cand then pick ok rest (st.1 ++ [cand], st.2 ++ [cand])
    else pick ok rest st

/-- The candidate list of `generateEasyDistractors`. -/
def easyDistractors : List Str :=
  ["different approach", "alternative method", "various techniques", "multiple ways",
   "other means", "diverse strategies"].map String.toList

/-- Method `generateEasyDistractors`. -/
def generateEasyDistractors (_entities : List Str) (_correctAnswer : Str)
    (usedEntities : List Str) (_originalSentence : Str) : List Str :=
  (pick (fun _ => true) easyDistractors ([], usedEntities)).1

/-- The filler list of `generateMediumDistractors`. -/
def genericDistractors : List Str :=
  ["the process", "the system", "the method"].map String.toList

/-- Method `generateMediumDistractors`. -/
def generateMediumDistractors (entities : List Str) (correctAnswer : Str)
    (usedEntities : List Str) (_originalSentence : Str) : List Str :=
  let fromEntities := pick (fun entity => entity != correctAnswer) entities ([], usedEntities)
  (pick (fun _ => true) genericDistractors fromEntities).1

/-- Method `findSimilarWords`. -/
def findSimilarWords (rt : Runtime) (target : Str) (entities : List Str) : List Str :=
  let targetWords := splitOnChar ' ' (rt.toLowerCase target)
  entities.filter fun entity =>
    if entity == target then false
    else
      let entityWords := splitOnChar ' ' (rt.toLowerCase entity)
      let similarity := (targetWords.filter fun tw =>
        entityWords.any fun ew => includes tw ew || includes ew tw).length
      decide (similarity > 0)

/-- Method `generateHardDistractors`. -/
def generateHardDistractors (rt : Runtime) (entities : List Str) (correctAnswer : Str)
    (usedEntities : List Str) (_originalSentence : Str) : List Str :=
  let similarWords := findSimilarWords rt correctAnswer entities
  let fromSimilar := pick (fun _ => true) similarWords ([], usedEntities)
  (pick (fun entity => entity != correctAnswer) entities fromSimilar).1

/-- Method `generateDistractors`. -/
def generateDistractors (rt : Runtime) (entities : List Str) (correctAnswer : Str)
    (difficulty : Difficulty) (originalSentence : Str) : List Str :=
  let usedEntities := [correctAnswer]
  match difficulty with
  | Difficulty.easy => generateEasyDistractors entities correctAnswer usedEntities originalSentence
  | Difficulty.medium =>
    generateMediumDistractors entities correctAnswer usedEntities originalSentence
  | Difficulty.hard =>
    generateHardDistractors rt entities correctAnswer usedEntities originalSentence

/-- The exchange `[array[i], array[j]] = [array[j], array[i]]`. -/
def swap {α : Type} (array : List α) (i j : Nat) : List α :=
  match array[i]?, array[j]? with
  | some a, some b => (array.set i b).set j a
  | _, _ => array

/-- The loop of `shuffleArray`, entered with loop variable `i`; each round
draws one random number. -/
def shuffleLoop {α : Type} (rt : Runtime) : Nat → Nat → List α → List α × Nat
  | 0, tick, array => (array, tick)
  | i + 1, tick, array =>
    let j := rt.randomBelow tick (i + 1 + 1)
    shuffleLoop rt i (tick + 1) (swap array (i + 1) j)

/-- Method `shuffleArray`: the shuffled array and the host-call counter afterwards. -/
def shuffleArray {α : Type} (rt : Runtime) (tick : Nat) (array : List α) : List α × Nat :=
  shuffleLoop rt (array.length - 1) tick array

/-- Method `createMCQ`: the question (`none` is `null`) and the host-call
counter afterwards. -/
def createMCQ (rt : Runtime) (tick : Nat) (sentence : Str) (difficulty : Difficulty)
    (index : Nat) : Option MCQ × Nat :=
  let entities := extractEntities sentence
  if entities.length < 2 then (none, tick)
  else
    let targetIndex := rt.randomBelow tick entities.length
    let targetEntity := entities.getD targetIndex []
    let question := generateQuestion sentence targetEntity
    let correctAnswer := targetEntity
    let distractors := generateDistractors rt entities targetEntity difficulty sentence
    if distractors.length < 3 then (none, tick + 1)
    else
      let shuffled := shuffleArray rt (tick + 2) (correctAnswer :: distractors)
      (some
        { id := rt.generateId (tick + 1)
          question := question
          options := shuffled.1
          correctAnswer := 0
          explanation := sentence
          difficulty := difficulty
          topic := "Topic ".toList ++ natToStr (index / 3 + 1)
          createdAt := rt.isoNow shuffled.2 },
       shuffled.2 + 1)

/-- The `for` loop of `processText` over the sentences still to visit, `i`
being the index of the first of them. -/
def processLoop (rt : Runtime) (difficulty : Difficulty) :
    List Str → Nat → Nat → List MCQ × Nat
  | [], _, tick => ([], tick)
  | sentence :: rest, i, tick =>
    let made := createMCQ rt tick sentence difficulty i
    let later := processLoop rt difficulty rest (i + 1) made.2
    match made.1 with
    | some mcq => (mcq :: later.1, later.2)
    | none => later

/-- The value `normalizedText` of `processText`. -/
def normalizedText (text : Str) : Str :=
  trim (FlashcardGenerator.reNewlines.replaceAll ['\n']
    (FlashcardGenerator.reCRLF.replaceAll ['\n'] text))

/-- Method `processText`: the returned questions and the host-call counter afterwards. -/
def processText (rt : Runtime) (tick : Nat) (text : Str) (difficulty : Difficulty)
    (count : Nat) : List MCQ × Nat :=
  let sentences := extractDeclarativeSentences rt (normalizedText text)
  processLoop rt difficulty (sentences.take (min sentences.length count)) 0 tick

/-- The generator state the model follows. -/
structure State where
  mcqs : List MCQ
  currentInput : Str
  quizResults : List QuizResult
  quizInProgress : Bool
  currentQuiz : List MCQ
  currentQuestionIndex : Nat
  quizScore : Nat
  tick : Nat
  /-- The record stored under the key `flashj-mcqs`, if any. -/
  savedMcqs : Option (List MCQ) := none
  /-- The record stored under the key `flashj-quiz-results`, if any. -/
  savedQuizResults : Option (List QuizResult) := none

/-- Method `saveData`. Modelled from the spec: `FlashJUtils.saveToLocalStorage`
is not part of the sources; it stores the given value under the given key of
the local key-value store. -/
def saveData (s : State) : State :=
  { s with savedMcqs := some s.mcqs, savedQuizResults := some s.quizResults }

/-- Method `generateMCQs`, from the click to the end of the delayed callback
(the input is not edited in between). `difficulty` and `questionCount` are the
values read from the two form controls. -/
def generateMCQs (rt : Runtime) (s : State) (difficulty : Difficulty) (questionCount : Nat) :
    State :=
  if (trim s.currentInput).isEmpty then s
  else
    let newMCQs := processText rt s.tick s.currentInput difficulty questionCount
    saveData { s with mcqs := s.mcqs ++ newMCQs.1, tick := newMCQs.2 }

/-- The array `newOptions` built by `editMCQ`: position `i` gets the answer of
its prompt when that is a non-empty text and keeps the old option otherwise. -/
def editedOptions (newOption : Nat → Option Str) : Nat → List Str → List Str
  | _, [] => []
  | i, option :: rest =>
    (if FlashcardGenerator.truthy (newOption i) then (newOption i).getD [] else option) ::
      editedOptions newOption (i + 1) rest

/-- The first question with the given id, replaced by `edited`. -/
def replaceById (mcqId : Str) (edited : MCQ) : List MCQ → List MCQ
  | [] => []
  | m :: rest => if m.id == mcqId then edited :: rest else m :: replaceById mcqId edited rest

/-- Method `editMCQ`. `newQuestion` is the answer of the first prompt (`none`
for a cancelled one) and `newOption i` that of the prompt for option `i`. The
edit changes the found object in place; a running quiz holds the collection's
own objects, so the edit shows there too (an entry of `currentQuiz` is taken to
be the edited object when it equals it in every field). -/
def editMCQ (s : State) (mcqId : Str) (newQuestion : Option Str)
    (newOption : Nat → Option Str) : State :=
  match s.mcqs.find? fun m => m.id == mcqId with
  | none => s
  | some mcq =>
    if FlashcardGenerator.truthy newQuestion then
      let edited : MCQ :=
        { mcq with
          question := newQuestion.getD []
          options := editedOptions newOption 0 mcq.options }
      saveData
        { s with
          mcqs := replaceById mcqId edited s.mcqs
          currentQuiz := s.currentQuiz.map fun m => if m = mcq then edited else m }
    else s

/-- Method `deleteMCQ`; `confirmed` is the answer of the `confirm` dialog. -/
def deleteMCQ (s : State) (mcqId : Str) (confirmed : Bool) : State :=
  if confirmed then saveData { s with mcqs := s.mcqs.filter fun m => m.id != mcqId }
  else s

/-- Method `startQuizMode`. With no stored question only a toast is shown. -/
def startQuizMode (rt : Runtime) (s : State) : State :=
  if s.mcqs.length = 0 then s
  else
    { s with
      quizInProgress := true
      currentQuiz :=
        ((rt.sortOrder s.tick s.mcqs.length).filterMap fun k => s.mcqs[k]?).take 5
      currentQuestionIndex := 0
      quizScore := 0
      tick := s.tick + 1 }

/-- Method `selectAnswer`. With no current question the property access on
`undefined` throws: `none`. -/
def selectAnswer (rt : Runtime) (s : State) (selectedIndex : Nat) : Option State :=
  match s.currentQuiz[s.currentQuestionIndex]? with
  | none => none
  | some currentQ =>
    let isCorrect := selectedIndex == 0
    some
      { s with
        quizResults := s.quizResults ++
          [{ mcqId := currentQ.id
             question := currentQ.question
             selectedAnswer := selectedIndex
             isCorrect := isCorrect
             timestamp := rt.isoNow s.tick }]
        quizScore := if isCorrect then s.quizScore + 1 else s.quizScore
        currentQuestionIndex := s.currentQuestionIndex + 1
        tick := s.tick + 1 }

/-- The `percentage` computed by `endQuiz`; `none` is the `NaN` of an empty quiz.
A quiz has at most 5 questions, for which the value over the rationals is the
value computed on doubles (`jsPercent_small`). The state the method leaves is
`endQuizState`. -/
def endQuiz (s : State) : Option Int :=
  if s.currentQuiz.length = 0 then none
  else some (mathRound ((s.quizScore : ℚ) / (s.currentQuiz.length : ℚ) * 100))

/-- A run of `selectAnswer`, one call per entry of `answers`; `none` as soon
as a call throws. -/
def answerAll (rt : Runtime) : State → List Nat → Option State
  | s, [] => some s
  | s, selectedIndex :: rest =>
    match selectAnswer rt s selectedIndex with
    | none => none
    | some s' => answerAll rt s' rest

/-- The invariant of the distractor loops: the distractors are pairwise
distinct, all marked as used, at most three, and the correct answer is used
but is no distractor. -/
def PickInv (correct : Str) (st : List Str × List Str) : Prop :=
  st.1.Nodup ∧ (∀ d ∈ st.1, d ∈ st.2) ∧ correct ∈ st.2 ∧ correct ∉ st.1 ∧ st.1.length ≤ 3

/-- A declarative sentence with seven extractable entities. -/
def leitnerSentence : Str :=
  "The Leitner system is a spaced repetition technique".toList

/-- The question `createMCQ` builds from `leitnerSentence` under
`sampleRuntime` at counter 0 with difficulty medium: the blanked entity is
"The Leitner" and the shuffle leaves it at index 2. -/
def leitnerMCQ : MCQ :=
  { id := "i1".toList
    question :=
      "What best fits in the blank: \"__________ system is a spaced repetition technique\"?".toList
    options := ["system is a".toList, "system is".toList, "The Leitner".toList,
      "spaced repetition technique".toList]
    correctAnswer := 0
    explanation := leitnerSentence
    difficulty := Difficulty.medium
    topic := "Topic 1".toList
    createdAt := "2024-01-01T00:00:00.000Z".toList }

/-- A stored question whose `correctAnswer` is not 0. -/
def storedQuestion : MCQ :=
  { id := "1".toList
    question := "What does the Leitner system help improve?".toList
    options := ["Battery life".toList, "File compression".toList, "Memory retention".toList,
      "Screen resolution".toList]
    correctAnswer := 2
    explanation := []
    difficulty := Difficulty.easy
    topic := "Learning Systems".toList
    createdAt := [] }

/-- A generator state that stores `leitnerMCQ` and `storedQuestion`, no quiz
started yet. -/
def storedState : State :=
  { mcqs := [leitnerMCQ, storedQuestion]
    currentInput := []
    quizResults := []
    quizInProgress := false
    currentQuiz := []
    currentQuestionIndex := 0
    quizScore := 0
    tick := 0 }

/-- A quiz in progress whose current question is `storedQuestion`. -/
def storedQuiz : State :=
  { storedState with quizInProgress := true, currentQuiz := [storedQuestion] }

/-- The state after answering 0 in `storedQuiz`. -/
def storedQuizAnswered : State :=
  { storedQuiz with
    quizResults :=
      [{ mcqId := "1".toList
         question := storedQuestion.question
         selectedAnswer := 0
         isCorrect := true
         timestamp := "2024-01-01T00:00:00.000Z".toList }]
    quizScore := 1
    currentQuestionIndex := 1
    tick := 1 }

/-- The state after `endQuiz`: besides drawing the result the method only
calls `saveData`. -/
def endQuizState (s : State) : State := saveData s

/-- A generator state with a whitespace-only input. -/
def blankState : State :=
  { storedState with currentInput := " \n\t ".toList }

/-- A sentence whose two entities are generic fillers. -/
def fillerSentence : Str := "the process, the system".toList

/-- A call made on the generator while a quiz is on screen. -/
inductive QuizCall where
  | selectAnswer (selectedIndex : Nat)
  | endQuiz
  deriving DecidableEq, Repr

/-- The state after one call. A `selectAnswer` call that throws has changed no
field before it throws. -/
def call (rt : Runtime) (s : State) : QuizCall → State
  | QuizCall.selectAnswer selectedIndex => (selectAnswer rt s selectedIndex).getD s
  | QuizCall.endQuiz => endQuizState s

/-- The state after a sequence of calls. -/
def runCalls (rt : Runtime) (s : State) (calls : List QuizCall) : State :=
  calls.foldl (call rt) s

/-- What every state of a started quiz satisfies. -/
def QuizInv (s0 t : State) : Prop :=
  t.quizScore ≤ t.currentQuestionIndex ∧ t.currentQuestionIndex ≤ t.currentQuiz.length ∧
    t.currentQuiz = s0.currentQuiz ∧ t.mcqs = s0.mcqs

end MCQGenerator

/-! ## Statistics (`stats.js`) -/

namespace StatisticsManager

open JS

/-- What the host's `Date` supplies. An instant is a number of milliseconds
since the epoch; a local calendar day (the text printed by `toDateString`) is
named by its number. -/
structure Clock where
  /-- The instant `new Date()`. -/
  now : Int
  /-- The instant `new Date(timestamp)` of a stored timestamp. -/
  parse : Str → Int
  /-- The local calendar day that contains an instant. -/
  dayOf : Int → Int
  /-- The instant `new Date(dateString)` of a printed day: the start of that local day. -/
  midnightOf : Int → Int

/-- The decimal number written at positions `start, ..., start + len - 1`. -/
def digitsAt (s : Str) (start len : Nat) : Int :=
  Int.ofNat (((s.drop start).take len).foldl (fun acc c => 10 * acc + (c.toNat - 48)) 0)

/-- Days from 1970-01-01 to a date of the Gregorian calendar (years from 1970 on). -/
def daysFromCivil (year month day : Int) : Int :=
  let y := if month ≤ 2 then year - 1 else year
  let era := y / 400
  let yearOfEra := y - era * 400
  let dayOfYear := (153 * ((month + 9) % 12) + 2) / 5 + day - 1
  let dayOfEra := yearOfEra * 365 + yearOfEra / 4 - yearOfEra / 100 + dayOfYear
  era * 146097 + dayOfEra - 719468

/-- The instant named by a timestamp in the format of `toISOString`,
`YYYY-MM-DDTHH:mm:ss.sssZ`. -/
def parseIso (s : Str) : Int :=
  daysFromCivil (digitsAt s 0 4) (digitsAt s 5 2) (digitsAt s 8 2) * 86400000 +
    digitsAt s 11 2 * 3600000 + digitsAt s 14 2 * 60000 + digitsAt s 17 2 * 1000 +
    digitsAt s 20 3

/-- A host whose local time is UTC: every local day lasts 24 hours. -/
def utcClock (now : Int) : Clock :=
  { now := now
    parse := parseIso
    dayOf := fun t => t / 86400000
    midnightOf := fun d => d * 86400000 }

/-- A host in the zone America/New_York, for instants between 2024-11-03 and
2025-11-02: local time is 5 hours behind UTC until 2025-03-09T07:00:00Z and 4
hours behind afterwards, so the local day 2025-03-09 (day 20156) lasts 23 hours. -/
def newYorkClock (now : Int) : Clock :=
  { now := now
    parse := parseIso
    dayOf := fun t => (t - (if t < 1741503600000 then 18000000 else 14400000)) / 86400000
    midnightOf := fun d => d * 86400000 + (if d ≤ 20156 then 18000000 else 14400000) }

/-- A quiz log entry written at the given time. -/
def resultAt (timestamp : String) (isCorrect : Bool) : QuizResult :=
  QuizResult.mk "m1".toList "Which technique is described?".toList 0 isCorrect timestamp.toList

/-- The array `[...new Set(days)]`: first occurrences, in insertion order. -/
def daySet : List Int → List Int
  | [] => []
  | d :: ds => d :: (daySet ds).filter fun e => e != d

/-- The array `dates` of `calculateStreak`: the distinct days with a result,
sorted by `new Date(b) - new Date(a)`. `Array.prototype.sort` is stable; it is
run here as a stable insertion sort. -/
def activityDates (clock : Clock) (quizResults : List QuizResult) : List Int :=
  (daySet (quizResults.map fun r => clock.dayOf (clock.parse r.timestamp))).insertionSort
    fun a b => clock.midnightOf b - clock.midnightOf a ≤ 0

/-- The `for` loop of `calculateStreak`, from index `i` on, over the remaining dates. -/
def streakLoop (clock : Clock) : List Int → Nat → Nat → Nat
  | [], _, streak => streak
  | date :: rest, i, streak =>
    let diffTime := clock.now - clock.midnightOf date
    let diffDays := Int.floor ((diffTime : ℚ) / (1000 * 60 * 60 * 24))
    if diffDays = (i : Int) then streakLoop clock rest (i + 1) (streak + 1) else streak

/-- Method `calculateStreak`. -/
def calculateStreak (clock : Clock) (quizResults : List QuizResult) : Nat :=
  if quizResults.length = 0 then 0
  else streakLoop clock (activityDates clock quizResults) 0 0

/-- The array `recentResults` of `calculateStats`. -/
def recentResults (clock : Clock) (quizResults : List QuizResult) : List QuizResult :=
  quizResults.filter fun result =>
    decide (clock.now - 7 * 24 * 60 * 60 * 1000 ≤ clock.parse result.timestamp)

/-- The value `accuracy` of `calculateStats`. -/
def accuracy (clock : Clock) (quizResults : List QuizResult) : Int :=
  if (recentResults clock quizResults).length > 0 then
    jsPercent ((recentResults clock quizResults).filter fun r => r.isCorrect).length
      (recentResults clock quizResults).length
  else 0

/-- The record kept per topic: `total`, `mastered` and the three `difficulty` counters. -/
structure TopicStats where
  total : Nat
  mastered : Nat
  easy : Nat
  medium : Nat
  hard : Nat
  deriving DecidableEq, Repr

/-- The three updates of one `forEach` round on the record of the card's topic. -/
def tally (data : TopicStats) (card : Flashcard) : TopicStats :=
  { total := data.total + 1
    mastered := if card.leitnerBox ≥ 3 then data.mastered + 1 else data.mastered
    easy := if card.difficulty = Difficulty.easy then data.easy + 1 else data.easy
    medium := if card.difficulty = Difficulty.medium then data.medium + 1 else data.medium
    hard := if card.difficulty = Difficulty.hard then data.hard + 1 else data.hard }

/-- One `forEach` round on the own properties of `topics` (in creation order),
for a topic that is not an inherited property name. -/
def addCard : List (Str × TopicStats) → Flashcard → List (Str × TopicStats)
  | [], card => [(card.topic, tally (TopicStats.mk 0 0 0 0 0) card)]
  | (key, data) :: rest, card =>
    if key == card.topic then (key, tally data card) :: rest
    else (key, data) :: addCard rest card

/-- The names for which `topics[name]` is truthy on the empty object `{}`. -/
def inheritedNames : List Str := "__proto__".toList :: FlashcardGenerator.inheritedMethodNames

/-- The grouping loop of `calculateStats`. For a topic that is an inherited
property name no record is created and reading `.difficulty[...]` of the
inherited value throws a `TypeError`: the result is `none`. -/
def groupByTopic (flashcards : List Flashcard) : Option (List (Str × TopicStats)) :=
  if flashcards.any fun card => inheritedNames.contains card.topic then none
  else some (flashcards.foldl addCard [])

/-- The statistics snapshot, without the fields `progressHistory` and
`recentActivity`. The field `topics` lists the own properties in creation order. -/
structure Stats where
  totalCards : Nat
  totalMCQs : Nat
  accuracy : Int
  streak : Nat
  leitnerDistribution : List Nat
  topics : List (Str × TopicStats)
  deriving DecidableEq, Repr

/-- Method `calculateStats`; `none` stands for a thrown `TypeError`. The two
readings of the clock are taken at the same instant. -/
def calculateStats (clock : Clock) (flashcards : List Flashcard) (mcqs : List MCQ)
    (quizResults : List QuizResult) (leitnerBoxes : List (List Str)) : Option Stats :=
  (groupByTopic flashcards).map fun topics =>
    { totalCards := flashcards.length
      totalMCQs := mcqs.length
      accuracy := accuracy clock quizResults
      streak := calculateStreak clock quizResults
      leitnerDistribution := leitnerBoxes.map List.length
      topics := topics }

/-- The two priorities used by `generateRecommendations`. -/
inductive Priority where
  | urgent
  | medium
  deriving DecidableEq, Repr

/-- A recommendation record. -/
structure Recommendation where
  title : Str
  description : Str
  priority : Priority
  deriving DecidableEq, Repr

/-- JavaScript `Object.entries`: array-index keys in ascending numeric order,
then the other keys in creation order. -/
def objectEntries {α : Type} (props : List (Str × α)) : List (Str × α) :=
  (props.filter fun e => (FlashcardGenerator.arrayIndex e.1).isSome).insertionSort
      (fun a b => (FlashcardGenerator.arrayIndex a.1).getD 0 ≤
        (FlashcardGenerator.arrayIndex b.1).getD 0) ++
    props.filter fun e => (FlashcardGenerator.arrayIndex e.1).isNone

/-- The recommendation pushed when `accuracy < 60`. -/
def improveAccuracy : Recommendation :=
  { title := "Improve Accuracy".toList
    description := ("Your recent quiz accuracy is below 60%. Focus on reviewing difficult " ++
      "cards and retaking quizzes.").toList
    priority := Priority.urgent }

/-- The recommendation pushed when `streak < 3`. -/
def buildStudyHabit : Recommendation :=
  { title := "Build Study Habit".toList
    description := ("Try to study for at least 3 consecutive days to build a consistent " ++
      "learning habit.").toList
    priority := Priority.medium }

/-- The value `mastery` computed for one topic. -/
def mastery (data : TopicStats) : Int :=
  if data.total > 0 then jsPercent data.mastered data.total else 0

/-- The urgent recommendation for a topic. -/
def reviewTopic (topic : Str) (mastery : Int) : Recommendation :=
  { title := "Review ".toList ++ topic
    description := "Only ".toList ++ natToStr mastery.toNat ++ "% of cards in \"".toList ++ topic ++
      "\" are mastered. Schedule a focused review session.".toList
    priority := Priority.urgent }

/-- The medium recommendation for a topic. -/
def practiceTopic (topic : Str) (mastery : Int) : Recommendation :=
  { title := "Practice ".toList ++ topic
    description := "Continue practicing \"".toList ++ topic ++ "\" to improve from ".toList ++
      natToStr mastery.toNat ++ "% mastery.".toList
    priority := Priority.medium }

/-- The callback of the `forEach` over `Object.entries(topics)`. -/
def visitTopic (recommendations : List Recommendation) (entry : Str × TopicStats) :
    List Recommendation :=
  if mastery entry.2 < 30 ∧ entry.2.total ≥ 5 then
    recommendations ++ [reviewTopic entry.1 (mastery entry.2)]
  else if mastery entry.2 < 60 ∧ entry.2.total ≥ 3 then
    recommendations ++ [practiceTopic entry.1 (mastery entry.2)]
  else recommendations

/-- Method `generateRecommendations`, reading the snapshot `this.statsData`. -/
def generateRecommendations (stats : Stats) : List Recommendation :=
  let recommendations : List Recommendation := []
  let recommendations :=
    if stats.accuracy < 60 then recommendations ++ [improveAccuracy] else recommendations
  let recommendations := (objectEntries stats.topics).foldl visitTopic recommendations
  let recommendations :=
    if stats.streak < 3 then recommendations ++ [buildStudyHabit] else recommendations
  recommendations.take 3

/-- What one topic contributes to the recommendations: one entry or none. -/
def topicEntry (entry : Str × TopicStats) : List Recommendation := visitTopic [] entry

/-- The recommendations in generation order, before the cut to 3: the accuracy
entry, the entries of the topics in `Object.entries` order, the streak entry. -/
def generationOrder (stats : Stats) : List Recommendation :=
  (if stats.accuracy < 60 then [improveAccuracy] else []) ++
    ((objectEntries stats.topics).map topicEntry).flatten ++
    (if stats.streak < 3 then [buildStudyHabit] else [])

/-- Some result of the log was recorded on local day `day`. -/
def HasResultOn (clock : Clock) (quizResults : List QuizResult) (day : Int) : Prop :=
  ∃ r ∈ quizResults, clock.dayOf (clock.parse r.timestamp) = day

/-- The instant of the streak scenario: noon of 2025-06-15. -/
def scenarioNow : Int := parseIso "2025-06-15T12:00:00.000Z".toList

/-- Results of today, yesterday and 3 days ago (in log order). -/
def scenarioResults : List QuizResult :=
  [resultAt "2025-06-12T08:00:00.000Z" true, resultAt "2025-06-14T20:00:00.000Z" false,
   resultAt "2025-06-15T09:00:00.000Z" true]

/-- Half past midnight of 2025-03-10 in New York. -/
def shortDayNow : Int := parseIso "2025-03-10T04:30:00.000Z".toList

/-- A result at 11:00 of 2025-03-09 and one at 00:10 of 2025-03-10 (New York time). -/
def shortDayResults : List QuizResult :=
  [resultAt "2025-03-09T15:00:00.000Z" true, resultAt "2025-03-10T04:10:00.000Z" true]

/-- Forty results of the same morning, 23 of them correct. -/
def fortyResults : List QuizResult :=
  List.replicate 23 (resultAt "2025-06-15T09:00:00.000Z" true) ++
    List.replicate 17 (resultAt "2025-06-15T09:00:00.000Z" false)

/-- A snapshot with accuracy 60, streak 3 and the single topic `Concept 1` of
27 cards, 8 of them mastered. -/
def roundedSnapshot : Stats :=
  { totalCards := 27
    totalMCQs := 0
    accuracy := 60
    streak := 3
    leitnerDistribution := [19, 0, 0, 8, 0]
    topics := [("Concept 1".toList, TopicStats.mk 27 8 27 0 0)] }

/-- A snapshot with accuracy 60, streak 3 and the single topic `Concept 1` of
5 cards, 1 of them mastered. -/
def lowMasterySnapshot : Stats :=
  { totalCards := 5
    totalMCQs := 0
    accuracy := 60
    streak := 3
    leitnerDistribution := [4, 0, 0, 1, 0]
    topics := [("Concept 1".toList, TopicStats.mk 5 1 5 0 0)] }

end StatisticsManager

/-! # Properties -/

namespace JS

theorem Adv.refl (fwd : Bool) (x : MState) : Adv fwd x x := by
  refine ⟨rfl, ?_⟩
  split <;> exact Nat.le_refl _

theorem Adv.trans {fwd : Bool} {x y z : MState} (h1 : Adv fwd x y) (h2 : Adv fwd y z) :
    Adv fwd x z := by
  refine ⟨h2.1.trans h1.1, ?_⟩
  have a := h1.2
  have b := h2.2
  cases fwd
  · simp only [Bool.false_eq_true, if_false] at a b ⊢
    exact Nat.le_trans b a
  · simp only [if_true] at a b ⊢
    exact Nat.le_trans a b

theorem Adv.caps {fwd : Bool} {x y : MState} (h : Adv fwd x y) (caps : List (Nat × Str)) :
    Adv fwd x { y with caps := caps } := h

theorem Adv.of_caps {fwd : Bool} {x y : MState} (caps : List (Nat × Str))
    (h : Adv fwd { x with caps := caps } y) : Adv fwd x y := h

theorem Adv.length_eq {fwd : Bool} {x y : MState} (h : Adv fwd x y) :
    y.before.length + y.after.length = x.before.length + x.after.length := by
  have := congrArg List.length h.1
  simpa using this

theorem charMatcher_local (fwd : Bool) (p : Char → Bool) : Local fwd (charMatcher fwd p) := by
  intro x c c' h
  unfold charMatcher
  cases fwd
  · simp only [Bool.false_eq_true, if_false]
    cases hb : x.before with
    | nil => rfl
    | cons a rest =>
      simp only []
      split
      · apply h
        refine ⟨?_, ?_⟩
        · simp [hb]
        · simp [MState.pos, hb]
      · rfl
  · simp only [if_true]
    cases ha : x.after with
    | nil => rfl
    | cons a rest =>
      simp only []
      split
      · apply h
        refine ⟨?_, ?_⟩
        · simp [ha]
        · simp [MState.pos]
      · rfl

theorem repeatMatcher_local {fwd : Bool} {m : Matcher} (hm : Local fwd m) (greedy : Bool)
    (gs : List Nat) :
    ∀ (fuel min : Nat) (max : Option Nat), Local fwd (repeatMatcher m greedy gs fuel min max) := by
  intro fuel
  induction fuel with
  | zero => intro min max x c c' _; rfl
  | succ fuel ih =>
    intro min max x c c' h
    unfold repeatMatcher
    have hx : c x = c' x := h x (Adv.refl fwd x)
    have hd : m { x with caps := clearCaps gs x.caps } (fun y =>
          if (min == 0 && y.pos == x.pos) = true then none
          else repeatMatcher m greedy gs fuel (min - 1) (max.map fun k => k - 1) y c) =
        m { x with caps := clearCaps gs x.caps } (fun y =>
          if (min == 0 && y.pos == x.pos) = true then none
          else repeatMatcher m greedy gs fuel (min - 1) (max.map fun k => k - 1) y c') := by
      apply hm
      intro y hy
      split
      · rfl
      · exact ih _ _ y c c' fun z hz => h z (Adv.trans (Adv.of_caps _ hy) hz)
    simp only [hx, hd]

theorem compile_local (ic : Bool) : ∀ (r : RE) (fwd : Bool), Local fwd (compile ic r fwd) := by
  intro r
  induction r with
  | empty => intro fwd x c c' h; exact h x (Adv.refl fwd x)
  | chr ch => intro fwd; exact charMatcher_local fwd _
  | any => intro fwd; exact charMatcher_local fwd _
  | cls negated atoms => intro fwd; exact charMatcher_local fwd _
  | seq a b iha ihb =>
    intro fwd x c c' h
    simp only [compile]
    split
    · apply iha
      intro y hy
      apply ihb
      intro z hz
      exact h z (hy.trans hz)
    · apply ihb
      intro y hy
      apply iha
      intro z hz
      exact h z (hy.trans hz)
  | alt a b iha ihb =>
    intro fwd x c c' h
    simp only [compile]
    rw [iha fwd x c c' h, ihb fwd x c c' h]
  | group i r ih =>
    intro fwd x c c' h
    simp only [compile]
    apply ih
    intro y hy
    exact h _ (Adv.caps hy _)
  | rep r min max greedy ih =>
    intro fwd x c c' h
    simp only [compile]
    exact repeatMatcher_local (ih fwd) greedy _ _ _ _ x c c' h
  | lookbehind negated r ih =>
    intro fwd x c c' h
    simp only [compile]
    have hx : c x = c' x := h x (Adv.refl fwd x)
    split
    · split
      · rfl
      · exact h _ (Adv.caps (Adv.refl fwd x) _)
    · split
      · exact hx
      · rfl
  | wordBoundary =>
    intro fwd x c c' h
    simp only [compile]
    rw [h x (Adv.refl fwd x)]
  | endOfInput =>
    intro fwd x c c' h
    simp only [compile]
    rw [h x (Adv.refl fwd x)]

theorem Adv.room_le {fwd : Bool} {x y : MState} (h : Adv fwd x y) :
    y.room fwd ≤ x.room fwd := by
  have hl := h.length_eq
  have hp := h.2
  unfold MState.room
  unfold MState.pos at hp
  cases fwd
  · simpa using hp
  · simp only [if_true] at hp ⊢
    omega

theorem Adv.room_lt {fwd : Bool} {x y : MState} (h : Adv fwd x y) (hne : y.pos ≠ x.pos) :
    y.room fwd < x.room fwd := by
  have hl := h.length_eq
  have hp := h.2
  unfold MState.room
  unfold MState.pos at hp hne
  cases fwd
  · simp only [Bool.false_eq_true, if_false] at hp ⊢
    omega
  · simp only [if_true] at hp ⊢
    omega

/-- Beyond `roundsBound` the fuel of `repeatMatcher` does not matter. -/
theorem repeatMatcher_fuel {fwd : Bool} {m : Matcher} (hm : Local fwd m) (greedy : Bool)
    (gs : List Nat) :
    ∀ (fuel fuel' min : Nat) (max : Option Nat) (x : MState) (c : Cont),
      roundsBound fwd min max x ≤ fuel → roundsBound fwd min max x ≤ fuel' →
      repeatMatcher m greedy gs fuel min max x c = repeatMatcher m greedy gs fuel' min max x c := by
  intro fuel
  induction fuel with
  | zero =>
    intro fuel' min max x c h _
    cases max <;> simp [roundsBound] at h
  | succ fuel ih =>
    intro fuel' min max x c h h'
    cases fuel' with
    | zero => cases max <;> simp [roundsBound] at h'
    | succ fuel' =>
      unfold repeatMatcher
      by_cases h0 : (max == some 0) = true
      · simp only [h0, if_true]
      · have hd : m { x with caps := clearCaps gs x.caps } (fun y =>
              if (min == 0 && y.pos == x.pos) = true then none
              else repeatMatcher m greedy gs fuel (min - 1) (max.map fun k => k - 1) y c) =
            m { x with caps := clearCaps gs x.caps } (fun y =>
              if (min == 0 && y.pos == x.pos) = true then none
              else repeatMatcher m greedy gs fuel' (min - 1) (max.map fun k => k - 1) y c) := by
          apply hm
          intro y hy
          have hy' : Adv fwd x y := Adv.of_caps _ hy
          split
          · rfl
          · rename_i hg
            have hb : roundsBound fwd (min - 1) (max.map fun k => k - 1) y + 1 ≤
                roundsBound fwd min max x := by
              cases max with
              | some k =>
                have hk : k ≠ 0 := by
                  intro hk; subst hk; simp at h0
                simp only [roundsBound, Option.map_some']
                omega
              | none =>
                simp only [roundsBound, Option.map_none']
                have hr := hy'.room_le
                by_cases hmin : min = 0
                · subst hmin
                  simp only [beq_self_eq_true, Bool.true_and, beq_iff_eq] at hg
                  have := hy'.room_lt hg
                  omega
                · omega
            exact ih fuel' _ _ y c (by omega) (by omega)
        simp only [h0, if_false, hd]

theorem charMatcher_through (fwd : Bool) (p : Char → Bool) : Through fwd (charMatcher fwd p) := by
  intro x c z h
  unfold charMatcher at h
  cases fwd
  · simp only [Bool.false_eq_true, if_false] at h
    cases hb : x.before with
    | nil => simp [hb] at h
    | cons a rest =>
      simp only [hb] at h
      split at h
      · refine ⟨_, ⟨?_, ?_⟩, h⟩
        · simp [hb]
        · simp [MState.pos, hb]
      · cases h
  · simp only [if_true] at h
    cases ha : x.after with
    | nil => simp [ha] at h
    | cons a rest =>
      simp only [ha] at h
      split at h
      · refine ⟨_, ⟨?_, ?_⟩, h⟩
        · simp [ha]
        · simp [MState.pos]
      · cases h

theorem repeatMatcher_through {fwd : Bool} {m : Matcher} (hm : Through fwd m) (greedy : Bool)
    (gs : List Nat) :
    ∀ (fuel min : Nat) (max : Option Nat),
      Through fwd (repeatMatcher m greedy gs fuel min max) := by
  intro fuel
  induction fuel with
  | zero => intro min max x c z h; simp [repeatMatcher] at h
  | succ fuel ih =>
    intro min max x c z h
    unfold repeatMatcher at h
    have body : ∀ z', m { x with caps := clearCaps gs x.caps } (fun y =>
          if (min == 0 && y.pos == x.pos) = true then none
          else repeatMatcher m greedy gs fuel (min - 1) (max.map fun k => k - 1) y c) = some z' →
        ∃ y, Adv fwd x y ∧ c y = some z' := by
      intro z' hz
      obtain ⟨y, hy, hdy⟩ := hm _ _ _ hz
      split at hdy
      · cases hdy
      · obtain ⟨y', hy', hc⟩ := ih _ _ y c z' hdy
        exact ⟨y', (Adv.of_caps _ hy).trans hy', hc⟩
    split at h
    · exact ⟨x, Adv.refl fwd x, h⟩
    · simp only [] at h
      split at h
      · exact body z h
      · split at h
        · split at h
          · rename_i z' hz
            cases h
            exact body z hz
          · exact ⟨x, Adv.refl fwd x, h⟩
        · split at h
          · rename_i z' hz
            cases h
            exact ⟨x, Adv.refl fwd x, hz⟩
          · exact body z h

theorem compile_through (ic : Bool) :
    ∀ (r : RE) (fwd : Bool), Through fwd (compile ic r fwd) := by
  intro r
  induction r with
  | empty => intro fwd x c z h; exact ⟨x, Adv.refl fwd x, h⟩
  | chr ch => intro fwd; exact charMatcher_through fwd _
  | any => intro fwd; exact charMatcher_through fwd _
  | cls negated atoms => intro fwd; exact charMatcher_through fwd _
  | seq a b iha ihb =>
    intro fwd x c z h
    simp only [compile] at h
    split at h
    · obtain ⟨y, hy, h2⟩ := iha _ _ _ _ h
      obtain ⟨y', hy', h3⟩ := ihb _ _ _ _ h2
      exact ⟨y', hy.trans hy', h3⟩
    · obtain ⟨y, hy, h2⟩ := ihb _ _ _ _ h
      obtain ⟨y', hy', h3⟩ := iha _ _ _ _ h2
      exact ⟨y', hy.trans hy', h3⟩
  | alt a b iha ihb =>
    intro fwd x c z h
    simp only [compile] at h
    split at h
    · rename_i z' hz
      cases h
      exact iha _ _ _ _ hz
    · exact ihb _ _ _ _ h
  | group i r ih =>
    intro fwd x c z h
    simp only [compile] at h
    obtain ⟨y, hy, h2⟩ := ih _ _ _ _ h
    exact ⟨_, Adv.caps hy _, h2⟩
  | rep r min max greedy ih =>
    intro fwd x c z h
    simp only [compile] at h
    exact repeatMatcher_through (ih fwd) greedy _ _ _ _ x c z h
  | lookbehind negated r ih =>
    intro fwd x c z h
    simp only [compile] at h
    split at h
    · split at h
      · cases h
      · exact ⟨_, Adv.caps (Adv.refl fwd x) _, h⟩
    · split at h
      · exact ⟨x, Adv.refl fwd x, h⟩
      · cases h
  | wordBoundary =>
    intro fwd x c z h
    simp only [compile] at h
    split at h
    · exact ⟨x, Adv.refl fwd x, h⟩
    · cases h
  | endOfInput =>
    intro fwd x c z h
    simp only [compile] at h
    split at h
    · exact ⟨x, Adv.refl fwd x, h⟩
    · cases h

/-- A successful anchored match ends in a state of the same text, not before its start. -/
theorem Regex.matchAt_adv {re : Regex} {before after : Str} {y : MState}
    (h : re.matchAt before after = some y) :
    Adv true { before := before, after := after, caps := [] } y := by
  unfold Regex.matchAt at h
  obtain ⟨y', hy', hc⟩ := compile_through _ _ _ _ _ _ h
  cases hc
  exact hy'

/-- A successful search starts at or after the given position and ends at or
after its start, all within the same text. -/
theorem Regex.search_adv (re : Regex) :
    ∀ (after before : Str) (x y : MState), re.search before after = some (x, y) →
      Adv true { before := before, after := after, caps := [] } x ∧ Adv true x y := by
  intro after
  induction after with
  | nil =>
    intro before x y h
    simp only [Regex.search, Option.map_eq_some', Prod.mk.injEq] at h
    obtain ⟨y', hy', hx, hy⟩ := h
    subst hx hy
    exact ⟨Adv.refl _ _, Regex.matchAt_adv hy'⟩
  | cons a rest ih =>
    intro before x y h
    simp only [Regex.search] at h
    split at h
    · rename_i y' hy'
      simp only [Option.some.injEq, Prod.mk.injEq] at h
      obtain ⟨hx, hy⟩ := h
      subst hx hy
      exact ⟨Adv.refl _ _, Regex.matchAt_adv hy'⟩
    · obtain ⟨h1, h2⟩ := ih _ _ _ h
      refine ⟨Adv.trans ⟨?_, ?_⟩ h1, h2⟩
      · simp
      · simp [MState.pos]

theorem Adv.after_le {x y : MState} (h : Adv true x y) : y.after.length ≤ x.after.length := by
  simpa [MState.room] using h.room_le

theorem Adv.after_lt {x y : MState} (h : Adv true x y) (hne : y.pos ≠ x.pos) :
    y.after.length < x.after.length := by
  simpa [MState.room] using h.room_lt hne

theorem matchedText_isEmpty {x y : MState}
    (ht : (matchedText x y).isEmpty = false) : y.pos ≠ x.pos := by
  intro he
  simp [matchedText, he] at ht

/-- Beyond the length of the remaining text the fuel of `matchAllFrom` does not matter. -/
theorem matchAllFrom_fuel (re : Regex) :
    ∀ (fuel fuel' : Nat) (before after : Str),
      after.length + 1 ≤ fuel → after.length + 1 ≤ fuel' →
      matchAllFrom re fuel before after = matchAllFrom re fuel' before after := by
  intro fuel
  induction fuel with
  | zero => intro fuel' before after h _; omega
  | succ fuel ih =>
    intro fuel' before after h h'
    cases fuel' with
    | zero => omega
    | succ fuel' =>
      unfold matchAllFrom
      cases hs : re.search before after with
      | none => rfl
      | some p =>
        obtain ⟨x, y⟩ := p
        obtain ⟨hx, hy⟩ := Regex.search_adv re _ _ _ _ hs
        have hxl := hx.after_le
        have hyl := hy.after_le
        simp only [] at hxl
        simp only []
        cases ht : (matchedText x y).isEmpty with
        | true =>
          simp only [if_true]
          cases hya : y.after with
          | nil => rfl
          | cons a rest =>
            simp only []
            rw [hya, List.length_cons] at hyl
            rw [ih fuel' _ _ (by omega) (by omega)]
        | false =>
          simp only [Bool.false_eq_true, if_false]
          have := hy.after_lt (matchedText_isEmpty ht)
          rw [ih fuel' _ _ (by omega) (by omega)]

/-- Beyond the length of the remaining text the fuel of `replaceAllFrom` does not matter. -/
theorem replaceAllFrom_fuel (re : Regex) (rep : Str) :
    ∀ (fuel fuel' : Nat) (before after : Str),
      after.length + 1 ≤ fuel → after.length + 1 ≤ fuel' →
      replaceAllFrom re rep fuel before after = replaceAllFrom re rep fuel' before after := by
  intro fuel
  induction fuel with
  | zero => intro fuel' before after h _; omega
  | succ fuel ih =>
    intro fuel' before after h h'
    cases fuel' with
    | zero => omega
    | succ fuel' =>
      unfold replaceAllFrom
      cases hs : re.search before after with
      | none => rfl
      | some p =>
        obtain ⟨x, y⟩ := p
        obtain ⟨hx, hy⟩ := Regex.search_adv re _ _ _ _ hs
        have hxl := hx.after_le
        have hyl := hy.after_le
        simp only [] at hxl
        simp only []
        by_cases hp : (y.pos == x.pos) = true
        · simp only [hp, if_true]
          cases hya : y.after with
          | nil => rfl
          | cons a rest =>
            simp only []
            rw [hya, List.length_cons] at hyl
            rw [ih fuel' _ _ (by omega) (by omega)]
        · have hp' : (y.pos == x.pos) = false := by simpa using hp
          simp only [hp', Bool.false_eq_true, if_false]
          have := hy.after_lt (by simpa using hp)
          rw [ih fuel' _ _ (by omega) (by omega)]

/-- Beyond twice the length of the remaining text the fuel of `splitFrom` does not matter. -/
theorem splitFrom_fuel (re : Regex) :
    ∀ (fuel fuel' : Nat) (before after cur : Str),
      2 * after.length + (if cur.isEmpty then 0 else 1) ≤ fuel →
      2 * after.length + (if cur.isEmpty then 0 else 1) ≤ fuel' →
      splitFrom re fuel before after cur = splitFrom re fuel' before after cur := by
  intro fuel
  induction fuel with
  | zero =>
    intro fuel' before after cur h _
    have ha : after = [] := by
      cases after with
      | nil => rfl
      | cons a rest => simp only [List.length_cons] at h; omega
    subst ha
    cases fuel' <;> simp [splitFrom]
  | succ fuel ih =>
    intro fuel' before after cur h h'
    cases after with
    | nil => cases fuel' <;> simp [splitFrom]
    | cons a rest =>
      cases fuel' with
      | zero => simp only [List.length_cons] at h'; omega
      | succ fuel' =>
        simp only [List.length_cons] at h h'
        unfold splitFrom
        have hstep : splitFrom re fuel (a :: before) rest (a :: cur) =
            splitFrom re fuel' (a :: before) rest (a :: cur) := by
          apply ih
          · simp only [List.isEmpty_cons, Bool.false_eq_true, if_false]; omega
          · simp only [List.isEmpty_cons, Bool.false_eq_true, if_false]; omega
        cases hm : re.matchAt before (a :: rest) with
        | none => simp only [hstep]
        | some y =>
          simp only []
          have hy := Regex.matchAt_adv hm
          have hyl := hy.after_le
          simp only [List.length_cons] at hyl
          by_cases hp : (y.pos == before.length && cur.isEmpty) = true
          · simp only [hp, if_true, hstep]
          · have hp' : (y.pos == before.length && cur.isEmpty) = false := by simpa using hp
            simp only [hp', Bool.false_eq_true, if_false]
            suffices hrec : splitFrom re fuel y.before y.after [] =
                splitFrom re fuel' y.before y.after [] by rw [hrec]
            apply ih
            · simp only [List.isEmpty_nil, if_true]
              by_cases hq : y.pos = before.length
              · have hc : cur.isEmpty = false := by
                  cases hce : cur.isEmpty
                  · rfl
                  · simp [hq, hce] at hp
                simp only [hc, Bool.false_eq_true, if_false] at h
                omega
              · have := hy.after_lt (by simpa [MState.pos] using hq)
                simp only [List.length_cons] at this
                omega
            · simp only [List.isEmpty_nil, if_true]
              by_cases hq : y.pos = before.length
              · have hc : cur.isEmpty = false := by
                  cases hce : cur.isEmpty
                  · rfl
                  · simp [hq, hce] at hp
                simp only [hc, Bool.false_eq_true, if_false] at h'
                omega
              · have := hy.after_lt (by simpa [MState.pos] using hq)
                simp only [List.length_cons] at this
                omega

/-- The fuel `compile` hands to `repeatMatcher` is enough: more changes nothing. -/
theorem compile_rep_fuel (ic : Bool) (r : RE) (min : Nat) (max : Option Nat) (greedy fwd : Bool)
    (x : MState) (c : Cont) (extra : Nat) :
    compile ic (RE.rep r min max greedy) fwd x c =
      repeatMatcher (compile ic r fwd) greedy r.groups
        ((match max with
          | some k => k + 1
          | none => min + (x.before.length + x.after.length) + 1) + extra) min max x c := by
  simp only [compile]
  apply repeatMatcher_fuel (compile_local ic r fwd)
  · cases max with
    | some k => simp [roundsBound]
    | none => simp only [roundsBound, MState.room]; split <;> omega
  · cases max with
    | some k => simp only [roundsBound]; omega
    | none => simp only [roundsBound, MState.room]; split <;> omega

/-- The fuel of `Regex.matchAll`, `Regex.replaceAll` and `Regex.split` is
enough: more changes nothing. -/
theorem regex_loops_fuel (re : Regex) (rep s : Str) (extra : Nat) :
    matchAllFrom re (s.length + 2 + extra) [] s = matchAllFrom re (s.length + 2) [] s ∧
    replaceAllFrom re rep (s.length + 2 + extra) [] s = replaceAllFrom re rep (s.length + 2) [] s ∧
    splitFrom re (2 * s.length + 2 + extra) [] s [] = splitFrom re (2 * s.length + 2) [] s [] := by
  refine ⟨?_, ?_, ?_⟩
  · exact matchAllFrom_fuel re _ _ _ _ (by omega) (by omega)
  · exact replaceAllFrom_fuel re rep _ _ _ _ (by omega) (by omega)
  · apply splitFrom_fuel re
    · simp only [List.isEmpty_nil, if_true]; omega
    · simp only [List.isEmpty_nil, if_true]; omega

theorem mem_toSet {l : List Str} {w : Str} : w ∈ toSet l ↔ w ∈ l := by
  induction l with
  | nil => simp [toSet]
  | cons a l ih =>
    simp only [toSet, List.mem_cons, List.mem_filter, ih, bne_iff_ne, ne_eq]
    constructor
    · rintro (h | ⟨h, _⟩)
      · exact Or.inl h
      · exact Or.inr h
    · intro h
      by_cases hw : w = a
      · exact Or.inl hw
      · rcases h with h | h
        · exact Or.inl h
        · exact Or.inr ⟨h, hw⟩

theorem nodup_toSet (l : List Str) : (toSet l).Nodup := by
  induction l with
  | nil => simp [toSet]
  | cons a l ih =>
    simp only [toSet, List.nodup_cons, List.mem_filter, bne_iff_ne, ne_eq, not_true_eq_false,
      and_false, not_false_eq_true, true_and]
    exact ih.filter _

theorem length_toSet_congr {l₁ l₂ : List Str} (h : ∀ w, w ∈ l₁ ↔ w ∈ l₂) :
    (toSet l₁).length = (toSet l₂).length := by
  apply List.Perm.length_eq
  rw [List.perm_ext_iff_of_nodup (nodup_toSet _) (nodup_toSet _)]
  intro w
  rw [mem_toSet, mem_toSet]
  exact h w

theorem dropWhile_eq_nil_of_all {α : Type} (p : α → Bool) :
    ∀ l : List α, (∀ c ∈ l, p c = true) → l.dropWhile p = [] := by
  intro l
  induction l with
  | nil => intro _; rfl
  | cons a l ih =>
    intro h
    rw [List.dropWhile_cons, if_pos (h a (List.mem_cons_self _ _))]
    exact ih fun c hc => h c (List.mem_cons_of_mem _ hc)

/-- A text of white space only trims to the empty text. -/
theorem trim_eq_nil_of_all_whiteSpace {s : Str} (h : ∀ c ∈ s, isWhiteSpace c = true) :
    trim s = [] := by
  unfold trim trimStart trimEnd
  rw [dropWhile_eq_nil_of_all _ s h]
  rfl

/-- A state reached from `⟨before, after⟩` has a final part of `after` still ahead. -/
theorem Adv.after_suffix {x y : MState} (h : Adv true x y) : y.after <:+ x.after := by
  obtain ⟨htext, hpos⟩ := h
  simp only [if_true, MState.pos] at hpos
  rcases List.append_eq_append_iff.1 htext with ⟨a', h1, h2⟩ | ⟨c', h1, h2⟩
  · have hl := congrArg List.length h1
    simp only [List.length_reverse, List.length_append] at hl
    have ha : a' = [] := List.length_eq_zero.1 (by omega)
    subst ha
    rw [h2, List.nil_append]
  · exact ⟨c', h2.symm⟩

theorem mem_of_mem_suffix {α : Type} {l₁ l₂ : List α} (h : l₁ <:+ l₂) {a : α} (ha : a ∈ l₁) :
    a ∈ l₂ := by
  obtain ⟨t, rfl⟩ := h
  exact List.mem_append_right _ ha

/-- Every character of the result of a global replace comes from the text or
from the replacement. -/
theorem mem_replaceAllFrom (re : Regex) (rep : Str) :
    ∀ (fuel : Nat) (before after : Str) (c : Char),
      c ∈ replaceAllFrom re rep fuel before after → c ∈ after ∨ c ∈ rep := by
  intro fuel
  induction fuel with
  | zero => intro before after c h; exact Or.inl h
  | succ fuel ih =>
    intro before after c h
    unfold replaceAllFrom at h
    cases hs : re.search before after with
    | none => rw [hs] at h; exact Or.inl h
    | some p =>
      obtain ⟨x, y⟩ := p
      rw [hs] at h
      simp only [] at h
      obtain ⟨hx, hy⟩ := Regex.search_adv re _ _ _ _ hs
      have hsuf : y.after <:+ after := (hy.after_suffix).trans hx.after_suffix
      have hskip : ∀ c, c ∈ after.take (x.pos - before.length) → c ∈ after :=
        fun c hc => List.mem_of_mem_take hc
      split at h
      · cases hya : y.after with
        | nil =>
          rw [hya] at h
          simp only [] at h
          rcases List.mem_append.1 h with h | h
          · exact Or.inl (hskip c h)
          · exact Or.inr h
        | cons a rest =>
          rw [hya] at h
          simp only [] at h
          have hrest : ∀ c, c ∈ a :: rest → c ∈ after := fun c hc =>
            mem_of_mem_suffix hsuf (hya ▸ hc)
          rcases List.mem_append.1 h with h | h
          · rcases List.mem_append.1 h with h | h
            · exact Or.inl (hskip c h)
            · exact Or.inr h
          · rcases List.mem_cons.1 h with h | h
            · exact Or.inl (hrest c (h ▸ List.mem_cons_self _ _))
            · rcases ih _ _ c h with h | h
              · exact Or.inl (hrest c (List.mem_cons_of_mem _ h))
              · exact Or.inr h
      · rcases List.mem_append.1 h with h | h
        · rcases List.mem_append.1 h with h | h
          · exact Or.inl (hskip c h)
          · exact Or.inr h
        · rcases ih _ _ c h with h | h
          · exact Or.inl (mem_of_mem_suffix hsuf h)
          · exact Or.inr h

theorem mem_replaceAll {re : Regex} {rep s : Str} {c : Char} (h : c ∈ re.replaceAll rep s) :
    c ∈ s ∨ c ∈ rep :=
  mem_replaceAllFrom re rep _ _ _ c h

/-! ## Double-precision numbers -/

theorem log2Loop_spec : ∀ (fuel n : Nat), n ≤ fuel → n ≠ 0 →
    2 ^ log2Loop fuel n ≤ n ∧ n < 2 ^ (log2Loop fuel n + 1) := by
  intro fuel
  induction fuel with
  | zero => intro n h h0; omega
  | succ fuel ih =>
    intro n h h0
    unfold log2Loop
    by_cases h2 : n < 2
    · rw [if_pos h2]
      simp only [pow_zero, zero_add, pow_one]
      omega
    · rw [if_neg h2]
      obtain ⟨h1, h3⟩ := ih (n / 2) (by omega) (by omega)
      constructor
      · rw [pow_succ]
        omega
      · rw [pow_succ]
        omega

theorem natLog2_spec {n : Nat} (h0 : n ≠ 0) :
    2 ^ natLog2 n ≤ n ∧ n < 2 ^ (natLog2 n + 1) :=
  log2Loop_spec n n (Nat.le_refl _) h0

/-- The exponent found by `floorLog2` brackets a positive rational. -/
theorem floorLog2_spec {q : ℚ} (hq : 0 < q) :
    (2 : ℚ) ^ floorLog2 q ≤ q ∧ q < (2 : ℚ) ^ (floorLog2 q + 1) := by
  have hnum : 0 < q.num := Rat.num_pos.2 hq
  have hn0 : q.num.toNat ≠ 0 := by omega
  have hd0 : q.den ≠ 0 := q.den_nz
  obtain ⟨hn1, hn2⟩ := natLog2_spec hn0
  obtain ⟨hd1, hd2⟩ := natLog2_spec hd0
  set a := natLog2 q.num.toNat with ha
  set b := natLog2 q.den with hb
  have hqe : q = (q.num.toNat : ℚ) / (q.den : ℚ) := by
    have h1 : ((q.num.toNat : ℕ) : ℤ) = q.num := Int.toNat_of_nonneg (le_of_lt hnum)
    have h2 : ((q.num.toNat : ℕ) : ℚ) = (q.num : ℚ) := by exact_mod_cast congrArg (Int.cast : ℤ → ℚ) h1
    rw [h2]
    exact (Rat.num_div_den q).symm
  have hdq : (0 : ℚ) < (q.den : ℚ) := by exact_mod_cast Nat.pos_of_ne_zero hd0
  have hN1 : ((2 : ℚ) ^ a) ≤ (q.num.toNat : ℚ) := by exact_mod_cast hn1
  have hN2 : (q.num.toNat : ℚ) < (2 : ℚ) ^ (a + 1) := by exact_mod_cast hn2
  have hD1 : ((2 : ℚ) ^ b) ≤ (q.den : ℚ) := by exact_mod_cast hd1
  have hD2 : (q.den : ℚ) < (2 : ℚ) ^ (b + 1) := by exact_mod_cast hd2
  have two_pos : (0 : ℚ) < 2 := by norm_num
  have two_ne : (2 : ℚ) ≠ 0 := by norm_num
  -- bounds in terms of k = a - b
  have hupper : q < (2 : ℚ) ^ ((a : ℤ) - (b : ℤ) + 1) := by
    rw [hqe, div_lt_iff₀ hdq]
    have : (2 : ℚ) ^ ((a : ℤ) - (b : ℤ) + 1) = (2 : ℚ) ^ (a + 1) / (2 : ℚ) ^ b := by
      rw [show ((a : ℤ) - (b : ℤ) + 1) = ((a + 1 : ℕ) : ℤ) - ((b : ℕ) : ℤ) by push_cast; ring,
        zpow_sub₀ two_ne, zpow_natCast, zpow_natCast]
    rw [this, div_mul_eq_mul_div, lt_div_iff₀ (pow_pos two_pos b)]
    calc (q.num.toNat : ℚ) * (2 : ℚ) ^ b ≤ (q.num.toNat : ℚ) * (q.den : ℚ) :=
          mul_le_mul_of_nonneg_left hD1 (by positivity)
      _ < (2 : ℚ) ^ (a + 1) * (q.den : ℚ) := mul_lt_mul_of_pos_right hN2 hdq
  have hlower : (2 : ℚ) ^ ((a : ℤ) - (b : ℤ) - 1) < q := by
    rw [hqe, lt_div_iff₀ hdq]
    have : (2 : ℚ) ^ ((a : ℤ) - (b : ℤ) - 1) = (2 : ℚ) ^ a / (2 : ℚ) ^ (b + 1) := by
      rw [show ((a : ℤ) - (b : ℤ) - 1) = ((a : ℕ) : ℤ) - ((b + 1 : ℕ) : ℤ) by push_cast; ring,
        zpow_sub₀ two_ne, zpow_natCast, zpow_natCast]
    rw [this, div_mul_eq_mul_div, div_lt_iff₀ (pow_pos two_pos (b + 1))]
    calc (2 : ℚ) ^ a * (q.den : ℚ) < (2 : ℚ) ^ a * (2 : ℚ) ^ (b + 1) :=
          mul_lt_mul_of_pos_left hD2 (pow_pos two_pos a)
      _ ≤ (q.num.toNat : ℚ) * (2 : ℚ) ^ (b + 1) :=
          mul_le_mul_of_nonneg_right hN1 (by positivity)
  unfold floorLog2
  simp only [← ha, ← hb]
  by_cases hk : (2 : ℚ) ^ ((a : ℤ) - (b : ℤ)) ≤ q
  · rw [if_pos hk]
    exact ⟨hk, hupper⟩
  · rw [if_neg hk]
    refine ⟨le_of_lt hlower, ?_⟩
    rw [sub_add_cancel]
    exact lt_of_not_le hk

theorem roundHalfEven_error (q : ℚ) : |((roundHalfEven q : ℤ) : ℚ) - q| ≤ 1 / 2 := by
  have h1 := Int.floor_le q
  have h2 := Int.lt_floor_add_one q
  unfold roundHalfEven
  simp only []
  rw [abs_le]
  split
  · constructor <;> linarith
  · split
    · push_cast; constructor <;> linarith
    · split
      · constructor <;> linarith
      · push_cast; constructor <;> linarith

theorem roundHalfEven_le {q : ℚ} {y : ℤ} (h : q ≤ (y : ℚ)) : roundHalfEven q ≤ y := by
  have hf : Int.floor q ≤ y := by
    have := Int.floor_mono h
    rwa [Int.floor_intCast] at this
  by_cases he : q = (y : ℚ)
  · subst he
    unfold roundHalfEven
    simp
  · have hlt : q < (y : ℚ) := lt_of_le_of_ne h he
    have hf1 : Int.floor q + 1 ≤ y := by
      have : Int.floor q < y := Int.floor_lt.2 hlt
      omega
    unfold roundHalfEven
    simp only []
    split
    · exact hf
    · split
      · exact hf1
      · split
        · exact hf
        · exact hf1

theorem roundHalfEven_nonneg {q : ℚ} (h : 0 ≤ q) : 0 ≤ roundHalfEven q := by
  have hf : 0 ≤ Int.floor q := Int.floor_nonneg.2 h
  unfold roundHalfEven
  simp only []
  split
  · exact hf
  · split
    · omega
    · split
      · exact hf
      · omega

theorem toDouble_pos_eq {q : ℚ} (hq : 0 < q) :
    toDouble q =
      (roundHalfEven (q / (2 : ℚ) ^ (floorLog2 q - 52)) : ℚ) * (2 : ℚ) ^ (floorLog2 q - 52) := by
  unfold toDouble
  rw [if_neg (ne_of_gt hq), abs_of_pos hq, if_neg (not_lt.2 (le_of_lt hq))]
  simp

theorem toDouble_nonneg {q : ℚ} (hq : 0 ≤ q) : 0 ≤ toDouble q := by
  rcases eq_or_lt_of_le hq with h | h
  · rw [← h]; simp [toDouble]
  · rw [toDouble_pos_eq h]
    have h2 : (0 : ℚ) < (2 : ℚ) ^ (floorLog2 q - 52) := zpow_pos (by norm_num) _
    have h3 : 0 ≤ roundHalfEven (q / (2 : ℚ) ^ (floorLog2 q - 52)) :=
      roundHalfEven_nonneg (div_nonneg hq (le_of_lt h2))
    have h4 : (0 : ℚ) ≤ (roundHalfEven (q / (2 : ℚ) ^ (floorLog2 q - 52)) : ℚ) := by
      exact_mod_cast h3
    exact mul_nonneg h4 (le_of_lt h2)

/-- The relative error of rounding to a double is at most `2 ^ (-53)`. -/
theorem toDouble_error {q : ℚ} (hq : 0 < q) : |toDouble q - q| ≤ q / 2 ^ 53 := by
  rw [toDouble_pos_eq hq]
  set e := floorLog2 q - 52 with he
  have h2 : (0 : ℚ) < (2 : ℚ) ^ e := zpow_pos (by norm_num) _
  have herr := roundHalfEven_error (q / (2 : ℚ) ^ e)
  have hq2 : q = q / (2 : ℚ) ^ e * (2 : ℚ) ^ e := by field_simp
  have h3 : |(roundHalfEven (q / (2 : ℚ) ^ e) : ℚ) * (2 : ℚ) ^ e - q| ≤ 1 / 2 * (2 : ℚ) ^ e := by
    have hrw : (roundHalfEven (q / (2 : ℚ) ^ e) : ℚ) * (2 : ℚ) ^ e - q =
        ((roundHalfEven (q / (2 : ℚ) ^ e) : ℚ) - q / (2 : ℚ) ^ e) * (2 : ℚ) ^ e := by
      rw [sub_mul, ← hq2]
    rw [hrw, abs_mul, abs_of_pos h2]
    exact mul_le_mul_of_nonneg_right herr (le_of_lt h2)
  have h4 : 1 / 2 * (2 : ℚ) ^ e ≤ q / 2 ^ 53 := by
    have hl := (floorLog2_spec hq).1
    have : (2 : ℚ) ^ e = (2 : ℚ) ^ floorLog2 q / 2 ^ 52 := by
      rw [he, zpow_sub₀ (by norm_num : (2 : ℚ) ≠ 0)]
      norm_num
    rw [this]
    have h53 : (0 : ℚ) < 2 ^ 53 := by positivity
    rw [le_div_iff₀ h53]
    calc 1 / 2 * ((2 : ℚ) ^ floorLog2 q / 2 ^ 52) * 2 ^ 53 = (2 : ℚ) ^ floorLog2 q := by
          norm_num
          ring
      _ ≤ q := hl
  exact h3.trans h4

/-- Rounding to a double does not pass a whole number below `2 ^ 53`. -/
theorem toDouble_le_nat {q : ℚ} {y : ℕ} (hq : 0 ≤ q) (hy : y < 2 ^ 53) (h : q ≤ (y : ℚ)) :
    toDouble q ≤ (y : ℚ) := by
  rcases eq_or_lt_of_le hq with h0 | h0
  · rw [← h0]; simp [toDouble]
  · rw [toDouble_pos_eq h0]
    set e := floorLog2 q - 52 with he
    have hl := (floorLog2_spec h0).1
    have hy' : (y : ℚ) < (2 : ℚ) ^ (53 : ℤ) := by
      have : ((y : ℕ) : ℚ) < ((2 ^ 53 : ℕ) : ℚ) := by exact_mod_cast hy
      rw [show ((53 : ℤ)) = ((53 : ℕ) : ℤ) from rfl, zpow_natCast]
      exact_mod_cast this
    have hlt : (2 : ℚ) ^ floorLog2 q < (2 : ℚ) ^ (53 : ℤ) := lt_of_le_of_lt (hl.trans h) hy'
    have hfl : floorLog2 q < 53 := (zpow_lt_zpow_iff_right₀ (by norm_num : (1 : ℚ) < 2)).1 hlt
    have he0 : e ≤ 0 := by omega
    obtain ⟨j, hj⟩ : ∃ j : ℕ, e = -(j : ℤ) := ⟨(-e).toNat, by omega⟩
    have h2e : (2 : ℚ) ^ e = 1 / (2 : ℚ) ^ j := by
      rw [hj, zpow_neg, zpow_natCast]; simp
    have hpj : (0 : ℚ) < (2 : ℚ) ^ j := by positivity
    rw [h2e]
    have hs : q / (1 / (2 : ℚ) ^ j) ≤ (((y * 2 ^ j : ℕ) : ℤ) : ℚ) := by
      rw [div_div_eq_mul_div, div_one]
      push_cast
      exact mul_le_mul_of_nonneg_right h (le_of_lt hpj)
    have hm := roundHalfEven_le hs
    have hm' : (roundHalfEven (q / (1 / (2 : ℚ) ^ j)) : ℚ) ≤ (y : ℚ) * (2 : ℚ) ^ j := by
      have : ((roundHalfEven (q / (1 / (2 : ℚ) ^ j)) : ℤ) : ℚ) ≤ (((y * 2 ^ j : ℕ) : ℤ) : ℚ) := by
        exact_mod_cast hm
      simpa using this
    rw [mul_one_div, div_le_iff₀ hpj]
    exact hm'

/-- A percentage of a part of a whole lies between 0 and 100. -/
theorem jsPercent_bounds {c n : ℕ} (hc : c ≤ n) : 0 ≤ jsPercent c n ∧ jsPercent c n ≤ 100 := by
  have hq0 : (0 : ℚ) ≤ (c : ℚ) / (n : ℚ) := by positivity
  have hq1 : (c : ℚ) / (n : ℚ) ≤ ((1 : ℕ) : ℚ) := by
    rcases Nat.eq_zero_or_pos n with h | h
    · subst h; simp
    · rw [div_le_iff₀ (by exact_mod_cast h)]
      push_cast
      rw [one_mul]
      exact_mod_cast hc
  have hx0 := toDouble_nonneg hq0
  have hx1 := toDouble_le_nat hq0 (by norm_num) hq1
  have hp0 : (0 : ℚ) ≤ toDouble ((c : ℚ) / (n : ℚ)) * 100 := by positivity
  have hp1 : toDouble ((c : ℚ) / (n : ℚ)) * 100 ≤ ((100 : ℕ) : ℚ) := by
    push_cast at hx1 ⊢
    linarith
  have hy0 := toDouble_nonneg hp0
  have hy1 := toDouble_le_nat hp0 (by norm_num) hp1
  unfold jsPercent mathRound
  constructor
  · apply Int.floor_nonneg.2
    linarith
  · have : Int.floor (toDouble (toDouble ((c : ℚ) / (n : ℚ)) * 100) + 1 / 2) < 101 := by
      rw [Int.floor_lt]
      push_cast at hy1 ⊢
      linarith
    omega

/-- The double computation of a percentage stays within `201 / 2 ^ 53` of the
exact percentage. -/
theorem percent_error {c n : ℕ} (hn : 0 < n) (hc : c ≤ n) :
    |toDouble (toDouble ((c : ℚ) / (n : ℚ)) * 100) - 100 * (c : ℚ) / (n : ℚ)| ≤ 201 / 2 ^ 53 := by
  rcases Nat.eq_zero_or_pos c with h0 | h0
  · subst h0
    simp [toDouble]
    positivity
  · have hnq : (0 : ℚ) < (n : ℚ) := by exact_mod_cast hn
    have hcq : (0 : ℚ) < (c : ℚ) := by exact_mod_cast h0
    have hq0 : (0 : ℚ) < (c : ℚ) / (n : ℚ) := div_pos hcq hnq
    have hq1 : (c : ℚ) / (n : ℚ) ≤ 1 := by
      rw [div_le_iff₀ hnq, one_mul]
      exact_mod_cast hc
    have e1 := toDouble_error hq0
    have hx1 : toDouble ((c : ℚ) / (n : ℚ)) ≤ 1 := by
      have := @toDouble_le_nat _ 1 (le_of_lt hq0) (by norm_num) (by simpa using hq1)
      simpa using this
    have hx0 : 0 < toDouble ((c : ℚ) / (n : ℚ)) := by
      have := abs_le.1 e1
      have h53 : (c : ℚ) / (n : ℚ) / 2 ^ 53 < (c : ℚ) / (n : ℚ) := by
        rw [div_lt_iff₀ (by positivity)]
        nlinarith
      linarith [this.1]
    have hp0 : 0 < toDouble ((c : ℚ) / (n : ℚ)) * 100 := by positivity
    have e2 := toDouble_error hp0
    set q := (c : ℚ) / (n : ℚ) with hq
    set x := toDouble q with hx
    set y := toDouble (x * 100) with hy
    have a1 := abs_le.1 e1
    have a2 := abs_le.1 e2
    have hE : 100 * (c : ℚ) / (n : ℚ) = 100 * q := by rw [hq]; ring
    rw [hE, abs_le]
    have hu : q / 2 ^ 53 ≤ 1 / 2 ^ 53 := by
      apply div_le_div_of_nonneg_right hq1 (by positivity)
    have hv : x * 100 / 2 ^ 53 ≤ 100 / 2 ^ 53 := by
      apply div_le_div_of_nonneg_right _ (by positivity)
      linarith
    constructor
    · have : (201 : ℚ) / 2 ^ 53 = 100 / 2 ^ 53 + 100 * (1 / 2 ^ 53) + 1 / 2 ^ 53 := by ring
      have hpos : (0 : ℚ) ≤ 1 / 2 ^ 53 := by positivity
      linarith [a1.1, a2.1]
    · have : (201 : ℚ) / 2 ^ 53 = 100 / 2 ^ 53 + 100 * (1 / 2 ^ 53) + 1 / 2 ^ 53 := by ring
      have hpos : (0 : ℚ) ≤ 1 / 2 ^ 53 := by positivity
      linarith [a1.2, a2.2]

/-- For fewer than `2 ^ 44` results the double computation gives the exact
rounded percentage, except that at an exact half it may give the integer below. -/
theorem jsPercent_exact {c n : ℕ} (hn : 0 < n) (hc : c ≤ n) (hbig : n < 2 ^ 44) :
    jsPercent c n = mathRound (100 * (c : ℚ) / (n : ℚ)) ∨
    (jsPercent c n = mathRound (100 * (c : ℚ) / (n : ℚ)) - 1 ∧
      (200 * c + n) % (2 * n) = 0) := by
  have herr := abs_le.1 (percent_error hn hc)
  have hnq : (0 : ℚ) < (n : ℚ) := by exact_mod_cast hn
  set E := 100 * (c : ℚ) / (n : ℚ) with hE
  set y := toDouble (toDouble ((c : ℚ) / (n : ℚ)) * 100) with hy
  set k := mathRound E with hk
  have hk1 : (k : ℚ) ≤ E + 1 / 2 := Int.floor_le _
  have hk2 : E + 1 / 2 < (k : ℚ) + 1 := Int.lt_floor_add_one _
  -- the gap: 1 / (2 n) exceeds the error
  have hgap : (201 : ℚ) / 2 ^ 53 < 1 / (2 * (n : ℚ)) := by
    have hn44 : (n : ℚ) < 17592186044416 := by
      have h := hbig
      norm_num at h
      exact_mod_cast h
    rw [div_lt_div_iff₀ (by positivity) (by positivity)]
    norm_num
    linarith
  have hsmall : (201 : ℚ) / 2 ^ 53 < 1 := by norm_num
  -- E + 1/2 = A / B
  have hAB : E + 1 / 2 = ((200 * c + n : ℕ) : ℚ) / ((2 * n : ℕ) : ℚ) := by
    rw [hE]; push_cast; field_simp; ring
  have hB : (0 : ℚ) < ((2 * n : ℕ) : ℚ) := by push_cast; linarith
  have hjs : jsPercent c n = Int.floor (y + 1 / 2) := rfl
  by_cases htie : (200 * c + n) % (2 * n) = 0
  · -- exact half: E + 1/2 = k
    have hEk : E + 1 / 2 = (k : ℚ) := by
      obtain ⟨t, ht⟩ := Nat.dvd_of_mod_eq_zero htie
      have : E + 1 / 2 = ((t : ℤ) : ℚ) := by
        rw [hAB, ht]; push_cast; field_simp
      have hkt : k = (t : ℤ) := by
        rw [hk]; unfold mathRound; rw [this]; exact Int.floor_intCast _
      rw [this, hkt]
    have hlo : (k : ℚ) - 1 ≤ y + 1 / 2 := by linarith [herr.1]
    have hhi : y + 1 / 2 < (k : ℚ) + 1 := by linarith [herr.2]
    have h1 : k - 1 ≤ Int.floor (y + 1 / 2) := by
      rw [Int.le_floor]; push_cast; exact hlo
    have h2 : Int.floor (y + 1 / 2) < k + 1 := by
      rw [Int.floor_lt]; push_cast; exact hhi
    rw [hjs]
    rcases (by omega : Int.floor (y + 1 / 2) = k ∨ Int.floor (y + 1 / 2) = k - 1) with h | h
    · exact Or.inl h
    · exact Or.inr ⟨h, htie⟩
  · -- no half: E + 1/2 is at least 1 / (2 n) away from k and k + 1
    left
    rw [hjs]
    have hA : ((k : ℚ)) * ((2 * n : ℕ) : ℚ) ≤ ((200 * c + n : ℕ) : ℚ) := by
      rw [hAB, le_div_iff₀ hB] at hk1; exact hk1
    have hA2 : ((200 * c + n : ℕ) : ℚ) < ((k : ℚ) + 1) * ((2 * n : ℕ) : ℚ) := by
      rw [hAB, div_lt_iff₀ hB] at hk2; exact hk2
    have hAi : k * ((2 * n : ℕ) : ℤ) ≤ ((200 * c + n : ℕ) : ℤ) := by exact_mod_cast hA
    have hA2i : ((200 * c + n : ℕ) : ℤ) < (k + 1) * ((2 * n : ℕ) : ℤ) := by exact_mod_cast hA2
    have hne : k * ((2 * n : ℕ) : ℤ) ≠ ((200 * c + n : ℕ) : ℤ) := by
      intro heq
      apply htie
      have hk0 : 0 ≤ k := by
        rw [hk]; unfold mathRound; apply Int.floor_nonneg.2
        have : (0 : ℚ) ≤ E := by rw [hE]; positivity
        linarith
      obtain ⟨t, ht⟩ := Int.eq_ofNat_of_zero_le hk0
      rw [ht] at heq
      have : t * (2 * n) = 200 * c + n := by exact_mod_cast heq
      rw [← this, Nat.mul_mod_left]
    have hAi' : k * ((2 * n : ℕ) : ℤ) + 1 ≤ ((200 * c + n : ℕ) : ℤ) := by omega
    have hA2i' : ((200 * c + n : ℕ) : ℤ) + 1 ≤ (k + 1) * ((2 * n : ℕ) : ℤ) := by omega
    have hlow : (k : ℚ) + 1 / (2 * (n : ℚ)) ≤ E + 1 / 2 := by
      rw [hAB, le_div_iff₀ hB]
      have : ((k * ((2 * n : ℕ) : ℤ) + 1 : ℤ) : ℚ) ≤ (((200 * c + n : ℕ) : ℤ) : ℚ) := by
        exact_mod_cast hAi'
      push_cast at this ⊢
      have h1 : 1 / (2 * (n : ℚ)) * (2 * (n : ℚ)) = 1 := by field_simp
      nlinarith
    have hhigh : E + 1 / 2 ≤ (k : ℚ) + 1 - 1 / (2 * (n : ℚ)) := by
      rw [hAB, div_le_iff₀ hB]
      have : ((((200 * c + n : ℕ) : ℤ) + 1 : ℤ) : ℚ) ≤ (((k + 1) * ((2 * n : ℕ) : ℤ) : ℤ) : ℚ) := by
        exact_mod_cast hA2i'
      push_cast at this ⊢
      have h1 : 1 / (2 * (n : ℚ)) * (2 * (n : ℚ)) = 1 := by field_simp
      nlinarith
    rw [Int.floor_eq_iff]
    constructor
    · linarith [herr.1]
    · linarith [herr.2]

/-- A share below 29.5 % has a rounded percentage below 30. -/
theorem jsPercent_lt_thirty {c n : ℕ} (h : 200 * c < 59 * n) (hbig : n < 2 ^ 44) :
    jsPercent c n < 30 := by
  have hn : 0 < n := by omega
  have hc : c ≤ n := by omega
  have hk : mathRound (100 * (c : ℚ) / (n : ℚ)) < 30 := by
    unfold mathRound
    rw [Int.floor_lt]
    have hnq : (0 : ℚ) < (n : ℚ) := by exact_mod_cast hn
    have hq : (200 : ℚ) * (c : ℚ) < 59 * (n : ℚ) := by exact_mod_cast h
    have : 100 * (c : ℚ) / (n : ℚ) < 59 / 2 := by
      rw [div_lt_iff₀ hnq]
      linarith
    push_cast
    linarith
  rcases jsPercent_exact hn hc hbig with h1 | ⟨h1, -⟩ <;> omega

/-- Splitting on a character yields at least one piece. -/
theorem splitOnChar_length_pos (sep : Char) (s : Str) : 0 < (splitOnChar sep s).length := by
  cases s with
  | nil => simp [splitOnChar]
  | cons c cs =>
    unfold splitOnChar
    split
    · simp
    · split <;> simp

/-- The absolute error of rounding a rational between 0 and 1 to a double. -/
theorem toDouble_unit_error {q : ℚ} (h0 : 0 ≤ q) (h1 : q ≤ 1) : |toDouble q - q| ≤ 1 / 2 ^ 53 := by
  rcases eq_or_lt_of_le h0 with h | h
  · rw [← h]
    simp [toDouble]
  · refine (toDouble_error h).trans ?_
    exact div_le_div_of_nonneg_right h1 (by positivity)

/-- Comparing the double of a quotient `a / n` with the double of a threshold
`p / q` gives the same answer as comparing the two fractions, as long as
`q * n < 2 ^ 50`. -/
theorem toDouble_div_gt_iff {a n : ℕ} (p q : ℕ) (hn : 0 < n) (han : a ≤ n) (hq : 0 < q) (hpq : p ≤ q)
    (hbig : q * n < 2 ^ 50) :
    toDouble ((a : ℚ) / (n : ℚ)) > toDouble ((p : ℚ) / (q : ℚ)) ↔
      (a : ℚ) / (n : ℚ) > (p : ℚ) / (q : ℚ) := by
  have hnq : (0 : ℚ) < (n : ℚ) := by exact_mod_cast hn
  have hqq : (0 : ℚ) < (q : ℚ) := by exact_mod_cast hq
  have hx0 : (0 : ℚ) ≤ (a : ℚ) / (n : ℚ) := by positivity
  have hx1 : (a : ℚ) / (n : ℚ) ≤ 1 := by
    rw [div_le_iff₀ hnq, one_mul]; exact_mod_cast han
  have ht0 : (0 : ℚ) ≤ (p : ℚ) / (q : ℚ) := by positivity
  have ht1 : (p : ℚ) / (q : ℚ) ≤ 1 := by
    rw [div_le_iff₀ hqq, one_mul]; exact_mod_cast hpq
  have ex := abs_le.1 (toDouble_unit_error hx0 hx1)
  have et := abs_le.1 (toDouble_unit_error ht0 ht1)
  have hprod : (0 : ℚ) < (q : ℚ) * (n : ℚ) := mul_pos hqq hnq
  have hgap : (2 : ℚ) / 2 ^ 53 < 1 / ((q : ℚ) * (n : ℚ)) := by
    have hb : (q : ℚ) * (n : ℚ) < 1125899906842624 := by
      have h := hbig
      norm_num at h
      exact_mod_cast h
    rw [div_lt_div_iff₀ (by positivity) hprod]
    norm_num
    linarith
  rcases lt_trichotomy ((a : ℚ) / (n : ℚ)) ((p : ℚ) / (q : ℚ)) with hlt | heq | hgt
  · -- below the threshold by at least `1 / (q n)`
    have hnat : a * q < p * n := by
      rw [div_lt_div_iff₀ hnq hqq] at hlt
      exact_mod_cast hlt
    have hstep : ((a * q + 1 : ℕ) : ℚ) ≤ ((p * n : ℕ) : ℚ) := by exact_mod_cast hnat
    have hdist : (a : ℚ) / (n : ℚ) + 1 / ((q : ℚ) * (n : ℚ)) ≤ (p : ℚ) / (q : ℚ) := by
      rw [div_add_div _ _ (ne_of_gt hnq) (ne_of_gt hprod), div_le_div_iff₀ (by positivity) hqq]
      push_cast at hstep
      nlinarith
    constructor
    · intro h
      linarith [ex.2, et.1]
    · intro h
      linarith
  · rw [heq]
    constructor <;> intro h <;> exact absurd h (lt_irrefl _)
  · have hnat : p * n < a * q := by
      rw [div_lt_div_iff₀ hqq hnq] at hgt
      exact_mod_cast hgt
    have hstep : ((p * n + 1 : ℕ) : ℚ) ≤ ((a * q : ℕ) : ℚ) := by exact_mod_cast hnat
    have hdist : (p : ℚ) / (q : ℚ) + 1 / ((q : ℚ) * (n : ℚ)) ≤ (a : ℚ) / (n : ℚ) := by
      rw [div_add_div _ _ (ne_of_gt hqq) (ne_of_gt hprod), div_le_div_iff₀ (by positivity) hnq]
      push_cast at hstep
      nlinarith
    constructor
    · intro _
      exact hgt
    · intro _
      show toDouble ((p : ℚ) / (q : ℚ)) < toDouble ((a : ℚ) / (n : ℚ))
      linarith [ex.1, et.2]

/-- For at most 5 questions the percentage computed on doubles is the exactly
rounded percentage. -/
theorem jsPercent_small :
    ∀ n : Nat, n ≤ 5 → ∀ c : Nat, c ≤ n → jsPercent c n = mathRound ((c : ℚ) / (n : ℚ) * 100) := by
  decide!

/-- The loop of `split` returns at least one piece. -/
theorem splitFrom_ne_nil (re : Regex) :
    ∀ (fuel : Nat) (before after cur : Str), splitFrom re fuel before after cur ≠ [] := by
  intro fuel
  induction fuel with
  | zero => intro before after cur; simp [splitFrom]
  | succ fuel ih =>
    intro before after cur
    cases after with
    | nil => simp [splitFrom]
    | cons a rest =>
      unfold splitFrom
      split
      · exact ih _ _ _
      · split
        · exact ih _ _ _
        · exact List.cons_ne_nil _ _

/-- A `Set` built from a non-empty array is not empty. -/
theorem toSet_ne_nil {l : List Str} (h : l ≠ []) : toSet l ≠ [] := by
  cases l with
  | nil => exact absurd rfl h
  | cons a l => simp [toSet]

/-- One is a double. -/
theorem toDouble_one : toDouble 1 = 1 := by decide!

/-- Every match found by the loop of a global `match` is a contiguous part of
the text still ahead. -/
theorem matchAllFrom_infix (re : Regex) :
    ∀ (fuel : Nat) (before after t : Str),
      t ∈ matchAllFrom re fuel before after → t <:+: after := by
  intro fuel
  induction fuel with
  | zero => intro before after t h; simp [matchAllFrom] at h
  | succ fuel ih =>
    intro before after t h
    unfold matchAllFrom at h
    cases hs : re.search before after with
    | none => rw [hs] at h; simp at h
    | some p =>
      obtain ⟨x, y⟩ := p
      rw [hs] at h
      simp only [] at h
      obtain ⟨hx, hy⟩ := Regex.search_adv re after before x y hs
      have hxs : x.after <:+ after := Adv.after_suffix hx
      have hys : y.after <:+ x.after := Adv.after_suffix hy
      have hmt : matchedText x y <:+: after :=
        ((List.take_prefix _ _).isInfix).trans hxs.isInfix
      split at h
      · cases hya : y.after with
        | nil =>
          rw [hya] at h
          simp only [List.mem_singleton] at h
          rw [h]; exact hmt
        | cons a rest =>
          rw [hya] at h
          simp only [List.mem_cons] at h
          rcases h with h | h
          · rw [h]; exact hmt
          · have h1 := ih _ _ _ h
            have h2 : rest <:+ y.after := by rw [hya]; exact List.suffix_cons a rest
            exact h1.trans ((h2.trans (hys.trans hxs)).isInfix)
      · simp only [List.mem_cons] at h
        rcases h with h | h
        · rw [h]; exact hmt
        · exact (ih _ _ _ h).trans ((hys.trans hxs).isInfix)

/-- Every match of a global `match` is a contiguous part of the text. -/
theorem matchAll_infix {re : Regex} {s : Str} {found : List Str}
    (h : re.matchAll s = some found) {t : Str} (ht : t ∈ found) : t <:+: s := by
  unfold Regex.matchAll at h
  split at h
  · cases h
  · simp only [Option.some.injEq] at h
    rw [← h] at ht
    exact matchAllFrom_infix re _ _ _ _ ht

/-- Fragments that lie in a text in order lie in any longer text that ends with it. -/
theorem InTextOrder.append_left {fs : List Str} {text : Str} (g : Str)
    (h : InTextOrder fs text) : InTextOrder fs (g ++ text) := by
  cases fs with
  | nil => trivial
  | cons f fs =>
    obtain ⟨pre, rest, h1, h2⟩ := h
    exact ⟨g ++ pre, rest, by rw [h1]; simp, h2⟩

/-- Leaving out fragments keeps the others in order. -/
theorem InTextOrder.sublist {l₁ l₂ : List Str} (hs : l₁.Sublist l₂) :
    ∀ {text : Str}, InTextOrder l₂ text → InTextOrder l₁ text := by
  induction hs with
  | slnil => intro text h; exact h
  | cons a _ ih =>
    intro text h
    obtain ⟨pre, rest, h1, h2⟩ := h
    rw [h1]
    exact (ih h2).append_left (pre ++ a)
  | cons₂ a _ ih =>
    intro text h
    obtain ⟨pre, rest, h1, h2⟩ := h
    exact ⟨pre, rest, h1, ih h2⟩

/-- The pieces returned by the loop of `split` lie in the text in their order. -/
theorem splitFrom_inTextOrder (re : Regex) :
    ∀ (fuel : Nat) (before after cur : Str),
      InTextOrder (splitFrom re fuel before after cur) (cur.reverse ++ after) := by
  intro fuel
  induction fuel with
  | zero =>
    intro before after cur
    exact ⟨[], [], by simp, trivial⟩
  | succ fuel ih =>
    intro before after cur
    cases after with
    | nil => exact ⟨[], [], by simp [splitFrom], trivial⟩
    | cons a rest =>
      have hstep : InTextOrder (splitFrom re fuel (a :: before) rest (a :: cur))
          (cur.reverse ++ a :: rest) := by
        have := ih (a :: before) rest (a :: cur)
        simpa using this
      unfold splitFrom
      cases hm : re.matchAt before (a :: rest) with
      | none => exact hstep
      | some y =>
        simp only []
        split
        · exact hstep
        · refine ⟨[], a :: rest, by simp, ?_⟩
          obtain ⟨g, hg⟩ := Adv.after_suffix (Regex.matchAt_adv hm)
          have := (ih y.before y.after []).append_left g
          simp only [List.reverse_nil, List.nil_append] at this
          rw [hg] at this
          exact this

/-- The pieces returned by `split` lie in the text in their order. -/
theorem split_inTextOrder (re : Regex) (s : Str) : InTextOrder (re.split s) s := by
  unfold Regex.split
  split
  · split
    · trivial
    · exact ⟨[], s, by simp, trivial⟩
  · have := splitFrom_inTextOrder re (2 * s.length + 2) [] s []
    simpa using this

/-- When the pattern matches, with progress, wherever a separator character
stands, no piece returned by the loop of `split` contains a separator. -/
theorem splitFrom_no_separator (re : Regex) (sep : Char → Bool)
    (hsep : ∀ (before : Str) (a : Char) (rest : Str), sep a = true →
      ∃ y, re.matchAt before (a :: rest) = some y ∧ y.pos ≠ before.length) :
    ∀ (fuel : Nat) (before after cur : Str),
      2 * after.length + (if cur.isEmpty then 0 else 1) ≤ fuel →
      (∀ c ∈ cur, sep c = false) →
      ∀ piece ∈ splitFrom re fuel before after cur, ∀ c ∈ piece, sep c = false := by
  intro fuel
  induction fuel with
  | zero =>
    intro before after cur hfuel hcur piece hp c hc
    have ha : after = [] := by
      cases after with
      | nil => rfl
      | cons a rest => simp only [List.length_cons] at hfuel; omega
    subst ha
    simp only [splitFrom, List.append_nil, List.mem_singleton] at hp
    subst hp
    exact hcur c (List.mem_reverse.1 hc)
  | succ fuel ih =>
    intro before after cur hfuel hcur piece hp c hc
    cases after with
    | nil =>
      simp only [splitFrom, List.mem_singleton] at hp
      subst hp
      exact hcur c (List.mem_reverse.1 hc)
    | cons a rest =>
      simp only [List.length_cons] at hfuel
      have hstep : sep a = false →
          ∀ piece ∈ splitFrom re fuel (a :: before) rest (a :: cur), ∀ c ∈ piece,
            sep c = false := by
        intro ha
        apply ih
        · simp only [List.isEmpty_cons, Bool.false_eq_true, if_false]
          split at hfuel <;> omega
        · intro c hc
          rcases List.mem_cons.1 hc with h | h
          · rw [h]; exact ha
          · exact hcur c h
      unfold splitFrom at hp
      cases hm : re.matchAt before (a :: rest) with
      | none =>
        rw [hm] at hp
        have ha : sep a = false := by
          cases hsa : sep a with
          | false => rfl
          | true =>
            obtain ⟨y, hy, -⟩ := hsep before a rest hsa
            rw [hm] at hy
            cases hy
        exact hstep ha piece hp c hc
      | some y =>
        rw [hm] at hp
        simp only [] at hp
        split at hp
        · rename_i hcond
          have ha : sep a = false := by
            cases hsa : sep a with
            | false => rfl
            | true =>
              obtain ⟨y', hy', hpos⟩ := hsep before a rest hsa
              rw [hm] at hy'
              cases hy'
              simp only [Bool.and_eq_true, beq_iff_eq] at hcond
              exact absurd hcond.1 hpos
          exact hstep ha piece hp c hc
        · rename_i hcond
          rcases List.mem_cons.1 hp with h | h
          · subst h
            exact hcur c (List.mem_reverse.1 hc)
          · have hadv := Regex.matchAt_adv hm
            have hle := hadv.after_le
            simp only [List.length_cons] at hle
            refine ih y.before y.after [] ?_ (fun c hc => absurd hc (List.not_mem_nil c))
              piece h c hc
            simp only [List.isEmpty_nil, if_true, Nat.add_zero]
            by_cases hpos : y.pos = before.length
            · have hne : cur.isEmpty = false := by
                cases hce : cur.isEmpty with
                | false => rfl
                | true =>
                  exfalso
                  apply hcond
                  simp [hpos, hce]
              rw [hne] at hfuel
              simp only [Bool.false_eq_true, if_false] at hfuel
              omega
            · have hlt := hadv.after_lt (by simpa [MState.pos] using hpos)
              simp only [List.length_cons] at hlt
              omega

/-- Where a character of the class stands, `[...]+` matches and moves forward. -/
theorem plus_class_matchAt (atoms : List ClassAtom) (before : Str) (a : Char) (rest : Str)
    (h : classHas false atoms a = true) :
    ∃ y, Regex.matchAt { pattern := RE.plus (RE.cls false atoms) } before (a :: rest) = some y ∧
      y.pos ≠ before.length := by
  have hthrough := repeatMatcher_through (charMatcher_through true
    (fun a => classHas false atoms a != false)) true []
  have hp : (classHas false atoms a != false) = true := by rw [h]; rfl
  -- after the first character the loop cannot fail
  have hsome : ∀ (fuel : Nat) (y : MState), 0 < fuel →
      (repeatMatcher (charMatcher true fun a => classHas false atoms a != false) true []
        fuel 0 none y some).isSome = true := by
    intro fuel y hf
    cases fuel with
    | zero => omega
    | succ fuel =>
      unfold repeatMatcher
      simp only [beq_iff_eq, reduceCtorEq, if_false, bne_self_eq_false, Bool.false_eq_true,
        if_true]
      split <;> rfl
  have hrun : Regex.matchAt { pattern := RE.plus (RE.cls false atoms) } before (a :: rest) =
      repeatMatcher (charMatcher true fun a => classHas false atoms a != false) true []
        (1 + (before.length + (a :: rest).length)) 0 none
        { before := a :: before, after := rest, caps := [] } some := by
    unfold Regex.matchAt
    simp only [RE.plus, compile]
    rw [show 1 + (before.length + (a :: rest).length) + 1 =
      (1 + (before.length + (a :: rest).length)).succ from rfl]
    rw [repeatMatcher]
    simp only [beq_iff_eq, reduceCtorEq, if_false, Nat.one_ne_zero, bne_iff_ne, ne_eq,
      not_false_eq_true, if_true, Bool.false_and, Bool.false_eq_true, RE.groups, clearCaps,
      List.filter_nil, Nat.sub_self, Option.map_none']
    show charMatcher true (fun a => classHas false atoms a != false)
      { before := before, after := a :: rest, caps := [] } _ = _
    unfold charMatcher
    simp only [if_true, hp]
    simp
  obtain ⟨z, hz⟩ := Option.isSome_iff_exists.1
    (hsome (1 + (before.length + (a :: rest).length))
      { before := a :: before, after := rest, caps := [] } (by omega))
  refine ⟨z, hrun.trans hz, ?_⟩
  obtain ⟨y', hy', hc⟩ := hthrough _ _ _ _ _ _ hz
  cases hc
  have := hy'.2
  simp only [if_true, MState.pos, List.length_cons] at this ⊢
  omega

/-- The characters of a trimmed text are characters of the text. -/
theorem mem_of_mem_trim {s : Str} {c : Char} (h : c ∈ trim s) : c ∈ s := by
  unfold trim trimEnd trimStart at h
  have h1 := List.mem_reverse.1 h
  have h2 := (List.dropWhile_sublist isWhiteSpace).subset h1
  have h3 := List.mem_reverse.1 h2
  exact (List.dropWhile_sublist isWhiteSpace).subset h3

/-- A text that ends with a character contains it. -/
theorem mem_of_endsWith {c : Char} {s : Str} (h : endsWith [c] s = true) : c ∈ s := by
  unfold endsWith at h
  rw [List.isPrefixOf_iff_prefix] at h
  obtain ⟨t, ht⟩ := h
  have : c ∈ s.reverse := by rw [← ht]; simp
  exact List.mem_reverse.1 this

/-- A literal matches only where the text ahead starts with it, and continues
right after it. -/
theorem lit_match (w : Str) :
    ∀ (x : MState) (c : Cont) (z : MState),
      compile false (RE.lit w) true x c = some z →
      ∃ post, x.after = w ++ post ∧
        c { before := w.reverse ++ x.before, after := post, caps := x.caps } = some z := by
  induction w with
  | nil =>
    intro x c z h
    exact ⟨x.after, rfl, h⟩
  | cons ch cs ih =>
    intro x c z h
    have hchar : ∀ (c' : Cont), compile false (RE.chr ch) true x c' = some z →
        ∃ rest, x.after = ch :: rest ∧
          c' { before := ch :: x.before, after := rest, caps := x.caps } = some z := by
      intro c' h'
      simp only [compile, charMatcher, if_true, Bool.false_eq_true, if_false] at h'
      cases ha : x.after with
      | nil => rw [ha] at h'; cases h'
      | cons a rest =>
        rw [ha] at h'
        simp only [] at h'
        split at h'
        · rename_i hp
          rw [beq_iff_eq] at hp
          subst hp
          exact ⟨rest, rfl, h'⟩
        · cases h'
    cases cs with
    | nil =>
      obtain ⟨rest, h1, h2⟩ := hchar c h
      exact ⟨rest, by simpa using h1, by simpa using h2⟩
    | cons c2 cs =>
      have h' : compile false (RE.chr ch) true x
          (fun y => compile false (RE.lit (c2 :: cs)) true y c) = some z := by
        simpa only [RE.lit, compile, if_true] using h
      obtain ⟨rest, h1, h2⟩ := hchar _ h'
      obtain ⟨post, h3, h4⟩ := ih _ _ _ h2
      refine ⟨post, ?_, ?_⟩
      · rw [h1]
        simp only [] at h3
        rw [h3]
        rfl
      · simp only [] at h4
        simpa using h4

/-- A pattern `\bw\b` (for a word `w` of word characters) matches at a position
only if `w` stands there as a word of its own. -/
theorem word_pattern_match (w : Str) (hne : w ≠ []) (hw : ∀ c ∈ w, isWordChar c = true)
    (before after : Str) (z : MState)
    (h : compile false (RE.seqs [RE.wordBoundary, RE.lit w, RE.wordBoundary]) true
      { before := before, after := after, caps := [] } some = some z) :
    wordAt w before after = true := by
  simp only [RE.seqs, compile, if_true] at h
  split at h
  · rename_i hb1
    obtain ⟨post, h1, h2⟩ := lit_match w _ _ _ h
    simp only [] at h1 h2
    split at h2
    · rename_i hb2
      obtain ⟨c0, cs, hcs⟩ := List.exists_cons_of_ne_nil hne
      -- the first character of `w` is a word character
      have hfirst : isWordChar c0 = true := hw c0 (by rw [hcs]; exact List.mem_cons_self _ _)
      -- so is the last one
      have hlast : ∃ l ls, w.reverse = l :: ls ∧ isWordChar l = true := by
        have hr : w.reverse ≠ [] := by simpa using hne
        obtain ⟨l, ls, hl⟩ := List.exists_cons_of_ne_nil hr
        refine ⟨l, ls, hl, hw l ?_⟩
        have : l ∈ w.reverse := by rw [hl]; exact List.mem_cons_self _ _
        exact List.mem_reverse.1 this
      obtain ⟨l, ls, hl, hlw⟩ := hlast
      unfold wordAt
      rw [h1]
      have hpre : w.isPrefixOf (w ++ post) = true := by
        rw [List.isPrefixOf_iff_prefix]
        exact List.prefix_append _ _
      rw [hpre, List.drop_left]
      rw [h1, hcs] at hb1
      simp only [List.cons_append, hfirst] at hb1
      rw [hl] at hb2
      simp only [List.cons_append, hlw] at hb2
      cases before <;> cases post <;> simp_all
    · cases h2
  · cases h

/-- An alternation matches only if one of its two sides does. -/
theorem compile_alt_some {ic : Bool} {a b : RE} {fwd : Bool} {x : MState} {c : Cont}
    {z : MState} (h : compile ic (RE.alt a b) fwd x c = some z) :
    compile ic a fwd x c = some z ∨ compile ic b fwd x c = some z := by
  simp only [compile] at h
  cases ha : compile ic a fwd x c with
  | none => rw [ha] at h; exact Or.inr h
  | some z' => rw [ha] at h; exact Or.inl h

/-- The test `wordAt` in words: the text ahead is `w` followed by some `post`,
the character before (if any) is no word character, and neither is the first
character of `post` (if any). -/
theorem wordAt_iff (w before after : Str) :
    wordAt w before after = true ↔
      ∃ post, after = w ++ post ∧ (∀ c, before.head? = some c → isWordChar c = false) ∧
        (∀ c, post.head? = some c → isWordChar c = false) := by
  unfold wordAt
  constructor
  · intro h
    simp only [Bool.and_eq_true, Bool.not_eq_true', List.isPrefixOf_iff_prefix] at h
    obtain ⟨⟨⟨post, hpost⟩, hb⟩, ha⟩ := h
    refine ⟨post, hpost.symm, ?_, ?_⟩
    · intro c hc
      cases before with
      | nil => cases hc
      | cons p t =>
        simp only [List.head?_cons, Option.some.injEq] at hc
        subst hc
        exact hb
    · intro c hc
      rw [← hpost, List.drop_left] at ha
      cases post with
      | nil => cases hc
      | cons p t =>
        simp only [List.head?_cons, Option.some.injEq] at hc
        subst hc
        exact ha
  · rintro ⟨post, hpost, hb, ha⟩
    have hpre : w.isPrefixOf after = true := by
      rw [List.isPrefixOf_iff_prefix, hpost]
      exact List.prefix_append _ _
    rw [hpre, hpost, List.drop_left]
    cases before with
    | nil =>
      cases post with
      | nil => rfl
      | cons p t => simp [ha p rfl]
    | cons q u =>
      cases post with
      | nil => simp [hb q rfl]
      | cons p t => simp [ha p rfl, hb q rfl]

/-- The scan `hasWordFrom` in words: somewhere ahead `w` stands with no word
character right before it and none right after it. -/
theorem hasWordFrom_iff (w : Str) (hne : w ≠ []) :
    ∀ (after before : Str),
      hasWordFrom w before after = true ↔
        ∃ mid post, after = mid ++ w ++ post ∧
          (∀ c, (mid.reverse ++ before).head? = some c → isWordChar c = false) ∧
          (∀ c, post.head? = some c → isWordChar c = false) := by
  intro after
  induction after with
  | nil =>
    intro before
    simp only [hasWordFrom, Bool.false_eq_true, false_iff]
    rintro ⟨mid, post, h, -⟩
    have := congrArg List.length h
    simp only [List.length_nil, List.length_append] at this
    have hw : 0 < w.length := List.length_pos.2 hne
    omega
  | cons a rest ih =>
    intro before
    simp only [hasWordFrom, Bool.or_eq_true]
    constructor
    · rintro (h | h)
      · obtain ⟨post, h1, h2, h3⟩ := (wordAt_iff w before (a :: rest)).1 h
        exact ⟨[], post, by simpa using h1, by simpa using h2, h3⟩
      · obtain ⟨mid, post, h1, h2, h3⟩ := (ih (a :: before)).1 h
        refine ⟨a :: mid, post, by rw [h1]; simp, ?_, h3⟩
        simpa using h2
    · rintro ⟨mid, post, h1, h2, h3⟩
      cases mid with
      | nil =>
        left
        exact (wordAt_iff w before (a :: rest)).2 ⟨post, by simpa using h1, by simpa using h2, h3⟩
      | cons m mid =>
        right
        simp only [List.cons_append, List.cons.injEq] at h1
        obtain ⟨hm, hrest⟩ := h1
        subst hm
        exact (ih (a :: before)).2 ⟨mid, post, hrest, by simpa using h2, h3⟩

/-- A text contains `w` as a word of its own exactly if it is `pre ++ w ++
post` with no word character at the end of `pre` and none at the start of `post`. -/
theorem hasWord_iff (w s : Str) (hne : w ≠ []) :
    hasWord w s = true ↔
      ∃ pre post, s = pre ++ w ++ post ∧
        (∀ c, pre.getLast? = some c → isWordChar c = false) ∧
        (∀ c, post.head? = some c → isWordChar c = false) := by
  unfold hasWord
  rw [hasWordFrom_iff w hne]
  constructor
  · rintro ⟨mid, post, h1, h2, h3⟩
    refine ⟨mid, post, h1, ?_, h3⟩
    intro c hc
    apply h2
    rw [List.append_nil, List.head?_reverse]
    exact hc
  · rintro ⟨pre, post, h1, h2, h3⟩
    refine ⟨pre, post, h1, ?_, h3⟩
    intro c hc
    apply h2
    rw [List.append_nil, List.head?_reverse] at hc
    exact hc

end JS

namespace FlashcardGenerator

open JS

theorem processSentence_extends (rt : Runtime) (acc : List Flashcard × Nat) (e : Nat × Str) :
    acc.1 <+: (processSentence rt acc e).1 := by
  unfold processSentence
  split
  · split
    · split
      · exact List.prefix_append _ _
      · exact List.prefix_refl _
    · exact List.prefix_refl _
  · exact List.prefix_refl _

theorem foldl_processSentence_extends (rt : Runtime) (l : List (Nat × Str))
    (acc : List Flashcard × Nat) : acc.1 <+: (l.foldl (processSentence rt) acc).1 := by
  induction l generalizing acc with
  | nil => exact List.prefix_refl _
  | cons e l ih =>
    exact (processSentence_extends rt acc e).trans (ih _)

theorem collectCards_take_prefix (rt : Runtime) (tick : Nat) (sentences : List Str) (k : Nat) :
    (collectCards rt tick (sentences.take k)).1 <+: (collectCards rt tick sentences).1 := by
  have h : (collectCards rt tick sentences) =
      (List.enumFrom (sentences.take k).length (sentences.drop k)).foldl (processSentence rt)
        (collectCards rt tick (sentences.take k)) := by
    unfold collectCards
    conv_lhs => rw [← List.take_append_drop k sentences, List.enum_append, List.foldl_append]
  rw [h]
  exact foldl_processSentence_extends rt _ _

/-- Every card the loop collects was created from a valid sentence, and the
sentence indices of the collected cards increase. -/
theorem foldl_processSentence_origin (rt : Runtime) (sentences : List Str) :
    ∀ (es : List (Nat × Str)) (acc : List Flashcard × Nat) (idxs : List Nat),
      (∀ e ∈ es, sentences[e.1]? = some e.2) →
      (es.map Prod.fst).Pairwise (· < ·) →
      (∀ i ∈ idxs, ∀ e ∈ es, i < e.1) →
      idxs.Pairwise (· < ·) →
      List.Forall₂ (fun i card => ∃ s t, sentences[i]? = some s ∧
        isValidFlashcardSentence rt s = true ∧
        createFlashcardFromSentence rt t s i = some card) idxs acc.1 →
      ∃ idxs2 : List Nat, idxs2.Pairwise (· < ·) ∧
        List.Forall₂ (fun i card => ∃ s t, sentences[i]? = some s ∧
          isValidFlashcardSentence rt s = true ∧
          createFlashcardFromSentence rt t s i = some card) idxs2
          (es.foldl (processSentence rt) acc).1 := by
  intro es
  induction es with
  | nil => intro acc idxs _ _ _ hp hf; exact ⟨idxs, hp, hf⟩
  | cons e es ih =>
    intro acc idxs hget hfst hlt hp hf
    have hget2 : ∀ e2 ∈ es, sentences[e2.1]? = some e2.2 :=
      fun e2 h2 => hget e2 (List.mem_cons_of_mem _ h2)
    rw [List.map_cons, List.pairwise_cons] at hfst
    have hlt2 : ∀ i ∈ idxs, ∀ e2 ∈ es, i < e2.1 :=
      fun i hi e2 h2 => hlt i hi e2 (List.mem_cons_of_mem _ h2)
    rw [List.foldl_cons]
    by_cases hv : isValidFlashcardSentence rt e.2 = true
    · cases hc : createFlashcardFromSentence rt acc.2 e.2 e.1 with
      | none =>
        have : processSentence rt acc e = acc := by simp [processSentence, hv, hc]
        rw [this]; exact ih acc idxs hget2 hfst.2 hlt2 hp hf
      | some card =>
        by_cases hd : isDuplicateCard rt card acc.1 = true
        · have : processSentence rt acc e = (acc.1, acc.2 + 2) := by
            simp [processSentence, hv, hc, hd]
          rw [this]; exact ih _ idxs hget2 hfst.2 hlt2 hp hf
        · have : processSentence rt acc e = (acc.1 ++ [card], acc.2 + 2) := by
            simp [processSentence, hv, hc, hd]
          rw [this]
          refine ih _ (idxs ++ [e.1]) hget2 hfst.2 ?_ ?_ ?_
          · intro i hi e2 h2
            rcases List.mem_append.1 hi with h | h
            · exact hlt2 i h e2 h2
            · rw [List.mem_singleton] at h
              subst h
              exact hfst.1 e2.1 (List.mem_map_of_mem _ h2)
          · rw [List.pairwise_append]
            refine ⟨hp, List.pairwise_singleton _ _, ?_⟩
            intro i hi j hj
            rw [List.mem_singleton] at hj
            subst hj
            exact hlt i hi e (List.mem_cons_self _ _)
          · refine List.rel_append hf ?_
            exact List.Forall₂.cons
              ⟨e.2, acc.2, hget e (List.mem_cons_self _ _), hv, hc⟩ List.Forall₂.nil
    · have : processSentence rt acc e = acc := by simp [processSentence, hv]
      rw [this]; exact ih acc idxs hget2 hfst.2 hlt2 hp hf

theorem collectCards_origin (rt : Runtime) (tick : Nat) (sentences : List Str) :
    ∃ idxs : List Nat, idxs.Pairwise (· < ·) ∧
      List.Forall₂ (fun i card => ∃ s t, sentences[i]? = some s ∧
        isValidFlashcardSentence rt s = true ∧
        createFlashcardFromSentence rt t s i = some card) idxs
        (collectCards rt tick sentences).1 := by
  refine foldl_processSentence_origin rt sentences sentences.enum ([], tick) [] ?_ ?_ ?_
    List.Pairwise.nil List.Forall₂.nil
  · intro e he
    exact List.mk_mem_enum_iff_getElem?.1 he
  · rw [List.enum_map_fst]
    exact List.pairwise_lt_range _
  · intro i hi
    cases hi

theorem ne_nil_of_mem_splitIntoSentences {text s : Str} (h : s ∈ splitIntoSentences text) :
    s ≠ [] := by
  unfold splitIntoSentences at h
  rw [List.mem_filter] at h
  intro hs
  subst hs
  have := h.2
  simp [trim, trimStart, trimEnd] at this

theorem generateFrontContent_ne_nil {sentence : Str} {mainConcept : Option Str}
    (hs : sentence ≠ []) (hm : truthy mainConcept = true) :
    generateFrontContent sentence mainConcept ≠ [] := by
  unfold generateFrontContent
  split
  · cases mainConcept with
    | none => simp [truthy] at hm
    | some c =>
      simp only [truthy, Bool.not_eq_true', List.isEmpty_eq_false] at hm
      simpa using hm
  · simp only []
    split
    · exact hs
    · rename_i h8
      have h6 : (splitOnChar ' ' sentence).length > 6 := by omega
      simp [h6]

theorem generateBackContent_ne_nil (rt : Runtime) {sentence : Str} (hs : sentence ≠ []) :
    generateBackContent rt sentence ≠ [] := by
  unfold generateBackContent
  split
  · exact hs
  · simp only []
    split <;> simp

theorem createFlashcard_sides_ne_nil {rt : Runtime} {t i : Nat} {s : Str} {card : Flashcard}
    (hs : s ≠ []) (h : createFlashcardFromSentence rt t s i = some card) :
    card.front ≠ [] ∧ card.back ≠ [] := by
  unfold createFlashcardFromSentence at h
  by_cases hm : truthy (extractMainConcept s) = true
  · simp only [hm, Bool.not_true, Bool.false_eq_true, if_false, Option.some.injEq] at h
    subst h
    exact ⟨generateFrontContent_ne_nil hs hm, generateBackContent_ne_nil rt hs⟩
  · simp [hm] at h

theorem forall₂_of_mem_right {α β : Type} {R : α → β → Prop} {l₁ : List α} {l₂ : List β}
    (h : List.Forall₂ R l₁ l₂) {b : β} (hb : b ∈ l₂) : ∃ a ∈ l₁, R a b := by
  induction h with
  | nil => cases hb
  | cons hr _ ih =>
    rcases List.mem_cons.1 hb with rfl | hb
    · exact ⟨_, List.mem_cons_self _ _, hr⟩
    · obtain ⟨a, ha, hab⟩ := ih hb
      exact ⟨a, List.mem_cons_of_mem _ ha, hab⟩

theorem calculateSimilarity_comm (rt : Runtime) (a b : Str) :
    calculateSimilarity rt a b = calculateSimilarity rt b a := by
  unfold calculateSimilarity
  simp only []
  congr 2
  · apply length_toSet_congr
    intro w
    simp only [List.mem_filter, List.contains_iff_exists_mem_beq, beq_iff_eq,
      exists_eq_right']
    exact and_comm
  · apply length_toSet_congr
    intro w
    simp only [List.mem_append]
    exact or_comm

theorem isDuplicateCard_eq_false {rt : Runtime} {card : Flashcard} {acc : List Flashcard}
    (h : ¬ isDuplicateCard rt card acc = true) :
    ∀ a ∈ acc, a.front ≠ card.front ∧ a.back ≠ card.back ∧
      calculateSimilarity rt a.front card.front ≤ 7 / 10 ∧
      calculateSimilarity rt card.front a.front ≤ 7 / 10 := by
  intro a ha
  unfold isDuplicateCard at h
  rw [List.any_eq_true] at h
  have h2 : ¬ ((a.front == card.front || a.back == card.back ||
      decide (calculateSimilarity rt a.front card.front > 7 / 10)) = true) :=
    fun hx => h ⟨a, ha, hx⟩
  simp only [Bool.or_eq_true, beq_iff_eq, decide_eq_true_eq, not_or, not_lt] at h2
  refine ⟨h2.1.1, h2.1.2, h2.2, ?_⟩
  rw [calculateSimilarity_comm]
  exact h2.2

theorem foldl_processSentence_pairwise (rt : Runtime) :
    ∀ (es : List (Nat × Str)) (acc : List Flashcard × Nat),
      acc.1.Pairwise (fun a b => a.front ≠ b.front ∧ a.back ≠ b.back ∧
        calculateSimilarity rt a.front b.front ≤ 7 / 10 ∧
        calculateSimilarity rt b.front a.front ≤ 7 / 10) →
      (es.foldl (processSentence rt) acc).1.Pairwise (fun a b =>
        a.front ≠ b.front ∧ a.back ≠ b.back ∧
        calculateSimilarity rt a.front b.front ≤ 7 / 10 ∧
        calculateSimilarity rt b.front a.front ≤ 7 / 10) := by
  intro es
  induction es with
  | nil => intro acc h; exact h
  | cons e es ih =>
    intro acc h
    rw [List.foldl_cons]
    apply ih
    unfold processSentence
    split
    · split
      · rename_i card hc
        split
        · rename_i hd
          simp only [Bool.not_eq_true', ] at hd
          rw [List.pairwise_append]
          refine ⟨h, List.pairwise_singleton _ _, ?_⟩
          intro a ha b hb
          rw [List.mem_singleton] at hb
          subst hb
          exact isDuplicateCard_eq_false (by simp [hd]) a ha
        · exact h
      · exact h
    · exact h

theorem processText_length_le (rt : Runtime) (tick : Nat) (text : Str) :
    (processText rt tick text).1.length ≤ 10 := by
  simp only [processText, List.length_take]
  exact Nat.min_le_left _ _

theorem processText_pairwise (rt : Runtime) (tick : Nat) (text : Str) :
    (processText rt tick text).1.Pairwise (fun a b =>
      a.front ≠ b.front ∧ a.back ≠ b.back ∧
      calculateSimilarity rt a.front b.front ≤ 7 / 10 ∧
      calculateSimilarity rt b.front a.front ≤ 7 / 10) := by
  unfold processText collectCards
  exact (foldl_processSentence_pairwise rt _ ([], tick) List.Pairwise.nil).sublist
    (List.take_sublist _ _)

theorem collectCards_take_succ (rt : Runtime) (tick : Nat) (sentences : List Str) (i : Nat) :
    collectCards rt tick (sentences.take (i + 1)) =
      match sentences[i]? with
      | some s => processSentence rt (collectCards rt tick (sentences.take i)) (i, s)
      | none => collectCards rt tick (sentences.take i) := by
  cases h : sentences[i]? with
  | none =>
    simp only []
    have hl : sentences.length ≤ i := by
      rcases Nat.lt_or_ge i sentences.length with hlt | hge
      · rw [List.getElem?_eq_getElem hlt] at h; cases h
      · exact hge
    rw [List.take_of_length_le hl, List.take_of_length_le (Nat.le_succ_of_le hl)]
  | some s =>
    simp only []
    have hlt : i < sentences.length := by
      rcases Nat.lt_or_ge i sentences.length with hlt | hge
      · exact hlt
      · rw [List.getElem?_eq_none hge] at h; cases h
    unfold collectCards
    rw [List.take_succ, h, Option.toList_some, List.enum_append, List.foldl_append,
      List.length_take, Nat.min_eq_left (Nat.le_of_lt hlt)]
    rfl

/-- C1: `processText` returns at most 10 flashcards: the first 10 of the
accepted cards. The accepted cards arise by running the loop body over the
sentences in order (starting from none), they stem from valid sentences at
increasing sentence indices, and the cards accepted from any initial run of
sentences (cut at 10) begin the result. -/
theorem processText_first_ten (rt : Runtime) (tick : Nat) (text : Str) :
    (processText rt tick text).1.length ≤ 10 ∧
    (processText rt tick text).1 =
      (collectCards rt tick (splitIntoSentences (cleanText text))).1.take 10 ∧
    collectCards rt tick ((splitIntoSentences (cleanText text)).take 0) = ([], tick) ∧
    (∀ i : Nat, collectCards rt tick ((splitIntoSentences (cleanText text)).take (i + 1)) =
      match (splitIntoSentences (cleanText text))[i]? with
      | some s =>
        processSentence rt (collectCards rt tick ((splitIntoSentences (cleanText text)).take i))
          (i, s)
      | none => collectCards rt tick ((splitIntoSentences (cleanText text)).take i)) ∧
    (∃ idxs : List Nat, idxs.Pairwise (· < ·) ∧
      List.Forall₂ (fun i card => ∃ s t, (splitIntoSentences (cleanText text))[i]? = some s ∧
        isValidFlashcardSentence rt s = true ∧
        createFlashcardFromSentence rt t s i = some card) idxs
        (collectCards rt tick (splitIntoSentences (cleanText text))).1) ∧
    ∀ k : Nat, ((collectCards rt tick ((splitIntoSentences (cleanText text)).take k)).1.take 10)
      <+: (processText rt tick text).1 := by
  refine ⟨processText_length_le rt tick text, rfl, rfl, collectCards_take_succ rt tick _,
    collectCards_origin rt tick _, ?_⟩
  · intro k
    obtain ⟨t, ht⟩ := collectCards_take_prefix rt tick (splitIntoSentences (cleanText text)) k
    simp only [processText]
    rw [← ht, List.take_append_eq_append_take]
    exact List.prefix_append _ _

/-- C2: every flashcard of `processText` was built from a sentence of
`splitIntoSentences (cleanText text)` with 5 to 35 whitespace-separated words,
and its front and back are non-empty. -/
theorem processText_card_source (rt : Runtime) (tick : Nat) (text : Str) (card : Flashcard)
    (h : card ∈ (processText rt tick text).1) :
    ∃ (sentence : Str) (index t : Nat),
      (splitIntoSentences (cleanText text))[index]? = some sentence ∧
      5 ≤ (sentenceWords sentence).length ∧ (sentenceWords sentence).length ≤ 35 ∧
      createFlashcardFromSentence rt t sentence index = some card ∧
      card.front ≠ [] ∧ card.back ≠ [] := by
  have hmem : card ∈ (collectCards rt tick (splitIntoSentences (cleanText text))).1 :=
    List.mem_of_mem_take h
  obtain ⟨idxs, -, hf⟩ := collectCards_origin rt tick (splitIntoSentences (cleanText text))
  obtain ⟨i, -, s, t, hget, hv, hc⟩ := forall₂_of_mem_right hf hmem
  have hs : s ≠ [] := ne_nil_of_mem_splitIntoSentences (List.getElem?_mem hget)
  unfold isValidFlashcardSentence at hv
  simp only [Bool.and_eq_true, decide_eq_true_eq] at hv
  exact ⟨s, i, t, hget, hv.1.1.1, hv.1.1.2, hc, createFlashcard_sides_ne_nil hs hc⟩

/-- C3: no two flashcards at different positions of `processText` have equal
fronts, equal backs, or fronts whose word-set similarity exceeds 0.7 (in either
argument order). -/
theorem processText_no_duplicates (rt : Runtime) (tick : Nat) (text : Str) :
    (processText rt tick text).1.Pairwise (fun a b =>
      a.front ≠ b.front ∧ a.back ≠ b.back ∧
      calculateSimilarity rt a.front b.front ≤ 7 / 10 ∧
      calculateSimilarity rt b.front a.front ≤ 7 / 10) :=
  processText_pairwise rt tick text

/-- Instance of `processText_card_source`: the first card of the Leitner text. -/
theorem processText_card_source_witness :
    ∃ (sentence : Str) (index t : Nat),
      (splitIntoSentences (cleanText leitnerText))[index]? = some sentence ∧
      5 ≤ (sentenceWords sentence).length ∧ (sentenceWords sentence).length ≤ 35 ∧
      createFlashcardFromSentence sampleRuntime t sentence index = some leitnerCard ∧
      leitnerCard.front ≠ [] ∧ leitnerCard.back ≠ [] :=
  processText_card_source sampleRuntime 0 leitnerText leitnerCard (by decide!)

theorem isDuplicateCard_sides (rt : Runtime) (card : Flashcard) (acc : List Flashcard) :
    isDuplicateCard rt card acc =
      (acc.map fun c => (c.front, c.back)).any fun p =>
        p.1 == card.front || p.2 == card.back ||
        decide (calculateSimilarity rt p.1 card.front > 7 / 10) := by
  unfold isDuplicateCard
  induction acc with
  | nil => rfl
  | cons a acc ih => simp only [List.any_cons, List.map_cons, ih]

theorem processSentence_sides (lc : Str → Str) (g g' n n' : Nat → Str) (r r' : Nat → Nat)
    (o o' : Nat → Nat → List Nat) (acc acc' : List Flashcard × Nat) (e : Nat × Str)
    (h : (acc.1.map fun c => (c.front, c.back)) = acc'.1.map fun c => (c.front, c.back)) :
    ((processSentence ⟨lc, g, n, r, o⟩ acc e).1.map fun c => (c.front, c.back)) =
      (processSentence ⟨lc, g', n', r', o'⟩ acc' e).1.map fun c => (c.front, c.back) := by
  have hv : isValidFlashcardSentence ⟨lc, g, n, r, o⟩ e.2 =
      isValidFlashcardSentence ⟨lc, g', n', r', o'⟩ e.2 := rfl
  unfold processSentence
  rw [hv]
  split
  · unfold createFlashcardFromSentence
    by_cases hm : truthy (extractMainConcept e.2) = true
    · simp only [hm, Bool.not_true, Bool.false_eq_true, if_false]
      simp only [isDuplicateCard_sides, h]
      have hs : calculateSimilarity ⟨lc, g, n, r, o⟩ = calculateSimilarity ⟨lc, g', n', r', o'⟩ :=
        rfl
      have hb : generateBackContent ⟨lc, g, n, r, o⟩ e.2 =
          generateBackContent ⟨lc, g', n', r', o'⟩ e.2 := rfl
      rw [hs, hb]
      split
      · simp only [List.map_append, h, List.map_cons, List.map_nil]
      · exact h
    · simp only [hm, Bool.not_false, if_true]
      exact h
  · exact h

theorem foldl_processSentence_sides (lc : Str → Str) (g g' n n' : Nat → Str) (r r' : Nat → Nat)
    (o o' : Nat → Nat → List Nat) (es : List (Nat × Str)) :
    ∀ (acc acc' : List Flashcard × Nat),
      (acc.1.map fun c => (c.front, c.back)) = (acc'.1.map fun c => (c.front, c.back)) →
      ((es.foldl (processSentence ⟨lc, g, n, r, o⟩) acc).1.map fun c => (c.front, c.back)) =
        (es.foldl (processSentence ⟨lc, g', n', r', o'⟩) acc').1.map
          fun c => (c.front, c.back) := by
  induction es with
  | nil => intro acc acc' h; exact h
  | cons e es ih =>
    intro acc acc' h
    exact ih _ _ (processSentence_sides lc g g' n n' r r' o o' acc acc' e h)

/-- The fronts and backs returned by `processText` depend on the host only
through its lower-casing. -/
theorem processText_sides (lc : Str → Str) (g g' n n' : Nat → Str) (r r' : Nat → Nat)
    (o o' : Nat → Nat → List Nat) (tick tick' : Nat) (text : Str) :
    ((processText ⟨lc, g, n, r, o⟩ tick text).1.map fun c => (c.front, c.back)) =
      (processText ⟨lc, g', n', r', o'⟩ tick' text).1.map fun c => (c.front, c.back) := by
  unfold processText collectCards
  simp only [List.map_take]
  rw [foldl_processSentence_sides lc g g' n n' r r' o o' _ ([], tick) ([], tick') rfl]

theorem leitner_sides :
    ((processText sampleRuntime 0 leitnerText).1.map fun c => (c.front, c.back)) =
    [("The Leitner system".toList, "The Leitner system is a spaced repetition technique.".toList),
     ("It was developed by".toList, "It was developed by Sebastian Leitner.".toList)] := by
  decide!

/-- C4: on the Leitner text, whatever ids, clock and random outcomes the host
supplies, `processText` returns a flashcard whose front contains "Leitner system"
and whose back is exactly the first sentence. -/
theorem leitner_scenario (generateId isoNow : Nat → Str) (random : Nat → Nat)
    (sortOrder : Nat → Nat → List Nat) (tick : Nat) :
    ∃ card ∈ (processText (asciiRuntime generateId isoNow random sortOrder) tick leitnerText).1,
      includes "Leitner system".toList card.front = true ∧
      card.back = "The Leitner system is a spaced repetition technique.".toList := by
  have h := (processText_sides asciiLowerCase generateId _ isoNow _ random _ sortOrder _ tick 0
    leitnerText).trans leitner_sides
  have hmem : ("The Leitner system".toList,
      "The Leitner system is a spaced repetition technique.".toList) ∈
      (processText (asciiRuntime generateId isoNow random sortOrder) tick leitnerText).1.map
        fun c => (c.front, c.back) := by
    rw [show asciiRuntime generateId isoNow random sortOrder =
      ⟨asciiLowerCase, generateId, isoNow, random, sortOrder⟩ from rfl, h]
    exact List.mem_cons_self _ _
  obtain ⟨card, hc, hp⟩ := List.mem_map.1 hmem
  simp only [Prod.mk.injEq] at hp
  refine ⟨card, hc, ?_, hp.2⟩
  rw [hp.1]
  decide

/-- C5, as stated, fails: generating a second time from the same text appends
cards whose fronts and backs repeat those stored by the first generation. -/
theorem generateFlashcards_repeats_stored :
    ¬ NoNewDuplicate (generateFlashcards sampleRuntime leitnerState).flashcards
      (generateFlashcards sampleRuntime
        (generateFlashcards sampleRuntime leitnerState)).flashcards := by
  intro h
  exact (h 0 2 (by decide) (by decide!) (by decide!)).1 (by decide!)

/-- C5, amended: `generateFlashcards` keeps the stored cards in place and
appends at most 10 cards, namely those of `processText` on the input (none for
a blank input); no two appended cards have equal fronts, equal backs or fronts
of similarity above 0.7. -/
theorem generateFlashcards_appends (rt : Runtime) (s : State) :
    ∃ added : List Flashcard,
      (generateFlashcards rt s).flashcards = s.flashcards ++ added ∧
      added = (if (trim s.currentInput).isEmpty then []
        else (processText rt s.tick s.currentInput).1) ∧
      added.length ≤ 10 ∧
      added.Pairwise (fun a b =>
        a.front ≠ b.front ∧ a.back ≠ b.back ∧
        calculateSimilarity rt a.front b.front ≤ 7 / 10 ∧
        calculateSimilarity rt b.front a.front ≤ 7 / 10) := by
  unfold generateFlashcards
  split
  · exact ⟨[], by simp, rfl, by simp, List.Pairwise.nil⟩
  · exact ⟨(processText rt s.tick s.currentInput).1, rfl, rfl,
      processText_length_le rt s.tick s.currentInput,
      processText_pairwise rt s.tick s.currentInput⟩

/-- C19: with `n` the number of space-separated words of a sentence and `long`
the number of those longer than 8 characters (`n` is never 0), `assessDifficulty`
returns hard exactly if `long / n > 30%`, medium exactly if `15% < long / n ≤ 30%`
and easy exactly if `long / n ≤ 15%`; these three cases cover every sentence. -/
theorem assessDifficulty_spec (sentence : Str) :
    0 < (splitOnChar ' ' sentence).length ∧
    (assessDifficulty sentence = Difficulty.hard ↔
      10 * ((splitOnChar ' ' sentence).filter fun word => decide (word.length > 8)).length >
        3 * (splitOnChar ' ' sentence).length) ∧
    (assessDifficulty sentence = Difficulty.medium ↔
      100 * ((splitOnChar ' ' sentence).filter fun word => decide (word.length > 8)).length >
        15 * (splitOnChar ' ' sentence).length ∧
      10 * ((splitOnChar ' ' sentence).filter fun word => decide (word.length > 8)).length ≤
        3 * (splitOnChar ' ' sentence).length) ∧
    (assessDifficulty sentence = Difficulty.easy ↔
      100 * ((splitOnChar ' ' sentence).filter fun word => decide (word.length > 8)).length ≤
        15 * (splitOnChar ' ' sentence).length) := by
  have hpos : 0 < (splitOnChar ' ' sentence).length := splitOnChar_length_pos ' ' sentence
  set n := (splitOnChar ' ' sentence).length with hn
  set l := ((splitOnChar ' ' sentence).filter fun word => decide (word.length > 8)).length with hl
  have hq : (0 : ℚ) < (n : ℚ) := by exact_mod_cast hpos
  have h1 : ((l : ℚ) / (n : ℚ) > 3 / 10) ↔ 10 * l > 3 * n := by
    rw [gt_iff_lt, div_lt_div_iff₀ (by norm_num) hq]
    constructor
    · intro h; have : ((3 * n : ℕ) : ℚ) < ((10 * l : ℕ) : ℚ) := by push_cast; linarith
      exact_mod_cast this
    · intro h; have : ((3 * n : ℕ) : ℚ) < ((10 * l : ℕ) : ℚ) := by exact_mod_cast h
      push_cast at this; linarith
  have h2 : ((l : ℚ) / (n : ℚ) > 15 / 100) ↔ 100 * l > 15 * n := by
    rw [gt_iff_lt, div_lt_div_iff₀ (by norm_num) hq]
    constructor
    · intro h; have : ((15 * n : ℕ) : ℚ) < ((100 * l : ℕ) : ℚ) := by push_cast; linarith
      exact_mod_cast this
    · intro h; have : ((15 * n : ℕ) : ℚ) < ((100 * l : ℕ) : ℚ) := by exact_mod_cast h
      push_cast at this; linarith
  have hval : assessDifficulty sentence =
      if 10 * l > 3 * n then Difficulty.hard
      else if 100 * l > 15 * n then Difficulty.medium else Difficulty.easy := by
    unfold assessDifficulty
    simp only [← hn, ← hl]
    by_cases c1 : (l : ℚ) / (n : ℚ) > 3 / 10
    · rw [if_pos c1, if_pos (h1.1 c1)]
    · rw [if_neg c1, if_neg fun h => c1 (h1.2 h)]
      by_cases c2 : (l : ℚ) / (n : ℚ) > 15 / 100
      · rw [if_pos c2, if_pos (h2.1 c2)]
      · rw [if_neg c2, if_neg fun h => c2 (h2.2 h)]
  refine ⟨hpos, ?_, ?_, ?_⟩
  · rw [hval]
    by_cases c1 : 10 * l > 3 * n
    · simp [c1]
    · by_cases c2 : 100 * l > 15 * n <;> simp [c1, c2]
  · rw [hval]
    by_cases c1 : 10 * l > 3 * n
    · simp only [c1, if_true]
      constructor
      · intro h; cases h
      · intro h; omega
    · by_cases c2 : 100 * l > 15 * n
      · simp only [c1, c2, if_true, if_false, true_iff]
        exact ⟨trivial, by omega⟩
      · simp only [c1, c2, if_false]
        constructor
        · intro h; cases h
        · intro h; exact h.1.elim
  · rw [hval]
    by_cases c1 : 10 * l > 3 * n
    · simp only [c1, if_true]
      constructor
      · intro h; cases h
      · intro h; omega
    · by_cases c2 : 100 * l > 15 * n
      · simp only [c1, c2, if_true, if_false]
        constructor
        · intro h; cases h
        · intro h; omega
      · simp only [c1, c2, if_false, true_iff]
        omega

/-- Method `cleanText` maps a text of white space only to the empty text. -/
theorem cleanText_eq_nil_of_all_whiteSpace {text : Str}
    (h : ∀ c ∈ text, isWhiteSpace c = true) : cleanText text = [] := by
  unfold cleanText
  apply trim_eq_nil_of_all_whiteSpace
  intro c hc
  rcases mem_replaceAll hc with hc | hc
  · rcases mem_replaceAll hc with hc | hc
    · rcases mem_replaceAll hc with hc | hc
      · exact h c hc
      · rw [List.mem_singleton] at hc; subst hc; decide
    · rw [List.mem_singleton] at hc; subst hc; decide
  · rw [List.mem_singleton] at hc; subst hc; decide

theorem splitIntoSentences_nil : splitIntoSentences [] = [] := by decide!

theorem trim_ne_nil_of_mem_splitIntoSentences {text s : Str}
    (h : s ∈ splitIntoSentences text) : trim s ≠ [] := by
  unfold splitIntoSentences at h
  rw [List.mem_filter] at h
  intro hs
  have := h.2
  simp [hs] at this

/-- C16: the text normalizer `splitIntoSentences (cleanText text)` is a total
function; it gives the empty list for the empty text and for every text made of
white space only, and for every text no fragment of the result is empty or blank. -/
theorem normalizer_total (text : Str) :
    splitIntoSentences (cleanText []) = [] ∧
    ((∀ c ∈ text, isWhiteSpace c = true) → splitIntoSentences (cleanText text) = []) ∧
    ∀ s ∈ splitIntoSentences (cleanText text), s ≠ [] ∧ trim s ≠ [] := by
  refine ⟨?_, ?_, ?_⟩
  · rw [@cleanText_eq_nil_of_all_whiteSpace [] (fun c hc => nomatch hc)]
    exact splitIntoSentences_nil
  · intro h
    rw [cleanText_eq_nil_of_all_whiteSpace h]
    exact splitIntoSentences_nil
  · intro s hs
    exact ⟨ne_nil_of_mem_splitIntoSentences hs, trim_ne_nil_of_mem_splitIntoSentences hs⟩

/-- Instance of `normalizer_total`: a blank text, and the first sentence of the
Leitner text. -/
theorem normalizer_total_witness :
    splitIntoSentences (cleanText " \n\t ".toList) = [] ∧
    ∃ s ∈ splitIntoSentences (cleanText leitnerText), s ≠ [] ∧ trim s ≠ [] :=
  ⟨(normalizer_total " \n\t ".toList).2.1 (by decide),
    "The Leitner system is a spaced repetition technique.".toList, by decide!,
    (normalizer_total leitnerText).2.2 _ (by decide!)⟩

/-- C18 fails on the code: with the stored cards `leitnerCard, developedCard` and
a start-of-session sort that reverses them, the shuffled sequence is
`developedCard, leitnerCard`; step 0 reveals `developedCard`, and after "known"
step 1 reveals `developedCard` again (the stored card at index 1), not the card
at index 1 of the shuffled sequence. -/
theorem study_reveals_stored_order :
    studyCards reversingRuntime twoCardState = [developedCard, leitnerCard] ∧
    showStudyModal reversingRuntime twoCardState = StudyView.card developedCard 0 0 2 ∧
    press twoCardState (showStudyModal reversingRuntime twoCardState) true =
      StudyView.card developedCard 1 1 2 ∧
    (studyCards reversingRuntime twoCardState)[1]? = some leitnerCard ∧
    developedCard ≠ leitnerCard := by
  decide!

/-- C20 fails on the code: in `protoText` the word `__proto__` passes the word
filter and has score `1 * 9`, but it never becomes a key of the frequency
object; `extractKeywords` returns four words, among them "link" of score 4, and
leaves `__proto__` out, and the tags of the generated card are "prototype",
"property", "object". -/
theorem extractKeywords_drops_proto :
    keywordWords sampleRuntime protoText =
      ["__proto__", "property", "link", "prototype", "object"].map String.toList ∧
    extractKeywords sampleRuntime protoText =
      ["prototype", "property", "object", "link"].map String.toList ∧
    ((processText sampleRuntime 0 protoText).1.map fun card => card.tags) =
      [["prototype", "property", "object"].map String.toList] := by
  decide!

/-- The comparisons of `assessDifficulty`, carried out on doubles with the
constants `0.3` and `0.15`, give the result of the comparisons over the
rationals for every sentence of fewer than `2 ^ 43` words. -/
theorem assessDifficulty_double (sentence : Str)
    (h : (splitOnChar ' ' sentence).length < 2 ^ 43) :
    assessDifficulty sentence =
      if toDouble ((((splitOnChar ' ' sentence).filter fun word =>
          decide (word.length > 8)).length : ℚ) / ((splitOnChar ' ' sentence).length : ℚ)) >
          toDouble (3 / 10) then Difficulty.hard
      else if toDouble ((((splitOnChar ' ' sentence).filter fun word =>
          decide (word.length > 8)).length : ℚ) / ((splitOnChar ' ' sentence).length : ℚ)) >
          toDouble (15 / 100) then Difficulty.medium
      else Difficulty.easy := by
  have hpos : 0 < (splitOnChar ' ' sentence).length := splitOnChar_length_pos ' ' sentence
  have hle : ((splitOnChar ' ' sentence).filter fun word => decide (word.length > 8)).length ≤
      (splitOnChar ' ' sentence).length := List.length_filter_le _ _
  have h1 := toDouble_div_gt_iff 3 10 hpos hle (by decide) (by decide)
    (by norm_num at h ⊢; omega)
  have h2 := toDouble_div_gt_iff 15 100 hpos hle (by decide) (by decide)
    (by norm_num at h ⊢; omega)
  have e1 : ((3 : ℕ) : ℚ) / ((10 : ℕ) : ℚ) = 3 / 10 := by norm_num
  have e2 : ((15 : ℕ) : ℚ) / ((100 : ℕ) : ℚ) = 15 / 100 := by norm_num
  rw [e1] at h1
  rw [e2] at h2
  unfold assessDifficulty
  simp only []
  by_cases c1 : (((splitOnChar ' ' sentence).filter fun word =>
      decide (word.length > 8)).length : ℚ) / ((splitOnChar ' ' sentence).length : ℚ) > 3 / 10
  · rw [if_pos c1, if_pos (h1.2 c1)]
  · rw [if_neg c1, if_neg (fun hh => c1 (h1.1 hh))]
    by_cases c2 : (((splitOnChar ' ' sentence).filter fun word =>
        decide (word.length > 8)).length : ℚ) / ((splitOnChar ' ' sentence).length : ℚ) > 15 / 100
    · rw [if_pos c2, if_pos (h2.2 c2)]
    · rw [if_neg c2, if_neg (fun hh => c2 (h2.1 hh))]

/-- C22: `generateFrontContent` returns the main concept when that is a
non-empty string of at most 40 characters (the only kind of concept for which a
card is built); otherwise it returns the full sentence when the sentence has at
most 8 space-separated words, and otherwise the first 6 of these words joined
by single spaces, followed by "...". -/
theorem generateFrontContent_spec (sentence : Str) (mainConcept : Option Str) :
    (truthy mainConcept = true → (mainConcept.getD []).length ≤ 40 →
      generateFrontContent sentence mainConcept = mainConcept.getD []) ∧
    (¬ (truthy mainConcept = true ∧ (mainConcept.getD []).length ≤ 40) →
      (splitOnChar ' ' sentence).length ≤ 8 →
      generateFrontContent sentence mainConcept = sentence) ∧
    (¬ (truthy mainConcept = true ∧ (mainConcept.getD []).length ≤ 40) →
      8 < (splitOnChar ' ' sentence).length →
      generateFrontContent sentence mainConcept =
        join [' '] ((splitOnChar ' ' sentence).take 6) ++ "...".toList) := by
  refine ⟨?_, ?_, ?_⟩
  · intro h1 h2
    unfold generateFrontContent
    rw [if_pos (by simp [h1, h2])]
  · intro h hw
    unfold generateFrontContent
    rw [if_neg (by simpa using h)]
    simp only []
    rw [if_pos hw]
  · intro h hw
    unfold generateFrontContent
    rw [if_neg (by simpa using h)]
    simp only []
    rw [if_neg (by omega), if_pos (by omega)]

/-- Instance of `generateFrontContent_spec`: the concept "The Leitner system";
a concept of 44 characters with a sentence of 8 words and with one of 9 words. -/
theorem generateFrontContent_spec_witness :
    generateFrontContent leitnerText (some "The Leitner system".toList) =
      "The Leitner system".toList ∧
    generateFrontContent "It was developed by Sebastian Leitner in Germany.".toList
      (some "It was developed by Sebastian Leitner in Germany".toList) =
      "It was developed by Sebastian Leitner in Germany.".toList ∧
    generateFrontContent "It was developed by Sebastian Leitner in Germany then.".toList
      (some "It was developed by Sebastian Leitner in Germany".toList) =
      "It was developed by Sebastian Leitner...".toList :=
  ⟨(generateFrontContent_spec leitnerText (some "The Leitner system".toList)).1
      (by decide) (by decide),
    (generateFrontContent_spec "It was developed by Sebastian Leitner in Germany.".toList
      (some "It was developed by Sebastian Leitner in Germany".toList)).2.1
      (by decide) (by decide),
    ((generateFrontContent_spec "It was developed by Sebastian Leitner in Germany then.".toList
      (some "It was developed by Sebastian Leitner in Germany".toList)).2.2
      (by decide) (by decide)).trans (by decide)⟩

/-- Splitting on white space returns at least one piece. -/
theorem reSpaces_split_ne_nil (s : Str) : reSpaces.split s ≠ [] := by
  unfold Regex.split
  split
  · have : (reSpaces.matchAt [] []).isSome = false := by decide
    rw [this]
    simp
  · exact splitFrom_ne_nil _ _ _ _ _

/-- The word set of a string is never empty. -/
theorem wordSet_ne_nil (rt : Runtime) (s : Str) : wordSet rt s ≠ [] :=
  toSet_ne_nil (reSpaces_split_ne_nil _)

/-- The intersection of the two word sets is no larger than their union, and
the union is not empty. -/
theorem similarity_sizes (rt : Runtime) (a b : Str) :
    (toSet ((wordSet rt a).filter fun x => (wordSet rt b).contains x)).length ≤
      (toSet (wordSet rt a ++ wordSet rt b)).length ∧
    0 < (toSet (wordSet rt a ++ wordSet rt b)).length := by
  constructor
  · apply List.Subperm.length_le
    apply List.subperm_of_subset (nodup_toSet _)
    intro w hw
    rw [mem_toSet] at hw ⊢
    exact List.mem_append_left _ (List.mem_of_mem_filter hw)
  · apply List.length_pos.2
    apply toSet_ne_nil
    intro h
    exact wordSet_ne_nil rt a (List.append_eq_nil.1 h).1

/-- C30: `calculateSimilarity` is well defined: the union of the two word sets
is never empty; the quotient, and the double it is rounded to, lie between 0
and 1; the value is symmetric in its arguments; and it is 1 whenever the two
strings have the same lower-case form. -/
theorem calculateSimilarity_spec (rt : Runtime) (a b : Str) :
    0 < (toSet (wordSet rt a ++ wordSet rt b)).length ∧
    0 ≤ calculateSimilarity rt a b ∧ calculateSimilarity rt a b ≤ 1 ∧
    0 ≤ toDouble (calculateSimilarity rt a b) ∧ toDouble (calculateSimilarity rt a b) ≤ 1 ∧
    calculateSimilarity rt a b = calculateSimilarity rt b a ∧
    (rt.toLowerCase a = rt.toLowerCase b →
      calculateSimilarity rt a b = 1 ∧ toDouble (calculateSimilarity rt a b) = 1) := by
  obtain ⟨hle, hpos⟩ := similarity_sizes rt a b
  have hq : (0 : ℚ) < ((toSet (wordSet rt a ++ wordSet rt b)).length : ℚ) := by
    exact_mod_cast hpos
  have h0 : 0 ≤ calculateSimilarity rt a b := by
    unfold calculateSimilarity
    simp only []
    positivity
  have h1 : calculateSimilarity rt a b ≤ 1 := by
    unfold calculateSimilarity
    simp only []
    rw [div_le_iff₀ hq, one_mul]
    exact_mod_cast hle
  refine ⟨hpos, h0, h1, toDouble_nonneg h0, ?_, calculateSimilarity_comm rt a b, ?_⟩
  · have := @toDouble_le_nat _ 1 h0 (by norm_num) (by simpa using h1)
    simpa using this
  · intro hab
    have hone : calculateSimilarity rt a b = 1 := by
      unfold calculateSimilarity
      simp only []
      have hw : wordSet rt a = wordSet rt b := by unfold wordSet; rw [hab]
      rw [hw] at hq ⊢
      rw [div_eq_one_iff_eq (ne_of_gt hq)]
      have : (toSet ((wordSet rt b).filter fun x => (wordSet rt b).contains x)).length =
          (toSet (wordSet rt b ++ wordSet rt b)).length := by
        apply length_toSet_congr
        intro w
        simp only [List.mem_filter, List.mem_append, List.contains_iff_exists_mem_beq,
          beq_iff_eq, exists_eq_right', and_self, or_self]
      exact_mod_cast this
    exact ⟨hone, by rw [hone]; exact toDouble_one⟩

/-- Instance of `calculateSimilarity_spec`: two spellings of one phrase. -/
theorem calculateSimilarity_spec_witness :
    calculateSimilarity sampleRuntime "Spaced Repetition".toList "spaced repetition".toList = 1 :=
  ((calculateSimilarity_spec sampleRuntime "Spaced Repetition".toList
    "spaced repetition".toList).2.2.2.2.2.2 (by decide)).1

/-- The threshold test of `isDuplicateCard`, carried out on doubles with the
constant `0.7`, gives the result of the test over the rationals as long as the
two fronts have fewer than `2 ^ 45` words together. -/
theorem similarity_threshold_double (rt : Runtime) (a b : Str)
    (h : (toSet (wordSet rt a ++ wordSet rt b)).length < 2 ^ 45) :
    toDouble (calculateSimilarity rt a b) > toDouble (7 / 10) ↔
      calculateSimilarity rt a b > 7 / 10 := by
  obtain ⟨hle, hpos⟩ := similarity_sizes rt a b
  have := toDouble_div_gt_iff 7 10 hpos hle (by decide) (by decide)
    (by norm_num at h ⊢; omega)
  have e : ((7 : ℕ) : ℚ) / ((10 : ℕ) : ℚ) = 7 / 10 := by norm_num
  rw [e] at this
  exact this

/-- The pattern `/[,;:]|\band\b|\bor\b/` matches at a position only if one of
the three marks stands there or one of the two words, as a word of its own. -/
theorem reClauseBreak_matchAt {before : Str} {a : Char} {rest : Str} {y : MState}
    (h : reClauseBreak.matchAt before (a :: rest) = some y) :
    (a = ',' ∨ a = ';' ∨ a = ':') ∨ wordAt "and".toList before (a :: rest) = true ∨
      wordAt "or".toList before (a :: rest) = true := by
  unfold Regex.matchAt reClauseBreak at h
  simp only [RE.alts] at h
  rcases compile_alt_some h with hz | h'
  · left
    simp only [compile, charMatcher, if_true] at hz
    split at hz
    · rename_i hp
      simp only [classHas, List.any_cons, List.any_nil, ClassAtom.has, Bool.false_and,
        Bool.or_false, bne_iff_ne, ne_eq, Bool.or_eq_false_iff, beq_eq_false_iff_ne,
        not_and, Bool.not_eq_false, Bool.or_eq_true, beq_iff_eq] at hp
      by_contra hcon
      simp only [not_or] at hcon
      exact hp hcon.1 hcon.2.1 hcon.2.2
    · cases hz
  · right
    rcases compile_alt_some h' with hz | hz
    · left
      exact word_pattern_match _ (by decide) (by decide) _ _ _ hz
    · right
      exact word_pattern_match _ (by decide) (by decide) _ _ _ hz

/-- A text without clause breaks is not split. -/
theorem splitFrom_reClauseBreak :
    ∀ (after : Str) (fuel : Nat) (before cur : Str),
      ',' ∉ after → ';' ∉ after → ':' ∉ after →
      hasWordFrom "and".toList before after = false →
      hasWordFrom "or".toList before after = false →
      splitFrom reClauseBreak fuel before after cur = [cur.reverse ++ after] := by
  intro after
  induction after with
  | nil =>
    intro fuel before cur _ _ _ _ _
    cases fuel <;> simp [splitFrom]
  | cons a rest ih =>
    intro fuel before cur h1 h2 h3 h4 h5
    cases fuel with
    | zero => simp [splitFrom]
    | succ fuel =>
      simp only [hasWordFrom, Bool.or_eq_false_iff] at h4 h5
      have hnone : reClauseBreak.matchAt before (a :: rest) = none := by
        cases hm : reClauseBreak.matchAt before (a :: rest) with
        | none => rfl
        | some y =>
          exfalso
          rcases reClauseBreak_matchAt hm with (h | h | h) | h | h
          · exact h1 (h ▸ List.mem_cons_self _ _)
          · exact h2 (h ▸ List.mem_cons_self _ _)
          · exact h3 (h ▸ List.mem_cons_self _ _)
          · rw [h4.1] at h; cases h
          · rw [h5.1] at h; cases h
      unfold splitFrom
      rw [hnone]
      simp only []
      rw [ih fuel (a :: before) (a :: cur)
        (fun h => h1 (List.mem_cons_of_mem _ h)) (fun h => h2 (List.mem_cons_of_mem _ h))
        (fun h => h3 (List.mem_cons_of_mem _ h)) h4.2 h5.2]
      simp

/-- C21, as stated, fails: `colonSentence` has 152 characters, no comma, no
semicolon and neither the word "and" nor the word "or", but it has a colon,
and `generateBackContent` returns its first clause, ". " and its second clause
instead of its first 150 characters followed by "...". -/
theorem generateBackContent_colon :
    colonSentence.length = 152 ∧ ',' ∉ colonSentence ∧ ';' ∉ colonSentence ∧
    hasWord "and".toList colonSentence = false ∧ hasWord "or".toList colonSentence = false ∧
    generateBackContent sampleRuntime colonSentence =
      ("The Leitner system sorts every flashcard into numbered boxes. cards answered " ++
        "correctly move forward while cards answered wrongly return to the first box").toList ∧
    generateBackContent sampleRuntime colonSentence ≠
      colonSentence.take 150 ++ "...".toList := by
  decide!

/-- C21, amended: `generateBackContent` returns a sentence of at most 120
characters unchanged; for a longer sentence that contains no comma, no
semicolon, no colon and neither the word "and" nor the word "or", it returns
the first 150 characters of the sentence followed by "...". -/
theorem generateBackContent_spec (rt : Runtime) (sentence : Str) :
    (sentence.length ≤ 120 → generateBackContent rt sentence = sentence) ∧
    (120 < sentence.length → ',' ∉ sentence → ';' ∉ sentence → ':' ∉ sentence →
      hasWord "and".toList sentence = false → hasWord "or".toList sentence = false →
      generateBackContent rt sentence = sentence.take 150 ++ "...".toList) := by
  constructor
  · intro h
    unfold generateBackContent
    rw [if_pos h]
  · intro hlen h1 h2 h3 h4 h5
    have hsplit : reClauseBreak.split sentence = [sentence] := by
      unfold Regex.split
      have hne : sentence.isEmpty = false := by
        cases sentence with
        | nil => simp at hlen
        | cons a rest => rfl
      rw [hne]
      simp only [Bool.false_eq_true, if_false]
      rw [splitFrom_reClauseBreak sentence _ [] [] h1 h2 h3 h4 h5]
      simp
    unfold generateBackContent
    rw [if_neg (by omega)]
    simp only []
    rw [hsplit]
    simp [substring0]

/-- Instance of `generateBackContent_spec`: a sentence of 51 characters, and
one of 158 characters without clause breaks. -/
theorem generateBackContent_spec_witness :
    generateBackContent sampleRuntime MCQGenerator.leitnerSentence = MCQGenerator.leitnerSentence ∧
    generateBackContent sampleRuntime plainSentence =
      plainSentence.take 150 ++ "...".toList :=
  ⟨(generateBackContent_spec sampleRuntime MCQGenerator.leitnerSentence).1 (by decide!),
    (generateBackContent_spec sampleRuntime plainSentence).2 (by decide!) (by decide!)
      (by decide!) (by decide!) (by decide!) (by decide!)⟩

end FlashcardGenerator

namespace MCQGenerator

open JS

theorem createMCQ_explanation {rt : Runtime} {tick : Nat} {sentence : Str} {d : Difficulty}
    {index : Nat} {mcq : MCQ} (h : (createMCQ rt tick sentence d index).1 = some mcq) :
    mcq.explanation = sentence := by
  unfold createMCQ at h
  simp only [] at h
  split at h
  · cases h
  · split at h
    · cases h
    · simp only [Option.some.injEq] at h
      rw [← h]

theorem processLoop_sublist (rt : Runtime) (d : Difficulty) (sentences : List Str) :
    ∀ (i tick : Nat),
      ((processLoop rt d sentences i tick).1.map MCQ.explanation).Sublist sentences := by
  induction sentences with
  | nil => intro i tick; simp [processLoop]
  | cons s rest ih =>
    intro i tick
    unfold processLoop
    simp only []
    cases hm : (createMCQ rt tick s d i).1 with
    | none => exact (ih _ _).cons _
    | some mcq =>
      simp only [List.map_cons]
      rw [createMCQ_explanation hm]
      exact (ih _ _).cons₂ _

theorem length_extractDeclarativeSentences_le (rt : Runtime) (text : Str) :
    (extractDeclarativeSentences rt text).length ≤ 15 := by
  unfold extractDeclarativeSentences
  simp only [List.length_take]
  exact Nat.min_le_left _ _

theorem take_min_length {α : Type} (l : List α) (n : Nat) :
    l.take (min l.length n) = l.take n := by
  rcases Nat.le_total l.length n with h | h
  · rw [Nat.min_eq_left h, List.take_of_length_le h, List.take_of_length_le (Nat.le_refl _)]
  · rw [Nat.min_eq_right h]

/-- C6: `processText` returns at most `min count 15` questions and at most as
many as there are candidate sentences; their source sentences form a
subsequence of the first `count` candidates, so each question comes from its
own candidate and nothing is padded. -/
theorem processText_count_bounds (rt : Runtime) (tick : Nat) (text : Str) (d : Difficulty)
    (count : Nat) :
    (processText rt tick text d count).1.length ≤ min count 15 ∧
    (processText rt tick text d count).1.length ≤
      (extractDeclarativeSentences rt (normalizedText text)).length ∧
    ((processText rt tick text d count).1.map MCQ.explanation).Sublist
      ((extractDeclarativeSentences rt (normalizedText text)).take count) := by
  have hsub : ((processText rt tick text d count).1.map MCQ.explanation).Sublist
      ((extractDeclarativeSentences rt (normalizedText text)).take count) := by
    unfold processText
    simp only [take_min_length]
    exact processLoop_sublist rt d _ 0 tick
  have hlen := hsub.length_le
  rw [List.length_map, List.length_take] at hlen
  have h15 := length_extractDeclarativeSentences_le rt (normalizedText text)
  refine ⟨?_, ?_, hsub⟩
  · omega
  · omega

theorem cons_set_perm {α : Type} (a b : α) :
    ∀ (l : List α) (j : Nat), l[j]? = some b → (b :: l.set j a).Perm (a :: l) := by
  intro l
  induction l with
  | nil => intro j h; simp at h
  | cons c l ih =>
    intro j h
    cases j with
    | zero =>
      simp only [List.getElem?_cons_zero, Option.some.injEq] at h
      subst h
      simp only [List.set_cons_zero]
      exact List.Perm.swap _ _ _
    | succ j =>
      simp only [List.getElem?_cons_succ] at h
      simp only [List.set_cons_succ]
      exact ((List.Perm.swap c b _).trans ((ih j h).cons c)).trans (List.Perm.swap a c l)

theorem swap_perm {α : Type} : ∀ (l : List α) (i j : Nat), (swap l i j).Perm l := by
  intro l
  induction l with
  | nil => intro i j; simp [swap]
  | cons c l ih =>
    intro i j
    unfold swap
    cases hi : (c :: l)[i]? with
    | none => exact List.Perm.refl _
    | some a =>
      cases hj : (c :: l)[j]? with
      | none => exact List.Perm.refl _
      | some b =>
        simp only []
        cases i with
        | zero =>
          simp only [List.getElem?_cons_zero, Option.some.injEq] at hi
          subst hi
          cases j with
          | zero =>
            simp only [List.getElem?_cons_zero, Option.some.injEq] at hj
            subst hj
            simp
          | succ j =>
            simp only [List.getElem?_cons_succ] at hj
            simp only [List.set_cons_zero, List.set_cons_succ]
            exact cons_set_perm c b l j hj
        | succ i =>
          simp only [List.getElem?_cons_succ] at hi
          cases j with
          | zero =>
            simp only [List.getElem?_cons_zero, Option.some.injEq] at hj
            subst hj
            simp only [List.set_cons_zero, List.set_cons_succ]
            exact cons_set_perm c a l i hi
          | succ j =>
            simp only [List.getElem?_cons_succ] at hj
            simp only [List.set_cons_succ]
            have := ih i j
            unfold swap at this
            rw [hi, hj] at this
            exact this.cons c

theorem shuffleLoop_perm {α : Type} (rt : Runtime) :
    ∀ (i tick : Nat) (l : List α), (shuffleLoop rt i tick l).1.Perm l := by
  intro i
  induction i with
  | zero => intro tick l; exact List.Perm.refl _
  | succ i ih =>
    intro tick l
    unfold shuffleLoop
    exact (ih _ _).trans (swap_perm l _ _)

theorem shuffleArray_perm {α : Type} (rt : Runtime) (tick : Nat) (l : List α) :
    (shuffleArray rt tick l).1.Perm l :=
  shuffleLoop_perm rt _ tick l

theorem pick_inv (correct : Str) (ok : Str → Bool) :
    ∀ (cands : List Str) (st : List Str × List Str),
      PickInv correct st → PickInv correct (pick ok cands st) := by
  intro cands
  induction cands with
  | nil => intro st h; exact h
  | cons cand rest ih =>
    intro st h
    unfold pick
    split
    · exact h
    · rename_i hlen
      split
      · rename_i hc
        apply ih
        simp only [Bool.and_eq_true, Bool.not_eq_true', List.contains_eq_any_beq,
          List.any_eq_false, beq_iff_eq] at hc
        have hnot : cand ∉ st.2 := fun hm => hc.1 cand hm rfl
        obtain ⟨hnd, hsub, hcu, hcd, _⟩ := h
        refine ⟨?_, ?_, ?_, ?_, ?_⟩
        · rw [List.nodup_append]
          refine ⟨hnd, List.nodup_singleton _, ?_⟩
          intro x hx hx2
          rw [List.mem_singleton] at hx2
          subst hx2
          exact hnot (hsub x hx)
        · intro x hx
          rcases List.mem_append.1 hx with h1 | h1
          · exact List.mem_append_left _ (hsub x h1)
          · exact List.mem_append_right _ h1
        · exact List.mem_append_left _ hcu
        · intro hx
          rcases List.mem_append.1 hx with h1 | h1
          · exact hcd h1
          · rw [List.mem_singleton] at h1
            subst h1
            exact hnot hcu
        · simp only [List.length_append, List.length_singleton]
          omega
      · exact ih st h

theorem pickInv_init (correct : Str) : PickInv correct ([], [correct]) :=
  ⟨List.nodup_nil, fun _ h => absurd h (List.not_mem_nil _), List.mem_singleton_self _,
    List.not_mem_nil _, Nat.zero_le _⟩

theorem generateDistractors_spec (rt : Runtime) (entities : List Str) (correct : Str)
    (d : Difficulty) (sentence : Str) :
    (generateDistractors rt entities correct d sentence).Nodup ∧
    correct ∉ generateDistractors rt entities correct d sentence ∧
    (generateDistractors rt entities correct d sentence).length ≤ 3 := by
  have key : ∀ st : List Str × List Str, PickInv correct st →
      st.1.Nodup ∧ correct ∉ st.1 ∧ st.1.length ≤ 3 := fun st h => ⟨h.1, h.2.2.2.1, h.2.2.2.2⟩
  cases d with
  | easy => exact key _ (pick_inv correct _ _ _ (pickInv_init correct))
  | medium =>
    exact key _ (pick_inv correct _ _ _ (pick_inv correct _ _ _ (pickInv_init correct)))
  | hard =>
    exact key _ (pick_inv correct _ _ _ (pick_inv correct _ _ _ (pickInv_init correct)))

theorem createMCQ_some {rt : Runtime} {tick : Nat} {sentence : Str} {d : Difficulty}
    {index : Nat} {mcq : MCQ} (h : (createMCQ rt tick sentence d index).1 = some mcq) :
    ∃ entity : Str, entity ∈ extractEntities sentence ∧
      mcq.question = generateQuestion sentence entity ∧
      mcq.correctAnswer = 0 ∧
      (generateDistractors rt (extractEntities sentence) entity d sentence).length = 3 ∧
      mcq.options =
        (shuffleArray rt (tick + 2)
          (entity :: generateDistractors rt (extractEntities sentence) entity d sentence)).1 := by
  unfold createMCQ at h
  simp only [] at h
  split at h
  · cases h
  · rename_i hlen
    split at h
    · cases h
    · rename_i hd
      simp only [Option.some.injEq] at h
      have hpos : 0 < (extractEntities sentence).length := by omega
      have hlt : rt.randomBelow tick (extractEntities sentence).length <
          (extractEntities sentence).length := Nat.mod_lt _ hpos
      refine ⟨(extractEntities sentence).getD
        (rt.randomBelow tick (extractEntities sentence).length) [], ?_, ?_, ?_, ?_, ?_⟩
      · rw [List.getD_eq_getElem _ _ hlt]
        exact List.getElem_mem _
      · rw [← h]
      · rw [← h]
      · have := (generateDistractors_spec rt (extractEntities sentence)
          ((extractEntities sentence).getD
            (rt.randomBelow tick (extractEntities sentence).length) []) d sentence).2.2
        omega
      · rw [← h]

/-- C7: a question returned by `createMCQ` has exactly 4 options, pairwise
distinct: the blanked entity and its 3 distractors in some order, none of the
distractors being the entity. -/
theorem createMCQ_options (rt : Runtime) (tick : Nat) (sentence : Str) (d : Difficulty)
    (index : Nat) (mcq : MCQ) (h : (createMCQ rt tick sentence d index).1 = some mcq) :
    mcq.options.length = 4 ∧ mcq.options.Nodup ∧
    ∃ (entity : Str) (distractors : List Str),
      entity ∈ extractEntities sentence ∧
      mcq.question = generateQuestion sentence entity ∧
      distractors = generateDistractors rt (extractEntities sentence) entity d sentence ∧
      distractors.length = 3 ∧ entity ∉ distractors ∧
      mcq.options.Perm (entity :: distractors) := by
  obtain ⟨entity, hmem, hq, -, hlen, hopt⟩ := createMCQ_some h
  have hspec := generateDistractors_spec rt (extractEntities sentence) entity d sentence
  have hperm : mcq.options.Perm
      (entity :: generateDistractors rt (extractEntities sentence) entity d sentence) := by
    rw [hopt]; exact shuffleArray_perm rt _ _
  refine ⟨?_, ?_, entity, _, hmem, hq, rfl, hlen, hspec.2.1, hperm⟩
  · rw [hperm.length_eq, List.length_cons, hlen]
  · rw [hperm.nodup_iff, List.nodup_cons]
    exact ⟨hspec.2.1, hspec.1⟩

/-- Instance of `createMCQ_options`: the question built from `leitnerSentence`. -/
theorem createMCQ_options_witness :
    leitnerMCQ.options.length = 4 ∧ leitnerMCQ.options.Nodup ∧
    ∃ (entity : Str) (distractors : List Str),
      entity ∈ extractEntities leitnerSentence ∧
      leitnerMCQ.question = generateQuestion leitnerSentence entity ∧
      distractors = generateDistractors sampleRuntime (extractEntities leitnerSentence) entity
        Difficulty.medium leitnerSentence ∧
      distractors.length = 3 ∧ entity ∉ distractors ∧
      leitnerMCQ.options.Perm (entity :: distractors) :=
  createMCQ_options sampleRuntime 0 leitnerSentence Difficulty.medium 0 leitnerMCQ (by decide!)

/-- C8 fails on the code: for `leitnerSentence`, difficulty medium and the
random outcomes of `sampleRuntime`, `createMCQ` blanks out "The Leitner" but
stores `correctAnswer = 0` while the shuffle has put "system is a" at index 0
and "The Leitner" at index 2. -/
theorem createMCQ_stale_correctAnswer :
    (createMCQ sampleRuntime 0 leitnerSentence Difficulty.medium 0).1 = some leitnerMCQ ∧
    leitnerMCQ.question = generateQuestion leitnerSentence "The Leitner".toList ∧
    leitnerMCQ.options[leitnerMCQ.correctAnswer]? = some "system is a".toList ∧
    leitnerMCQ.options[2]? = some "The Leitner".toList := by
  decide!

theorem selectAnswer_some {rt : Runtime} {s s' : State} {sel : Nat}
    (h : selectAnswer rt s sel = some s') :
    ∃ q : MCQ, s.currentQuiz[s.currentQuestionIndex]? = some q ∧
      s' = { s with
        quizResults := s.quizResults ++
          [{ mcqId := q.id, question := q.question, selectedAnswer := sel,
             isCorrect := sel == 0, timestamp := rt.isoNow s.tick }]
        quizScore := if (sel == 0) = true then s.quizScore + 1 else s.quizScore
        currentQuestionIndex := s.currentQuestionIndex + 1
        tick := s.tick + 1 } := by
  unfold selectAnswer at h
  split at h
  · cases h
  · rename_i q hq
    simp only [Option.some.injEq] at h
    exact ⟨q, hq, h.symm⟩

/-- C9, amended: the result appended by `selectAnswer` is marked correct
exactly when the selected index is 0; the stored `correctAnswer` is not read,
so this is "selected index equals `correctAnswer`" on the questions whose
stored `correctAnswer` is 0. -/
theorem selectAnswer_isCorrect (rt : Runtime) (s s' : State) (sel : Nat)
    (h : selectAnswer rt s sel = some s') :
    ∃ (q : MCQ) (r : QuizResult),
      s.currentQuiz[s.currentQuestionIndex]? = some q ∧
      s'.quizResults = s.quizResults ++ [r] ∧
      r.mcqId = q.id ∧ r.selectedAnswer = sel ∧
      (r.isCorrect = true ↔ sel = 0) ∧
      (q.correctAnswer = 0 → (r.isCorrect = true ↔ sel = q.correctAnswer)) := by
  obtain ⟨q, hq, hs⟩ := selectAnswer_some h
  subst hs
  refine ⟨q, _, hq, rfl, rfl, rfl, ?_, ?_⟩
  · simp
  · intro h0
    simp [h0]

/-- Instance of `selectAnswer_isCorrect`: answering 0 in `storedQuiz`. -/
theorem selectAnswer_isCorrect_witness :
    ∃ (q : MCQ) (r : QuizResult),
      storedQuiz.currentQuiz[storedQuiz.currentQuestionIndex]? = some q ∧
      storedQuizAnswered.quizResults = storedQuiz.quizResults ++ [r] ∧
      r.mcqId = q.id ∧ r.selectedAnswer = 0 ∧
      (r.isCorrect = true ↔ 0 = 0) ∧
      (q.correctAnswer = 0 → (r.isCorrect = true ↔ 0 = q.correctAnswer)) :=
  selectAnswer_isCorrect sampleRuntime storedQuiz storedQuizAnswered 0 rfl

/-- C9, as stated, fails: for a question whose stored `correctAnswer` is 2,
selecting index 2 is recorded with `isCorrect = false`. -/
theorem selectAnswer_ignores_correctAnswer :
    ∃ (s' : State) (r : QuizResult),
      storedQuiz.currentQuiz[storedQuiz.currentQuestionIndex]? = some storedQuestion ∧
      storedQuestion.correctAnswer = 2 ∧
      selectAnswer sampleRuntime storedQuiz 2 = some s' ∧
      s'.quizResults = storedQuiz.quizResults ++ [r] ∧
      r.isCorrect = false :=
  ⟨_, _, by decide!, by decide!, rfl, rfl, by decide!⟩

theorem selectAnswer_isSome (rt : Runtime) {s : State} (sel : Nat)
    (h : s.currentQuestionIndex < s.currentQuiz.length) :
    ∃ s', selectAnswer rt s sel = some s' := by
  unfold selectAnswer
  rw [List.getElem?_eq_getElem h]
  exact ⟨_, rfl⟩

/-- Answering the remaining questions one by one succeeds, appends one result
per answer, and raises the score by the number of results marked correct. -/
theorem answerAll_spec (rt : Runtime) :
    ∀ (answers : List Nat) (s : State),
      s.currentQuestionIndex + answers.length ≤ s.currentQuiz.length →
      ∃ (final : State) (added : List QuizResult),
        answerAll rt s answers = some final ∧
        final.currentQuiz = s.currentQuiz ∧
        final.mcqs = s.mcqs ∧
        final.currentQuestionIndex = s.currentQuestionIndex + answers.length ∧
        final.quizResults = s.quizResults ++ added ∧
        added.map QuizResult.selectedAnswer = answers ∧
        final.quizScore = s.quizScore + (added.filter fun r => r.isCorrect).length ∧
        final.quizScore = s.quizScore + (answers.filter fun sel => sel == 0).length := by
  intro answers
  induction answers with
  | nil =>
    intro s _
    exact ⟨s, [], rfl, rfl, rfl, rfl, by simp, rfl, by simp, by simp⟩
  | cons sel rest ih =>
    intro s hlen
    simp only [List.length_cons] at hlen
    obtain ⟨s1, h1⟩ := selectAnswer_isSome rt sel (show s.currentQuestionIndex <
      s.currentQuiz.length by omega)
    obtain ⟨q, -, hs1⟩ := selectAnswer_some h1
    have hq1 : s1.currentQuiz = s.currentQuiz := by rw [hs1]
    have hi1 : s1.currentQuestionIndex = s.currentQuestionIndex + 1 := by rw [hs1]
    obtain ⟨final, added, hrun, hquiz, hmcqs, hidx, hres, hsel, hsc1, hsc2⟩ :=
      ih s1 (by rw [hq1, hi1]; omega)
    refine ⟨final, QuizResult.mk q.id q.question sel (sel == 0) (rt.isoNow s.tick) :: added,
      ?_, ?_, ?_, ?_, ?_, ?_, ?_, ?_⟩
    · simp only [answerAll, h1, hrun]
    · rw [hquiz, hq1]
    · rw [hmcqs, hs1]
    · rw [hidx, hi1, List.length_cons]; omega
    · rw [hres, hs1]; simp
    · simp only [List.map_cons, hsel]
    · rw [hsc1, hs1]
      by_cases h0 : (sel == 0) = true
      · simp only [h0, if_true, List.filter_cons_of_pos, List.length_cons]; omega
      · simp [h0]
    · rw [hsc2, hs1]
      by_cases h0 : (sel == 0) = true
      · simp only [h0, if_true, List.filter_cons_of_pos, List.length_cons]; omega
      · simp [h0]

theorem startQuizMode_fields (rt : Runtime) {s : State} (hm : s.mcqs ≠ []) :
    (startQuizMode rt s).currentQuestionIndex = 0 ∧ (startQuizMode rt s).quizScore = 0 ∧
    (startQuizMode rt s).quizResults = s.quizResults ∧ (startQuizMode rt s).mcqs = s.mcqs := by
  unfold startQuizMode
  have : ¬ s.mcqs.length = 0 := fun h => hm (List.length_eq_zero.1 h)
  simp [this]

/-- C10: after `startQuizMode` and one answer per quiz question, the run has
succeeded, the final `quizScore` is the number of results recorded during the
quiz with `isCorrect = true`, and `endQuiz` reports
`round(quizScore / number of questions * 100)`, which for 5 questions is
`round(quizScore / 5 * 100)`. -/
theorem quiz_final_score (rt : Runtime) (s : State) (answers : List Nat)
    (hm : s.mcqs ≠ []) (hq : (startQuizMode rt s).currentQuiz ≠ [])
    (ha : answers.length = (startQuizMode rt s).currentQuiz.length) :
    ∃ (final : State) (recorded : List QuizResult),
      answerAll rt (startQuizMode rt s) answers = some final ∧
      final.currentQuiz = (startQuizMode rt s).currentQuiz ∧
      final.quizResults = s.quizResults ++ recorded ∧
      recorded.map QuizResult.selectedAnswer = answers ∧
      final.quizScore = (recorded.filter fun r => r.isCorrect).length ∧
      endQuiz final =
        some (mathRound ((final.quizScore : ℚ) / (final.currentQuiz.length : ℚ) * 100)) ∧
      (final.currentQuiz.length = 5 →
        endQuiz final = some (mathRound ((final.quizScore : ℚ) / 5 * 100))) := by
  obtain ⟨hi0, hs0, hr0, -⟩ := startQuizMode_fields rt hm
  obtain ⟨final, added, hrun, hquiz, -, -, hres, hsel, hsc, -⟩ :=
    answerAll_spec rt answers (startQuizMode rt s) (by rw [hi0, ha]; omega)
  have hne : ¬ final.currentQuiz.length = 0 := by
    rw [hquiz]; exact fun h => hq (List.length_eq_zero.1 h)
  have hend : endQuiz final =
      some (mathRound ((final.quizScore : ℚ) / (final.currentQuiz.length : ℚ) * 100)) := by
    unfold endQuiz
    rw [if_neg hne]
  refine ⟨final, added, hrun, hquiz, ?_, hsel, ?_, hend, ?_⟩
  · rw [hres, hr0]
  · rw [hsc, hs0, Nat.zero_add]
  · intro h5
    rw [hend, h5]
    norm_num

/-- Instance of `quiz_final_score`: a two-question quiz answered with 0 and 2. -/
theorem quiz_final_score_witness :
    ∃ (final : State) (recorded : List QuizResult),
      answerAll sampleRuntime (startQuizMode sampleRuntime storedState) [0, 2] = some final ∧
      final.currentQuiz = (startQuizMode sampleRuntime storedState).currentQuiz ∧
      final.quizResults = storedState.quizResults ++ recorded ∧
      recorded.map QuizResult.selectedAnswer = [0, 2] ∧
      final.quizScore = (recorded.filter fun r => r.isCorrect).length ∧
      endQuiz final =
        some (mathRound ((final.quizScore : ℚ) / (final.currentQuiz.length : ℚ) * 100)) ∧
      (final.currentQuiz.length = 5 →
        endQuiz final = some (mathRound ((final.quizScore : ℚ) / 5 * 100))) :=
  quiz_final_score sampleRuntime storedState [0, 2] (by decide) (by decide!) (by decide!)

/-- Method `editMCQ` does not touch the quiz log. -/
theorem editMCQ_quizResults (s : State) (mcqId : Str) (newQuestion : Option Str)
    (newOption : Nat → Option Str) :
    (editMCQ s mcqId newQuestion newOption).quizResults = s.quizResults := by
  unfold editMCQ
  split
  · rfl
  · split <;> rfl

/-- Method `deleteMCQ` does not touch the quiz log. -/
theorem deleteMCQ_quizResults (s : State) (mcqId : Str) (confirmed : Bool) :
    (deleteMCQ s mcqId confirmed).quizResults = s.quizResults := by
  unfold deleteMCQ
  split <;> rfl

/-- C11: a call of `selectAnswer` on an in-range question succeeds and its
`quizResults` are the earlier ones, unchanged and in place, followed by exactly
one new entry; `deleteMCQ`, `editMCQ` and the end of the quiz leave `quizResults`
as they are. -/
theorem quizResults_append_only (rt : Runtime) (s : State) (selectedIndex : Nat)
    (h : s.currentQuestionIndex < s.currentQuiz.length) :
    (∃ (s' : State) (r : QuizResult),
      selectAnswer rt s selectedIndex = some s' ∧ s'.quizResults = s.quizResults ++ [r]) ∧
    (∀ (mcqId : Str) (confirmed : Bool),
      (deleteMCQ s mcqId confirmed).quizResults = s.quizResults) ∧
    (∀ (mcqId : Str) (newQuestion : Option Str) (newOption : Nat → Option Str),
      (editMCQ s mcqId newQuestion newOption).quizResults = s.quizResults) ∧
    (endQuizState s).quizResults = s.quizResults := by
  refine ⟨?_, deleteMCQ_quizResults s, editMCQ_quizResults s, rfl⟩
  obtain ⟨s', hs'⟩ := selectAnswer_isSome rt selectedIndex h
  obtain ⟨q, -, hq⟩ := selectAnswer_some hs'
  exact ⟨s', _, hs', by rw [hq]⟩

/-- Instance of `quizResults_append_only`: answering 2 in `storedQuiz`. -/
theorem quizResults_append_only_witness :
    (∃ (s' : State) (r : QuizResult),
      selectAnswer sampleRuntime storedQuiz 2 = some s' ∧
        s'.quizResults = storedQuiz.quizResults ++ [r]) ∧
    (∀ (mcqId : Str) (confirmed : Bool),
      (deleteMCQ storedQuiz mcqId confirmed).quizResults = storedQuiz.quizResults) ∧
    (∀ (mcqId : Str) (newQuestion : Option Str) (newOption : Nat → Option Str),
      (editMCQ storedQuiz mcqId newQuestion newOption).quizResults = storedQuiz.quizResults) ∧
    (endQuizState storedQuiz).quizResults = storedQuiz.quizResults :=
  quizResults_append_only sampleRuntime storedQuiz 2 (by decide)

/-- C17: when the current input is empty or consists of white space only,
`generateFlashcards` and `generateMCQs` return the generator state they were
given: stored collections and every other field are unchanged. -/
theorem blank_input_changes_nothing (rt : Runtime) (fs : FlashcardGenerator.State) (ms : State)
    (difficulty : Difficulty) (questionCount : Nat)
    (hf : ∀ c ∈ fs.currentInput, isWhiteSpace c = true)
    (hm : ∀ c ∈ ms.currentInput, isWhiteSpace c = true) :
    FlashcardGenerator.generateFlashcards rt fs = fs ∧
    generateMCQs rt ms difficulty questionCount = ms := by
  constructor
  · unfold FlashcardGenerator.generateFlashcards
    rw [trim_eq_nil_of_all_whiteSpace hf]
    rfl
  · unfold generateMCQs
    rw [trim_eq_nil_of_all_whiteSpace hm]
    rfl

/-- Instance of `blank_input_changes_nothing`: the input `" \n\t "`. -/
theorem blank_input_changes_nothing_witness :
    FlashcardGenerator.generateFlashcards sampleRuntime FlashcardGenerator.blankState =
      FlashcardGenerator.blankState ∧
    generateMCQs sampleRuntime blankState Difficulty.medium 5 = blankState :=
  blank_input_changes_nothing sampleRuntime FlashcardGenerator.blankState blankState
    Difficulty.medium 5 (by decide) (by decide)

/-- On candidates without repetition a distractor loop takes, in order, the
candidates that are unused at its start and pass the test, until three
distractors are collected. -/
theorem pick_eq (ok : Str → Bool) :
    ∀ (cands : List Str), cands.Nodup → ∀ (d u : List Str),
      pick ok cands (d, u) =
        (d ++ (cands.filter fun c => !u.contains c && ok c).take (3 - d.length),
         u ++ (cands.filter fun c => !u.contains c && ok c).take (3 - d.length)) := by
  intro cands
  induction cands with
  | nil => intro _ d u; simp [pick]
  | cons c rest ih =>
    intro hnd d u
    rw [List.nodup_cons] at hnd
    unfold pick
    by_cases hlen : d.length ≥ 3
    · rw [if_pos hlen]
      have : 3 - d.length = 0 := by omega
      rw [this]
      simp
    · rw [if_neg hlen]
      have hcongr : (rest.filter fun x => !(u ++ [c]).contains x && ok x) =
          rest.filter fun x => !u.contains x && ok x := by
        apply List.filter_congr
        intro x hx
        have hxc : x ≠ c := fun h => hnd.1 (h ▸ hx)
        have : (u ++ [c]).contains x = u.contains x := by
          rw [Bool.eq_iff_iff]
          simp only [List.contains_iff_exists_mem_beq, beq_iff_eq, exists_eq_right',
            List.mem_append, List.mem_singleton]
          constructor
          · rintro (h | h)
            · exact h
            · exact absurd h hxc
          · exact Or.inl
        rw [this]
      by_cases hc : (!u.contains c && ok c) = true
      · rw [if_pos hc, ih hnd.2, hcongr, List.filter_cons, if_pos hc]
        have h3 : 3 - d.length = (3 - (d ++ [c]).length) + 1 := by
          simp only [List.length_append, List.length_singleton]; omega
        rw [h3, List.take_succ_cons]
        simp
      · rw [if_neg hc, ih hnd.2, List.filter_cons, if_neg hc]

/-- The easy distractors: the first three of the fixed phrases that differ from
the correct answer. -/
theorem generateEasyDistractors_eq (entities : List Str) (correct sentence : Str) :
    generateEasyDistractors entities correct [correct] sentence =
      (easyDistractors.filter fun phrase => phrase != correct).take 3 := by
  unfold generateEasyDistractors
  rw [pick_eq _ _ (by decide)]
  simp only [List.nil_append, List.length_nil, Nat.sub_zero]
  congr 1
  apply List.filter_congr
  intro x _
  by_cases h : x = correct <;> simp [h]

/-- At least five of the six fixed phrases differ from any given answer. -/
theorem length_easy_filter (correct : Str) :
    5 ≤ (easyDistractors.filter fun phrase => phrase != correct).length := by
  by_cases h : correct ∈ easyDistractors
  · simp only [easyDistractors, List.map_cons, List.map_nil, List.mem_cons,
      List.mem_singleton, List.not_mem_nil, or_false] at h
    rcases h with h | h | h | h | h | h <;> subst h <;> decide
  · have : (easyDistractors.filter fun phrase => phrase != correct) = easyDistractors := by
      rw [List.filter_eq_self]
      intro x hx
      simp only [bne_iff_ne, ne_eq]
      intro hxc
      exact h (hxc ▸ hx)
    rw [this]
    decide

/-- There are exactly 3 easy distractors. -/
theorem length_generateEasyDistractors (entities : List Str) (correct sentence : Str) :
    (generateEasyDistractors entities correct [correct] sentence).length = 3 := by
  rw [generateEasyDistractors_eq, List.length_take]
  have := length_easy_filter correct
  omega

/-- Whether `createMCQ` returns a question is decided by the numbers of
entities and of distractors. -/
theorem createMCQ_isSome (rt : Runtime) (tick : Nat) (sentence : Str) (d : Difficulty)
    (index : Nat) :
    (createMCQ rt tick sentence d index).1.isSome = true ↔
      2 ≤ (extractEntities sentence).length ∧
      3 ≤ (generateDistractors rt (extractEntities sentence)
        ((extractEntities sentence).getD
          (rt.randomBelow tick (extractEntities sentence).length) []) d sentence).length := by
  unfold createMCQ
  simp only []
  by_cases h2 : (extractEntities sentence).length < 2
  · rw [if_pos h2]
    simp only [Option.isSome_none, Bool.false_eq_true, false_iff, not_and]
    intro h
    omega
  · rw [if_neg h2]
    by_cases h3 : (generateDistractors rt (extractEntities sentence)
        ((extractEntities sentence).getD
          (rt.randomBelow tick (extractEntities sentence).length) []) d sentence).length < 3
    · rw [if_pos h3]
      simp only [Option.isSome_none, Bool.false_eq_true, false_iff, not_and]
      intro _
      omega
    · rw [if_neg h3]
      simp only [Option.isSome_some, true_iff]
      omega

/-- C27: for difficulty easy the distractors are the first three phrases of the
fixed list that differ from the correct answer, whatever the sentence and the
entities; they are exactly 3, and `createMCQ` with difficulty easy returns a
question exactly if at least 2 entities are extracted. -/
theorem easy_distractors_fixed (rt : Runtime) (tick : Nat) (sentence : Str) (index : Nat)
    (entities : List Str) (correct : Str) :
    easyDistractors = ["different approach", "alternative method", "various techniques",
      "multiple ways", "other means", "diverse strategies"].map String.toList ∧
    generateDistractors rt entities correct Difficulty.easy sentence =
      (easyDistractors.filter fun phrase => phrase != correct).take 3 ∧
    (generateDistractors rt entities correct Difficulty.easy sentence).length = 3 ∧
    ((createMCQ rt tick sentence Difficulty.easy index).1.isSome = true ↔
      2 ≤ (extractEntities sentence).length) := by
  refine ⟨rfl, generateEasyDistractors_eq entities correct sentence,
    length_generateEasyDistractors entities correct sentence, ?_⟩
  rw [createMCQ_isSome]
  constructor
  · exact fun h => h.1
  · intro h
    refine ⟨h, ?_⟩
    have := length_generateEasyDistractors (extractEntities sentence)
      ((extractEntities sentence).getD
        (rt.randomBelow tick (extractEntities sentence).length) []) sentence
    exact Nat.le_of_eq this.symm

/-- The entities other than the correct answer are one fewer than the entities. -/
theorem length_filter_ne {entities : List Str} {correct : Str} (hnd : entities.Nodup)
    (hc : correct ∈ entities) :
    (entities.filter fun e => e != correct).length = entities.length - 1 := by
  have h1 : entities.erase correct = entities.filter fun e => e != correct := by
    rw [hnd.erase_eq_filter]
  rw [← h1, List.length_erase_of_mem hc]

/-- The medium distractors: the other entities in extraction order, then the
generic fillers that are neither the correct answer nor one of those entities,
cut to 3. -/
theorem generateMediumDistractors_eq (entities : List Str) (correct sentence : Str)
    (hnd : entities.Nodup) :
    generateMediumDistractors entities correct [correct] sentence =
      ((entities.filter fun e => e != correct) ++
        genericDistractors.filter fun g =>
          g != correct && !(entities.filter fun e => e != correct).contains g).take 3 := by
  unfold generateMediumDistractors
  simp only []
  rw [pick_eq _ _ hnd, pick_eq _ _ (by decide)]
  simp only [List.nil_append, List.length_nil, Nat.sub_zero]
  have hf : (entities.filter fun c => !List.contains [correct] c && c != correct) =
      entities.filter fun e => e != correct := by
    apply List.filter_congr
    intro x _
    by_cases h : x = correct <;> simp [h]
  rw [hf, List.take_append_eq_append_take]
  congr 1
  by_cases hlen : 3 ≤ (entities.filter fun e => e != correct).length
  · have h1 : ((entities.filter fun e => e != correct).take 3).length = 3 := by
      rw [List.length_take]; omega
    rw [h1]
    have h2 : 3 - (entities.filter fun e => e != correct).length = 0 := by omega
    rw [h2]
    simp
  · have h1 : (entities.filter fun e => e != correct).take 3 =
        entities.filter fun e => e != correct := List.take_of_length_le (by omega)
    rw [h1]
    congr 1
    apply List.filter_congr
    intro g _
    by_cases h : g = correct <;> simp [h]

/-- C25, as stated, fails: the sentence "the process, the system" yields the
two entities "the process" and "the system"; with "the process" as correct
answer the medium distractors are "the system" and "the method" only, and
`createMCQ` returns no question. -/
theorem medium_distractors_short :
    extractEntities fillerSentence = ["the process", "the system"].map String.toList ∧
    generateMediumDistractors (extractEntities fillerSentence) "the process".toList
      ["the process".toList] fillerSentence = ["the system", "the method"].map String.toList ∧
    (createMCQ sampleRuntime 0 fillerSentence Difficulty.medium 0).1 = none := by
  decide!

/-- C25, amended: for pairwise distinct entities, at least 2 of them, and a
correct answer among them, `generateMediumDistractors` returns the first 3 of:
the other entities in extraction order (there is at least one), then the
generic fillers "the process", "the system", "the method" that are neither the
correct answer nor one of the other entities. These are at most 3 distractors,
and exactly 3 when no entity is a generic filler. -/
theorem generateMediumDistractors_spec (entities : List Str) (correct sentence : Str)
    (hnd : entities.Nodup) (hlen : 2 ≤ entities.length) (hc : correct ∈ entities) :
    genericDistractors = ["the process", "the system", "the method"].map String.toList ∧
    generateMediumDistractors entities correct [correct] sentence =
      ((entities.filter fun e => e != correct) ++
        genericDistractors.filter fun g =>
          g != correct && !(entities.filter fun e => e != correct).contains g).take 3 ∧
    1 ≤ (entities.filter fun e => e != correct).length ∧
    (generateMediumDistractors entities correct [correct] sentence).length ≤ 3 ∧
    ((∀ g ∈ genericDistractors, g ∉ entities) →
      (generateMediumDistractors entities correct [correct] sentence).length = 3) := by
  have heq := generateMediumDistractors_eq entities correct sentence hnd
  have hothers := length_filter_ne hnd hc
  refine ⟨rfl, heq, by omega, ?_, ?_⟩
  · rw [heq]
    exact List.length_take_le _ _
  · intro hg
    have hall : (genericDistractors.filter fun g =>
        g != correct && !(entities.filter fun e => e != correct).contains g) =
        genericDistractors := by
      rw [List.filter_eq_self]
      intro g hgm
      have h1 : g ≠ correct := fun h => hg g hgm (h ▸ hc)
      have h2 : g ∉ entities.filter fun e => e != correct :=
        fun h => hg g hgm (List.mem_of_mem_filter h)
      have h2' : (entities.filter fun e => e != correct).contains g = false := by
        rw [Bool.eq_false_iff]
        intro h
        rw [List.contains_iff_exists_mem_beq] at h
        obtain ⟨a, ha, hag⟩ := h
        rw [beq_iff_eq] at hag
        exact h2 (hag ▸ ha)
      rw [h2']
      simp [h1]
    rw [heq, hall, List.length_take, List.length_append]
    have : genericDistractors.length = 3 := rfl
    omega

/-- Instance of `generateMediumDistractors_spec`: the entities of `leitnerSentence`. -/
theorem generateMediumDistractors_spec_witness :
    (generateMediumDistractors (extractEntities leitnerSentence) "The Leitner".toList
      ["The Leitner".toList] leitnerSentence).length = 3 :=
  (generateMediumDistractors_spec (extractEntities leitnerSentence) "The Leitner".toList
    leitnerSentence (by decide!) (by decide!) (by decide!)).2.2.2.2 (by decide!)

/-- The entities returned by `extractEntities` are pairwise distinct. -/
theorem extractEntities_nodup (sentence : Str) : (extractEntities sentence).Nodup := by
  unfold extractEntities
  exact ((nodup_toSet _).filter _).sublist (List.take_sublist _ _)

/-- Membership in a filtered list, as a Boolean. -/
theorem contains_filter {l : List Str} {p : Str → Bool} {e : Str} (he : e ∈ l) :
    (l.filter p).contains e = p e := by
  rw [Bool.eq_iff_iff, List.contains_iff_exists_mem_beq]
  constructor
  · rintro ⟨a, ha, hae⟩
    rw [beq_iff_eq] at hae
    subst hae
    exact (List.mem_filter.1 ha).2
  · intro h
    exact ⟨e, List.mem_filter.2 ⟨he, h⟩, beq_self_eq_true e⟩

/-- The two loops of `generateHardDistractors`, for any test `p` that the
correct answer does not pass: the entities passing `p`, then the other
entities, cut to 3. -/
theorem hard_loops (p : Str → Bool) (entities : List Str) (correct : Str)
    (hnd : entities.Nodup) (hp : p correct = false) :
    (pick (fun entity => entity != correct) entities
      (pick (fun _ => true) (entities.filter p) ([], [correct]))).1 =
      (entities.filter p ++
        entities.filter fun e => e != correct && !(entities.filter p).contains e).take 3 := by
  rw [pick_eq _ _ (hnd.filter p), pick_eq _ _ hnd]
  simp only [List.nil_append, List.length_nil, Nat.sub_zero]
  have hf : ((entities.filter p).filter fun c => !List.contains [correct] c && true) =
      entities.filter p := by
    rw [List.filter_eq_self]
    intro x hx
    have : x ≠ correct := by
      intro h
      rw [h] at hx
      have := (List.mem_filter.1 hx).2
      rw [hp] at this
      exact Bool.false_ne_true this
    simp [this]
  rw [hf, List.take_append_eq_append_take]
  congr 1
  by_cases hlen : 3 ≤ (entities.filter p).length
  · have h1 : ((entities.filter p).take 3).length = 3 := by
      rw [List.length_take]; omega
    rw [h1]
    have h2 : 3 - (entities.filter p).length = 0 := by omega
    rw [h2]
    simp
  · have h1 : (entities.filter p).take 3 = entities.filter p :=
      List.take_of_length_le (by omega)
    rw [h1]
    congr 1
    apply List.filter_congr
    intro e _
    by_cases h : e = correct <;> simp [h, Bool.and_comm]

/-- The entities passing `p` and the other entities that are not the correct
answer are together all entities but the correct answer. -/
theorem length_hard_candidates (p : Str → Bool) (entities : List Str) (correct : Str)
    (hnd : entities.Nodup) (hc : correct ∈ entities) (hp : p correct = false) :
    (entities.filter p ++
      entities.filter fun e => e != correct && !(entities.filter p).contains e).length =
      entities.length - 1 := by
  rw [← length_filter_ne hnd hc, List.length_append,
    @List.length_eq_length_filter_add _ (entities.filter fun e => e != correct) p,
    List.filter_filter, List.filter_filter]
  congr 2
  · apply List.filter_congr
    intro e _
    by_cases h : e = correct
    · subst h; simp [hp]
    · simp [h]
  · apply List.filter_congr
    intro e he
    rw [contains_filter he, Bool.and_comm]

/-- The test of `findSimilarWords`, which the target itself never passes. -/
theorem findSimilarWords_eq (rt : Runtime) (target : Str) (entities : List Str) :
    ∃ p : Str → Bool, p target = false ∧ findSimilarWords rt target entities = entities.filter p :=
  ⟨_, by simp, rfl⟩

/-- The hard distractors: the entities similar to the correct answer, then the
other entities, cut to 3; all but the correct answer are candidates. -/
theorem generateHardDistractors_eq (rt : Runtime) (entities : List Str) (correct sentence : Str)
    (hnd : entities.Nodup) (hc : correct ∈ entities) :
    generateHardDistractors rt entities correct [correct] sentence =
      (findSimilarWords rt correct entities ++
        entities.filter fun e =>
          e != correct && !(findSimilarWords rt correct entities).contains e).take 3 ∧
    (generateHardDistractors rt entities correct [correct] sentence).length =
      min 3 (entities.length - 1) := by
  obtain ⟨p, hp, hsim⟩ := findSimilarWords_eq rt correct entities
  have h1 : generateHardDistractors rt entities correct [correct] sentence =
      (findSimilarWords rt correct entities ++
        entities.filter fun e =>
          e != correct && !(findSimilarWords rt correct entities).contains e).take 3 := by
    unfold generateHardDistractors
    simp only []
    rw [hsim]
    exact hard_loops p entities correct hnd hp
  refine ⟨h1, ?_⟩
  rw [h1, List.length_take, hsim, length_hard_candidates p entities correct hnd hc hp]

/-- The entity chosen by `createMCQ` is one of the entities. -/
theorem target_mem (rt : Runtime) (tick : Nat) {entities : List Str} (h : 0 < entities.length) :
    entities.getD (rt.randomBelow tick entities.length) [] ∈ entities := by
  have hlt : rt.randomBelow tick entities.length < entities.length := Nat.mod_lt _ h
  rw [List.getD_eq_getElem _ _ hlt]
  exact List.getElem_mem _

/-- C26: for difficulty hard, with the sentence's extracted entities and a
correct answer among them, the distractors are the first 3 of: the entities
similar to the correct answer (`findSimilarWords`), then the other entities
apart from the correct answer; each distractor is an extracted entity other
than the correct answer, there are `min 3 (n - 1)` of them for `n` entities, and
`createMCQ` with difficulty hard returns a question exactly if the sentence
yields at least 4 entities (which are pairwise distinct). -/
theorem hard_distractors_from_entities (rt : Runtime) (tick : Nat) (sentence : Str)
    (index : Nat) (correct : Str) (hc : correct ∈ extractEntities sentence) :
    generateDistractors rt (extractEntities sentence) correct Difficulty.hard sentence =
      (findSimilarWords rt correct (extractEntities sentence) ++
        (extractEntities sentence).filter fun e =>
          e != correct &&
            !(findSimilarWords rt correct (extractEntities sentence)).contains e).take 3 ∧
    (∀ d ∈ generateDistractors rt (extractEntities sentence) correct Difficulty.hard sentence,
      d ∈ extractEntities sentence ∧ d ≠ correct) ∧
    (generateDistractors rt (extractEntities sentence) correct Difficulty.hard sentence).length =
      min 3 ((extractEntities sentence).length - 1) ∧
    (extractEntities sentence).Nodup ∧
    ((createMCQ rt tick sentence Difficulty.hard index).1.isSome = true ↔
      4 ≤ (extractEntities sentence).length) := by
  have hnd := extractEntities_nodup sentence
  obtain ⟨heq, hlen⟩ := generateHardDistractors_eq rt (extractEntities sentence) correct sentence
    hnd hc
  refine ⟨heq, ?_, hlen, hnd, ?_⟩
  · intro d hd
    have hd' : d ∈ generateHardDistractors rt (extractEntities sentence) correct [correct]
        sentence := hd
    rw [heq] at hd'
    have hmem := List.mem_of_mem_take hd'
    rw [List.mem_append] at hmem
    rcases hmem with h | h
    · obtain ⟨p, hp, hsim⟩ := findSimilarWords_eq rt correct (extractEntities sentence)
      rw [hsim] at h
      obtain ⟨h1, h2⟩ := List.mem_filter.1 h
      refine ⟨h1, ?_⟩
      intro hdc
      rw [hdc, hp] at h2
      exact Bool.false_ne_true h2
    · obtain ⟨h1, h2⟩ := List.mem_filter.1 h
      refine ⟨h1, ?_⟩
      simp only [Bool.and_eq_true, bne_iff_ne, ne_eq] at h2
      exact h2.1
  · rw [createMCQ_isSome]
    constructor
    · rintro ⟨h2, h3⟩
      have hlen' := (generateHardDistractors_eq rt (extractEntities sentence)
        ((extractEntities sentence).getD
          (rt.randomBelow tick (extractEntities sentence).length) []) sentence hnd
        (target_mem rt tick (by omega))).2
      have h3' : 3 ≤ (generateHardDistractors rt (extractEntities sentence)
        ((extractEntities sentence).getD
          (rt.randomBelow tick (extractEntities sentence).length) [])
        [(extractEntities sentence).getD
          (rt.randomBelow tick (extractEntities sentence).length) []] sentence).length := h3
      rw [hlen'] at h3'
      omega
    · intro h4
      refine ⟨by omega, ?_⟩
      have hlen' := (generateHardDistractors_eq rt (extractEntities sentence)
        ((extractEntities sentence).getD
          (rt.randomBelow tick (extractEntities sentence).length) []) sentence hnd
        (target_mem rt tick (by omega))).2
      show 3 ≤ (generateHardDistractors rt (extractEntities sentence)
        ((extractEntities sentence).getD
          (rt.randomBelow tick (extractEntities sentence).length) [])
        [(extractEntities sentence).getD
          (rt.randomBelow tick (extractEntities sentence).length) []] sentence).length
      rw [hlen']
      omega

/-- Instance of `hard_distractors_from_entities`: `leitnerSentence` with the
correct answer "The Leitner". -/
theorem hard_distractors_from_entities_witness :
    (generateDistractors sampleRuntime (extractEntities leitnerSentence) "The Leitner".toList
      Difficulty.hard leitnerSentence).length = 3 ∧
    (createMCQ sampleRuntime 0 leitnerSentence Difficulty.hard 0).1.isSome = true :=
  have h := hard_distractors_from_entities sampleRuntime 0 leitnerSentence 0 "The Leitner".toList
    (by decide!)
  ⟨h.2.2.1.trans (by decide!), h.2.2.2.2.2 (by decide!)⟩

/-- The loop of `shuffleArray` draws one random number per round. -/
theorem shuffleLoop_tick {α : Type} (rt : Runtime) :
    ∀ (i tick : Nat) (array : List α), (shuffleLoop rt i tick array).2 = tick + i := by
  intro i
  induction i with
  | zero => intro tick array; rfl
  | succ i ih =>
    intro tick array
    unfold shuffleLoop
    simp only []
    rw [ih]
    omega

/-- C28: for every array and every outcome of the random source, `shuffleArray`
ends after `length - 1` rounds and returns a permutation of its input, of the
same length; the options of a question returned by `createMCQ` are the correct
answer and its 3 distractors in some order. -/
theorem shuffleArray_permutation {α : Type} (rt : Runtime) (tick : Nat) (array : List α) :
    (shuffleArray rt tick array).1.Perm array ∧
    (shuffleArray rt tick array).1.length = array.length ∧
    (shuffleArray rt tick array).2 = tick + (array.length - 1) ∧
    ∀ (sentence : Str) (d : Difficulty) (index : Nat) (mcq : MCQ),
      (createMCQ rt tick sentence d index).1 = some mcq →
      ∃ (correct : Str) (distractors : List Str),
        correct ∈ extractEntities sentence ∧
        distractors = generateDistractors rt (extractEntities sentence) correct d sentence ∧
        distractors.length = 3 ∧
        mcq.options.Perm (correct :: distractors) := by
  refine ⟨shuffleArray_perm rt tick array, (shuffleArray_perm rt tick array).length_eq,
    shuffleLoop_tick rt _ tick array, ?_⟩
  intro sentence d index mcq h
  obtain ⟨entity, hmem, -, -, hlen, hopt⟩ := createMCQ_some h
  refine ⟨entity, _, hmem, rfl, hlen, ?_⟩
  rw [hopt]
  exact shuffleArray_perm rt _ _

/-- Instance of `shuffleArray_permutation`: the question built from `leitnerSentence`. -/
theorem shuffleArray_permutation_witness :
    ∃ (correct : Str) (distractors : List Str),
      correct ∈ extractEntities leitnerSentence ∧
      distractors = generateDistractors sampleRuntime (extractEntities leitnerSentence) correct
        Difficulty.medium leitnerSentence ∧
      distractors.length = 3 ∧
      leitnerMCQ.options.Perm (correct :: distractors) :=
  (shuffleArray_permutation sampleRuntime 0 ([] : List Str)).2.2.2 leitnerSentence
    Difficulty.medium 0 leitnerMCQ (by decide!)

/-- One call keeps the invariant of a started quiz. -/
theorem quizInv_call (rt : Runtime) {s0 t : State} (h : QuizInv s0 t) (c : QuizCall) :
    QuizInv s0 (call rt t c) := by
  obtain ⟨h1, h2, h3, h4⟩ := h
  cases c with
  | endQuiz => exact ⟨h1, h2, h3, h4⟩
  | selectAnswer i =>
    show QuizInv s0 ((selectAnswer rt t i).getD t)
    cases hs : selectAnswer rt t i with
    | none => exact ⟨h1, h2, h3, h4⟩
    | some t' =>
      obtain ⟨q, hq, ht'⟩ := selectAnswer_some hs
      have hlt : t.currentQuestionIndex < t.currentQuiz.length := by
        by_contra hn
        rw [List.getElem?_eq_none (by omega)] at hq
        cases hq
      simp only [Option.getD_some]
      rw [ht']
      refine ⟨?_, ?_, h3, h4⟩
      · show (if (i == 0) = true then t.quizScore + 1 else t.quizScore) ≤
          t.currentQuestionIndex + 1
        split <;> omega
      · show t.currentQuestionIndex + 1 ≤ t.currentQuiz.length
        omega

/-- A sequence of calls keeps the invariant of a started quiz. -/
theorem quizInv_runCalls (rt : Runtime) {s0 : State} :
    ∀ (calls : List QuizCall) (t : State), QuizInv s0 t → QuizInv s0 (runCalls rt t calls) := by
  intro calls
  induction calls with
  | nil => intro t h; exact h
  | cons c rest ih => intro t h; exact ih _ (quizInv_call rt h c)

/-- Reading an array at valid indices. -/
theorem filterMap_getElem? {α : Type} (xs : List α) :
    ∀ (l : List Nat), (∀ k ∈ l, k < xs.length) →
      (l.filterMap fun k => xs[k]?).map some = l.map fun k => xs[k]? := by
  intro l
  induction l with
  | nil => intro _; rfl
  | cons k l ih =>
    intro h
    have hk : k < xs.length := h k (List.mem_cons_self _ _)
    rw [List.filterMap_cons]
    simp only [List.getElem?_eq_getElem hk, List.map_cons]
    rw [ih fun j hj => h j (List.mem_cons_of_mem _ hj)]

/-- The quiz drawn by `startQuizMode` when the sort returns a rearrangement of
the stored questions: the questions at up to 5 distinct positions. -/
theorem startQuizMode_currentQuiz (rt : Runtime) (s : State) (hm : s.mcqs ≠ [])
    (hsort : (rt.sortOrder s.tick s.mcqs.length).Perm (List.range s.mcqs.length)) :
    (startQuizMode rt s).currentQuiz.length = min 5 s.mcqs.length ∧
    ∃ indices : List Nat, indices.Nodup ∧
      (startQuizMode rt s).currentQuiz.map some = indices.map fun k => s.mcqs[k]? := by
  have hne : ¬ s.mcqs.length = 0 := fun h => hm (List.length_eq_zero.1 h)
  have hq : (startQuizMode rt s).currentQuiz =
      ((rt.sortOrder s.tick s.mcqs.length).filterMap fun k => s.mcqs[k]?).take 5 := by
    unfold startQuizMode
    rw [if_neg hne]
  have hvalid : ∀ k ∈ rt.sortOrder s.tick s.mcqs.length, k < s.mcqs.length := by
    intro k hk
    exact List.mem_range.1 (hsort.mem_iff.1 hk)
  have hmap := filterMap_getElem? s.mcqs _ hvalid
  have hmaps : (startQuizMode rt s).currentQuiz.map some =
      ((rt.sortOrder s.tick s.mcqs.length).take 5).map fun k => s.mcqs[k]? := by
    rw [hq, List.map_take, hmap, List.map_take]
  constructor
  · have := congrArg List.length hmaps
    simp only [List.length_map, List.length_take, hsort.length_eq, List.length_range] at this
    rw [this]
  · refine ⟨(rt.sortOrder s.tick s.mcqs.length).take 5, ?_, hmaps⟩
    exact ((hsort.nodup_iff).2 (List.nodup_range _)).sublist (List.take_sublist _ _)

/-- C29: in every state reached from `startQuizMode` (with questions stored and
a sort that returns a rearrangement of them) by any sequence of `selectAnswer`
and `endQuiz` calls, `quizScore <= currentQuestionIndex <= currentQuiz.length`,
`currentQuiz.length = min(5, number of stored questions)`, `currentQuiz`
consists of the stored questions at pairwise distinct positions, and once
`currentQuestionIndex` has reached `currentQuiz.length` a `selectAnswer` call
throws and leaves the state as it is. -/
theorem quiz_invariants (rt : Runtime) (s : State) (calls : List QuizCall) (t : State)
    (hm : s.mcqs ≠ [])
    (hsort : (rt.sortOrder s.tick s.mcqs.length).Perm (List.range s.mcqs.length))
    (ht : t = runCalls rt (startQuizMode rt s) calls) :
    0 ≤ t.quizScore ∧ t.quizScore ≤ t.currentQuestionIndex ∧
    t.currentQuestionIndex ≤ t.currentQuiz.length ∧
    t.mcqs = s.mcqs ∧
    t.currentQuiz.length = min 5 t.mcqs.length ∧
    (∃ indices : List Nat, indices.Nodup ∧
      t.currentQuiz.map some = indices.map fun k => t.mcqs[k]?) ∧
    (t.currentQuestionIndex = t.currentQuiz.length →
      ∀ selectedIndex : Nat, selectAnswer rt t selectedIndex = none ∧
        call rt t (QuizCall.selectAnswer selectedIndex) = t) := by
  obtain ⟨hi0, hs0, -, hm0⟩ := startQuizMode_fields rt hm
  have hinit : QuizInv (startQuizMode rt s) (startQuizMode rt s) :=
    ⟨by rw [hi0, hs0], by rw [hi0]; exact Nat.zero_le _, rfl, rfl⟩
  obtain ⟨h1, h2, h3, h4⟩ := quizInv_runCalls rt calls _ hinit
  rw [← ht] at h1 h2 h3 h4
  obtain ⟨hlen, indices, hnd, hidx⟩ := startQuizMode_currentQuiz rt s hm hsort
  have hmcqs : t.mcqs = s.mcqs := h4.trans hm0
  refine ⟨Nat.zero_le _, h1, h2, hmcqs, ?_, ⟨indices, hnd, ?_⟩, ?_⟩
  · rw [h3, hmcqs, hlen]
  · rw [h3, hmcqs, hidx]
  · intro hend selectedIndex
    have hnone : selectAnswer rt t selectedIndex = none := by
      unfold selectAnswer
      rw [List.getElem?_eq_none (by omega)]
    refine ⟨hnone, ?_⟩
    show (selectAnswer rt t selectedIndex).getD t = t
    rw [hnone]
    rfl

/-- Instance of `quiz_invariants`: a two-question quiz, answered twice and then
once more. -/
theorem quiz_invariants_witness :
    (runCalls sampleRuntime (startQuizMode sampleRuntime storedState)
      [QuizCall.selectAnswer 0, QuizCall.selectAnswer 2, QuizCall.endQuiz,
       QuizCall.selectAnswer 1]).quizScore = 1 ∧
    (runCalls sampleRuntime (startQuizMode sampleRuntime storedState)
      [QuizCall.selectAnswer 0, QuizCall.selectAnswer 2, QuizCall.endQuiz,
       QuizCall.selectAnswer 1]).currentQuestionIndex = 2 ∧
    (runCalls sampleRuntime (startQuizMode sampleRuntime storedState)
      [QuizCall.selectAnswer 0, QuizCall.selectAnswer 2, QuizCall.endQuiz,
       QuizCall.selectAnswer 1]).currentQuiz.length = 2 ∧
    ∀ selectedIndex : Nat,
      selectAnswer sampleRuntime
        (runCalls sampleRuntime (startQuizMode sampleRuntime storedState)
          [QuizCall.selectAnswer 0, QuizCall.selectAnswer 2, QuizCall.endQuiz,
           QuizCall.selectAnswer 1]) selectedIndex = none :=
  have h := quiz_invariants sampleRuntime storedState
    [QuizCall.selectAnswer 0, QuizCall.selectAnswer 2, QuizCall.endQuiz,
     QuizCall.selectAnswer 1] _ (by decide) (List.Perm.refl _) rfl
  ⟨by decide!, by decide!, by decide!, fun i => (h.2.2.2.2.2.2 (by decide!) i).1⟩

/-- Every raw entity is a contiguous part of the sentence. -/
theorem rawEntities_infix (sentence : Str) : ∀ e ∈ rawEntities sentence, e <:+: sentence := by
  unfold rawEntities
  have key : ∀ (patterns : List Regex) (acc : List Str), (∀ e ∈ acc, e <:+: sentence) →
      ∀ e ∈ patterns.foldl
        (fun entities pattern =>
          match pattern.matchAll sentence with
          | some found => entities ++ found.filter fun ent => decide (ent.length > 3)
          | none => entities) acc, e <:+: sentence := by
    intro patterns
    induction patterns with
    | nil => intro acc h; exact h
    | cons p ps ih =>
      intro acc h
      rw [List.foldl_cons]
      apply ih
      cases hm : p.matchAll sentence with
      | none => exact h
      | some found =>
        intro e he
        simp only [List.mem_append, List.mem_filter] at he
        rcases he with he | ⟨he, -⟩
        · exact h e he
        · exact matchAll_infix hm he
  exact key _ [] (fun e he => absurd he (List.not_mem_nil e))

/-- C23: `extractEntities` returns at most 8 strings, pairwise distinct, each of
4 to 29 characters and each a contiguous part of the sentence; `createMCQ`
returns `null` whenever fewer than 2 entities are extracted. -/
theorem extractEntities_spec (sentence : Str) :
    (extractEntities sentence).length ≤ 8 ∧
    (extractEntities sentence).Nodup ∧
    (∀ e ∈ extractEntities sentence,
      4 ≤ e.length ∧ e.length ≤ 29 ∧ ∃ pre post : Str, sentence = pre ++ e ++ post) ∧
    ∀ (rt : Runtime) (tick : Nat) (d : Difficulty) (index : Nat),
      (extractEntities sentence).length < 2 → (createMCQ rt tick sentence d index).1 = none := by
  refine ⟨?_, extractEntities_nodup sentence, ?_, ?_⟩
  · unfold extractEntities
    exact List.length_take_le _ _
  · intro e he
    unfold extractEntities at he
    obtain ⟨hmem, hlen⟩ := List.mem_filter.1 (List.mem_of_mem_take he)
    simp only [Bool.and_eq_true, decide_eq_true_eq] at hlen
    obtain ⟨pre, post, hpp⟩ := rawEntities_infix sentence e (mem_toSet.1 hmem)
    exact ⟨by omega, by omega, pre, post, hpp.symm⟩
  · intro rt tick d index h
    unfold createMCQ
    simp only []
    rw [if_pos h]

/-- Instance of `extractEntities_spec`: the entity "The Leitner" of
`leitnerSentence`, and a sentence with a single entity. -/
theorem extractEntities_spec_witness :
    (4 ≤ "The Leitner".toList.length ∧ "The Leitner".toList.length ≤ 29 ∧
      ∃ pre post : Str, leitnerSentence = pre ++ "The Leitner".toList ++ post) ∧
    (createMCQ sampleRuntime 0 "Memory fades".toList Difficulty.medium 0).1 = none :=
  ⟨(extractEntities_spec leitnerSentence).2.2.1 "The Leitner".toList (by decide!),
    (extractEntities_spec "Memory fades".toList).2.2.2 sampleRuntime 0 Difficulty.medium 0
      (by decide!)⟩

/-- No piece of a text split at `/[.!?]+/` contains one of the three marks. -/
theorem reSentenceEnd_split_chars (text piece : Str) (hp : piece ∈ reSentenceEnd.split text) :
    '.' ∉ piece ∧ '!' ∉ piece ∧ '?' ∉ piece := by
  have key : ∀ c ∈ piece, classHas false
      [ClassAtom.chr '.', ClassAtom.chr '!', ClassAtom.chr '?'] c = false := by
    unfold Regex.split at hp
    split at hp
    · split at hp
      · exact absurd hp (List.not_mem_nil _)
      · rw [List.mem_singleton] at hp
        subst hp
        intro c hc
        exact absurd hc (List.not_mem_nil c)
    · exact splitFrom_no_separator reSentenceEnd _
        (fun before a rest h => plus_class_matchAt _ before a rest h) _ _ _ _
        (by simp only [List.isEmpty_nil, if_true]; omega)
        (fun c hc => absurd hc (List.not_mem_nil c)) piece hp
  refine ⟨?_, ?_, ?_⟩ <;> intro h <;> have := key _ h <;> revert this <;> decide

/-- C24: `extractDeclarativeSentences` returns at most 15 fragments, which lie
in the text one after the other in the order returned; each returned fragment,
once trimmed, has more than 20 and fewer than 150 characters, does not start
with a double-quote mark, has a lower-case form that starts with none of "how",
"what", "why", "when", "where", "who", "can you", "please" and does not end
with "?", and does itself not end with "?" (it contains none of `.`, `!`, `?`).
When lower-casing keeps initial parts (as it does letter by letter), the
trimmed fragment starts with no spelling of these eight words in any letter case. -/
theorem extractDeclarativeSentences_spec (rt : Runtime) (text : Str) :
    (extractDeclarativeSentences rt text).length ≤ 15 ∧
    InTextOrder (extractDeclarativeSentences rt text) text ∧
    ∀ f ∈ extractDeclarativeSentences rt text,
      20 < (trim f).length ∧ (trim f).length < 150 ∧
      startsWith ['"'] (trim f) = false ∧
      (∀ p ∈ ["how", "what", "why", "when", "where", "who", "can you", "please"].map
          String.toList, startsWith p (rt.toLowerCase (trim f)) = false) ∧
      endsWith ['?'] (rt.toLowerCase (trim f)) = false ∧
      endsWith ['?'] (trim f) = false ∧
      ('.' ∉ f ∧ '!' ∉ f ∧ '?' ∉ f) ∧
      ((∀ q s : Str, q <+: s → rt.toLowerCase q <+: rt.toLowerCase s) →
        ∀ p ∈ ["how", "what", "why", "when", "where", "who", "can you", "please"].map
          String.toList, ∀ q : Str, rt.toLowerCase q = p → ¬ q <+: trim f) := by
  have hsub : (extractDeclarativeSentences rt text).Sublist (reSentenceEnd.split text) := by
    unfold extractDeclarativeSentences
    exact (List.take_sublist _ _).trans (List.filter_sublist _)
  refine ⟨length_extractDeclarativeSentences_le rt text,
    (split_inTextOrder reSentenceEnd text).sublist hsub, ?_⟩
  intro f hf
  have hchars := reSentenceEnd_split_chars text f (hsub.subset hf)
  unfold extractDeclarativeSentences at hf
  have hcond := (List.mem_filter.1 (List.mem_of_mem_take hf)).2
  simp only [Bool.and_eq_true, decide_eq_true_eq, Bool.not_eq_true', isDeclarative] at hcond
  obtain ⟨⟨⟨h20, h150⟩, hquote⟩,
    ⟨⟨⟨⟨⟨⟨⟨⟨d1, d2⟩, d3⟩, d4⟩, d5⟩, d6⟩, d7⟩, d8⟩, d9⟩⟩ := hcond
  have hstarts : ∀ p ∈ ["how", "what", "why", "when", "where", "who", "can you", "please"].map
      String.toList, startsWith p (rt.toLowerCase (trim f)) = false := by
    intro p hp
    simp only [List.map_cons, List.map_nil, List.mem_cons, List.mem_singleton,
      List.not_mem_nil, or_false] at hp
    rcases hp with h | h | h | h | h | h | h | h <;> subst h <;> assumption
  refine ⟨h20, h150, hquote, hstarts, d9, ?_, hchars, ?_⟩
  · cases he : endsWith ['?'] (trim f) with
    | false => rfl
    | true => exact absurd (mem_of_mem_trim (mem_of_endsWith he)) hchars.2.2
  · intro hlow p hp q hq hpre
    have h1 := hstarts p hp
    have h2 := hlow q (trim f) hpre
    rw [hq] at h2
    unfold startsWith at h1
    rw [← List.isPrefixOf_iff_prefix] at h2
    rw [h2] at h1
    exact Bool.noConfusion h1

/-- Instance of `extractDeclarativeSentences_spec`: a statement and a question. -/
theorem extractDeclarativeSentences_spec_witness :
    extractDeclarativeSentences sampleRuntime
      "The Leitner system is a spaced repetition technique. What is the Leitner system good for?".toList
      = ["The Leitner system is a spaced repetition technique".toList] ∧
    ¬ "HOW".toList <+: trim "The Leitner system is a spaced repetition technique".toList :=
  ⟨by decide!,
    ((extractDeclarativeSentences_spec sampleRuntime
      "The Leitner system is a spaced repetition technique. What is the Leitner system good for?".toList).2.2
      "The Leitner system is a spaced repetition technique".toList (by decide!)).2.2.2.2.2.2.2
      (fun q s h => List.IsPrefix.map lowerAZ h) "how".toList (by decide) "HOW".toList
      (by decide)⟩

end MCQGenerator

namespace StatisticsManager

open JS

theorem mem_daySet {l : List Int} {d : Int} : d ∈ daySet l ↔ d ∈ l := by
  induction l with
  | nil => simp [daySet]
  | cons a l ih =>
    simp only [daySet, List.mem_cons, List.mem_filter, ih, bne_iff_ne, ne_eq]
    constructor
    · rintro (h | ⟨h, _⟩)
      · exact Or.inl h
      · exact Or.inr h
    · intro h
      by_cases hw : d = a
      · exact Or.inl hw
      · rcases h with h | h
        · exact Or.inl h
        · exact Or.inr ⟨h, hw⟩

theorem nodup_daySet (l : List Int) : (daySet l).Nodup := by
  induction l with
  | nil => simp [daySet]
  | cons a l ih =>
    simp only [daySet, List.nodup_cons, List.mem_filter, bne_iff_ne, ne_eq, not_true_eq_false,
      and_false, not_false_eq_true, true_and]
    exact ih.filter _

/-- The dates of `calculateStreak` are the days with a result. -/
theorem mem_activityDates {clock : Clock} {quizResults : List QuizResult} {d : Int} :
    d ∈ activityDates clock quizResults ↔ HasResultOn clock quizResults d := by
  unfold activityDates HasResultOn
  rw [(List.perm_insertionSort _ _).mem_iff, mem_daySet, List.mem_map]

/-- When every local day lasts 24 hours, the start of day `d` is `d` days after
the start of day 0. -/
theorem midnightOf_eq {clock : Clock}
    (hmid : ∀ d, clock.midnightOf (d + 1) = clock.midnightOf d + 86400000) (d : Int) :
    clock.midnightOf d = clock.midnightOf 0 + d * 86400000 := by
  induction d using Int.induction_on with
  | hz => simp
  | hp i ih => rw [hmid, ih]; ring
  | hn i ih =>
    have := hmid (-(i : Int) - 1)
    rw [sub_add_cancel, ih] at this
    linarith

/-- When every local day lasts 24 hours, the dates of `calculateStreak` are
strictly decreasing. -/
theorem activityDates_sorted {clock : Clock}
    (hmid : ∀ d, clock.midnightOf (d + 1) = clock.midnightOf d + 86400000)
    (quizResults : List QuizResult) :
    (activityDates clock quizResults).Pairwise fun a b => b < a := by
  have htotal : IsTotal Int (fun a b => clock.midnightOf b - clock.midnightOf a ≤ 0) :=
    ⟨fun a b => by
      rcases le_total (clock.midnightOf a) (clock.midnightOf b) with h | h
      · right; omega
      · left; omega⟩
  have htrans : IsTrans Int (fun a b => clock.midnightOf b - clock.midnightOf a ≤ 0) :=
    ⟨fun a b c h1 h2 => by
      show clock.midnightOf c - clock.midnightOf a ≤ 0
      have h1' : clock.midnightOf b - clock.midnightOf a ≤ 0 := h1
      have h2' : clock.midnightOf c - clock.midnightOf b ≤ 0 := h2
      omega⟩
  have hsorted := List.sorted_insertionSort
    (fun a b => clock.midnightOf b - clock.midnightOf a ≤ 0)
    (daySet (quizResults.map fun r => clock.dayOf (clock.parse r.timestamp)))
  have hnodup : (activityDates clock quizResults).Nodup :=
    (List.perm_insertionSort _ _).nodup_iff.2 (nodup_daySet _)
  unfold activityDates at hnodup ⊢
  refine (List.Pairwise.and hsorted hnodup).imp ?_
  intro a b h
  have h1 : clock.midnightOf b - clock.midnightOf a ≤ 0 := h.1
  rw [midnightOf_eq hmid a, midnightOf_eq hmid b] at h1
  have h2 : a ≠ b := h.2
  omega

/-- When every local day lasts 24 hours, `diffDays` is the number of days from
the date to today. -/
theorem diffDays_eq {clock : Clock}
    (hmid : ∀ d, clock.midnightOf (d + 1) = clock.midnightOf d + 86400000)
    (hnow : clock.midnightOf (clock.dayOf clock.now) ≤ clock.now ∧
      clock.now < clock.midnightOf (clock.dayOf clock.now) + 86400000) (date : Int) :
    Int.floor (((clock.now - clock.midnightOf date : Int) : ℚ) / (1000 * 60 * 60 * 24)) =
      clock.dayOf clock.now - date := by
  have h1 := hnow.1
  have h2 := hnow.2
  rw [midnightOf_eq hmid (clock.dayOf clock.now)] at h1 h2
  have h3 := midnightOf_eq hmid date
  rw [Int.floor_eq_iff]
  have hms : ((1000 : ℚ) * 60 * 60 * 24) = ((86400000 : Int) : ℚ) := by norm_num
  rw [hms, le_div_iff₀ (by norm_num), div_lt_iff₀ (by norm_num)]
  constructor
  · have : (clock.dayOf clock.now - date) * 86400000 ≤ clock.now - clock.midnightOf date := by
      omega
    exact_mod_cast this
  · have : clock.now - clock.midnightOf date < (clock.dayOf clock.now - date + 1) * 86400000 := by
      omega
    exact_mod_cast this

/-- The loop of `calculateStreak` counts the leading dates that are today,
yesterday, and so on, and stops at the first day without a date. -/
theorem streakLoop_spec {clock : Clock}
    (hmid : ∀ d, clock.midnightOf (d + 1) = clock.midnightOf d + 86400000)
    (hnow : clock.midnightOf (clock.dayOf clock.now) ≤ clock.now ∧
      clock.now < clock.midnightOf (clock.dayOf clock.now) + 86400000) :
    ∀ (dates : List Int) (i streak : Nat), dates.Pairwise (fun a b => b < a) →
      (∀ d ∈ dates, d ≤ clock.dayOf clock.now - (i : Int)) →
      ∃ m : Nat, streakLoop clock dates i streak = streak + m ∧
        (∀ j : Nat, j < m → clock.dayOf clock.now - ((i + j : Nat) : Int) ∈ dates) ∧
        clock.dayOf clock.now - ((i + m : Nat) : Int) ∉ dates := by
  intro dates
  induction dates with
  | nil =>
    intro i streak _ _
    exact ⟨0, rfl, fun j hj => absurd hj (Nat.not_lt_zero j), by simp⟩
  | cons d rest ih =>
    intro i streak hp hle
    rw [List.pairwise_cons] at hp
    have hd := hle d (List.mem_cons_self _ _)
    by_cases hi : clock.dayOf clock.now - d = (i : Int)
    · have hrest : ∀ e ∈ rest, e ≤ clock.dayOf clock.now - ((i + 1 : Nat) : Int) := by
        intro e he
        have := hp.1 e he
        push_cast
        omega
      obtain ⟨m, hm1, hm2, hm3⟩ := ih (i + 1) (streak + 1) hp.2 hrest
      refine ⟨m + 1, ?_, ?_, ?_⟩
      · unfold streakLoop
        simp only []
        rw [diffDays_eq hmid hnow, if_pos hi, hm1]
        omega
      · intro j hj
        rcases Nat.eq_zero_or_pos j with h0 | h0
        · subst h0
          have : clock.dayOf clock.now - ((i + 0 : Nat) : Int) = d := by
            push_cast; omega
          rw [this]
          exact List.mem_cons_self _ _
        · have := hm2 (j - 1) (by omega)
          have heq : i + 1 + (j - 1) = i + j := by omega
          rw [heq] at this
          exact List.mem_cons_of_mem _ this
      · intro hmem
        rcases List.mem_cons.1 hmem with h | h
        · push_cast at h; omega
        · apply hm3
          have heq : i + 1 + m = i + (m + 1) := by omega
          rw [heq]
          exact h
    · refine ⟨0, ?_, fun j hj => absurd hj (Nat.not_lt_zero j), ?_⟩
      · unfold streakLoop
        simp only []
        rw [diffDays_eq hmid hnow, if_neg hi]
        rfl
      · intro hmem
        rcases List.mem_cons.1 hmem with h | h
        · push_cast at h; omega
        · have := hp.1 _ h
          push_cast at this
          omega

/-- When every local day lasts 24 hours, an earlier instant lies on an earlier
or the same day. -/
theorem dayOf_mono {clock : Clock}
    (hmid : ∀ d, clock.midnightOf (d + 1) = clock.midnightOf d + 86400000)
    (hday : ∀ t, clock.midnightOf (clock.dayOf t) ≤ t ∧
      t < clock.midnightOf (clock.dayOf t) + 86400000) {t u : Int} (h : t ≤ u) :
    clock.dayOf t ≤ clock.dayOf u := by
  have h1 := (hday t).1
  have h2 := (hday u).2
  rw [midnightOf_eq hmid (clock.dayOf t)] at h1
  rw [midnightOf_eq hmid (clock.dayOf u)] at h2
  omega

/-- The streak on a calendar of 24-hour days: the days today, yesterday, ... up
to the streak have a result, and the next earlier day has none. -/
theorem calculateStreak_days {clock : Clock} {quizResults : List QuizResult}
    (hmid : ∀ d, clock.midnightOf (d + 1) = clock.midnightOf d + 86400000)
    (hday : ∀ t, clock.midnightOf (clock.dayOf t) ≤ t ∧
      t < clock.midnightOf (clock.dayOf t) + 86400000)
    (hpast : ∀ r ∈ quizResults, clock.parse r.timestamp ≤ clock.now) :
    (∀ i : Nat, i < calculateStreak clock quizResults →
      HasResultOn clock quizResults (clock.dayOf clock.now - (i : Int))) ∧
    ¬ HasResultOn clock quizResults
      (clock.dayOf clock.now - (calculateStreak clock quizResults : Int)) := by
  unfold calculateStreak
  split
  · rename_i h0
    have hnil : quizResults = [] := List.length_eq_zero.1 h0
    subst hnil
    refine ⟨fun i hi => absurd hi (Nat.not_lt_zero i), ?_⟩
    rintro ⟨r, hr, -⟩
    exact absurd hr (List.not_mem_nil r)
  · have hle : ∀ d ∈ activityDates clock quizResults,
        d ≤ clock.dayOf clock.now - ((0 : Nat) : Int) := by
      intro d hd
      obtain ⟨r, hr, rfl⟩ := mem_activityDates.1 hd
      have := dayOf_mono hmid hday (hpast r hr)
      push_cast
      omega
    obtain ⟨m, hm1, hm2, hm3⟩ := streakLoop_spec hmid (hday clock.now)
      (activityDates clock quizResults) 0 0 (activityDates_sorted hmid quizResults) hle
    rw [hm1]
    simp only [Nat.zero_add] at hm2 hm3 ⊢
    exact ⟨fun i hi => mem_activityDates.1 (hm2 i hi), fun h => hm3 (mem_activityDates.2 h)⟩

/-- C12 fails on the code: on a host in New York at 00:30 of 2025-03-10, with one
result earlier that day and one on the day before (none in the future), the
streak is 1, although today and yesterday both have a result. -/
theorem calculateStreak_short_day :
    (∀ r ∈ shortDayResults, (newYorkClock shortDayNow).parse r.timestamp ≤ shortDayNow) ∧
    (newYorkClock shortDayNow).dayOf shortDayNow = 20157 ∧
    (shortDayResults.map fun r =>
      (newYorkClock shortDayNow).dayOf ((newYorkClock shortDayNow).parse r.timestamp)) =
      [20156, 20157] ∧
    calculateStreak (newYorkClock shortDayNow) shortDayResults = 1 := by
  decide!

/-- Method `calculateStreak` on a host whose local days all last 24 hours: for a
log with no timestamp in the future it returns `k` exactly if each of the `k`
days today, today - 1, ..., today - (k - 1) has a result and the day today - k
has none. -/
theorem calculateStreak_spec (clock : Clock) (quizResults : List QuizResult)
    (hmid : ∀ d, clock.midnightOf (d + 1) = clock.midnightOf d + 86400000)
    (hday : ∀ t, clock.midnightOf (clock.dayOf t) ≤ t ∧
      t < clock.midnightOf (clock.dayOf t) + 86400000)
    (hpast : ∀ r ∈ quizResults, clock.parse r.timestamp ≤ clock.now) (k : Nat) :
    calculateStreak clock quizResults = k ↔
      (∀ i : Nat, i < k → HasResultOn clock quizResults (clock.dayOf clock.now - (i : Int))) ∧
      ¬ HasResultOn clock quizResults (clock.dayOf clock.now - (k : Int)) := by
  have h := calculateStreak_days hmid hday hpast
  constructor
  · intro hk
    rw [← hk]
    exact h
  · rintro ⟨h1, h2⟩
    rcases Nat.lt_trichotomy (calculateStreak clock quizResults) k with hlt | heq | hgt
    · exact absurd (h1 _ hlt) h.2
    · exact heq
    · exact absurd (h.1 _ hgt) h2

/-- Instance of `calculateStreak_spec`: on a host in UTC at noon of 2025-06-15,
results of today, yesterday and 3 days ago give the streak 2. -/
theorem calculateStreak_spec_witness :
    calculateStreak (utcClock scenarioNow) scenarioResults = 2 ∧
    (scenarioResults.map fun r =>
      (utcClock scenarioNow).dayOf scenarioNow - (utcClock scenarioNow).dayOf (parseIso r.timestamp)) =
      [3, 1, 0] ∧
    (∀ i : Nat, i < 2 →
      HasResultOn (utcClock scenarioNow) scenarioResults
        ((utcClock scenarioNow).dayOf (utcClock scenarioNow).now - (i : Int))) ∧
    ¬ HasResultOn (utcClock scenarioNow) scenarioResults
      ((utcClock scenarioNow).dayOf (utcClock scenarioNow).now - ((2 : Nat) : Int)) :=
  ⟨by decide!, by decide!,
    (calculateStreak_spec (utcClock scenarioNow) scenarioResults
      (fun d => by simp only [utcClock]; ring)
      (fun t => by simp only [utcClock]; omega)
      (by decide!) 2).1 (by decide!)⟩

/-- The `forEach` over the topics appends what each topic contributes, in order. -/
theorem foldl_visitTopic (entries : List (Str × TopicStats)) (recs : List Recommendation) :
    entries.foldl visitTopic recs = recs ++ (entries.map topicEntry).flatten := by
  induction entries generalizing recs with
  | nil => simp
  | cons e es ih =>
    rw [List.foldl_cons, ih, List.map_cons, List.flatten_cons, ← List.append_assoc]
    congr 1
    unfold topicEntry visitTopic
    split_ifs <;> simp

/-- Method `generateRecommendations` cuts the generation-order list to 3. -/
theorem generateRecommendations_eq (stats : Stats) :
    generateRecommendations stats = (generationOrder stats).take 3 := by
  unfold generateRecommendations generationOrder
  simp only [foldl_visitTopic, List.nil_append]
  split_ifs <;> simp

/-- The own properties of an object with one key. -/
theorem objectEntries_singleton {α : Type} (e : Str × α) : objectEntries [e] = [e] := by
  unfold objectEntries
  cases h : FlashcardGenerator.arrayIndex e.1 <;> simp [h]

/-- C14: `generateRecommendations` returns at most 3 recommendations, the first
3 of the generation-order list: the urgent "Improve Accuracy" entry if
`accuracy < 60`, then for each topic in `Object.entries` order nothing or one
entry (urgent "Review" or medium "Practice"), then the medium "Build Study
Habit" entry if `streak < 3`. -/
theorem generateRecommendations_order (stats : Stats) :
    (generateRecommendations stats).length ≤ 3 ∧
    generateRecommendations stats =
      ((if stats.accuracy < 60 then [improveAccuracy] else []) ++
        ((objectEntries stats.topics).map topicEntry).flatten ++
        (if stats.streak < 3 then [buildStudyHabit] else [])).take 3 ∧
    improveAccuracy.priority = Priority.urgent ∧
    buildStudyHabit.priority = Priority.medium ∧
    (∀ entry : Str × TopicStats,
      topicEntry entry = [] ∨
      topicEntry entry = [reviewTopic entry.1 (mastery entry.2)] ∨
      topicEntry entry = [practiceTopic entry.1 (mastery entry.2)]) ∧
    (objectEntries stats.topics).Perm stats.topics := by
  refine ⟨?_, generateRecommendations_eq stats, rfl, rfl, ?_, ?_⟩
  · rw [generateRecommendations_eq]
    exact (List.length_take_le _ _)
  · intro entry
    unfold topicEntry visitTopic
    split_ifs <;> simp
  · unfold objectEntries
    refine ((List.perm_insertionSort _ _).append_right _).trans ?_
    have := List.filter_append_perm (fun e : Str × TopicStats =>
      (FlashcardGenerator.arrayIndex e.1).isSome) stats.topics
    refine List.Perm.trans ?_ this
    apply List.Perm.append_left
    apply List.Perm.of_eq
    apply List.filter_congr
    intro e _
    cases FlashcardGenerator.arrayIndex e.1 <;> rfl

/-- C15, as stated, fails: in a snapshot with accuracy 60 whose single topic
has 27 cards, 8 of them mastered (29.6 %, below 30 %), the only recommendation
is the medium "Practice Concept 1"; none is urgent. -/
theorem no_urgent_at_rounded_thirty :
    roundedSnapshot.accuracy ≥ 60 ∧
    roundedSnapshot.topics = [("Concept 1".toList, TopicStats.mk 27 8 27 0 0)] ∧
    ((8 : ℚ) / 27 < 30 / 100) ∧
    generateRecommendations roundedSnapshot = [practiceTopic "Concept 1".toList 30] ∧
    ∀ r ∈ generateRecommendations roundedSnapshot, r.priority ≠ Priority.urgent := by
  decide!

/-- C15, amended: in a snapshot with accuracy at least 60 and a single topic of
at least 5 cards, the recommendations start with the urgent "Review" entry of
that topic if the rounded mastery percentage `Math.round((mastered / total) * 100)`
is below 30, and contain no urgent entry otherwise; the rounded percentage is
below 30 whenever `mastered / total` is below 29.5 %. -/
theorem urgent_review_of_low_mastery (stats : Stats) (topic : Str) (data : TopicStats)
    (hacc : stats.accuracy ≥ 60) (htopics : stats.topics = [(topic, data)])
    (htotal : data.total ≥ 5) :
    (jsPercent data.mastered data.total < 30 →
      generateRecommendations stats =
        reviewTopic topic (jsPercent data.mastered data.total) ::
          (if stats.streak < 3 then [buildStudyHabit] else [])) ∧
    (¬ jsPercent data.mastered data.total < 30 →
      ∀ r ∈ generateRecommendations stats, r.priority ≠ Priority.urgent) ∧
    (200 * data.mastered < 59 * data.total → data.total < 2 ^ 44 →
      jsPercent data.mastered data.total < 30) ∧
    (reviewTopic topic (jsPercent data.mastered data.total)).priority = Priority.urgent ∧
    (reviewTopic topic (jsPercent data.mastered data.total)).title = "Review ".toList ++ topic := by
  have hm : mastery data = jsPercent data.mastered data.total := by
    unfold mastery
    rw [if_pos (by omega)]
  have hacc' : ¬ stats.accuracy < 60 := by omega
  have hgen : generateRecommendations stats =
      (topicEntry (topic, data) ++ (if stats.streak < 3 then [buildStudyHabit] else [])).take 3 := by
    rw [generateRecommendations_eq]
    unfold generationOrder
    rw [if_neg hacc', htopics, objectEntries_singleton]
    simp
  refine ⟨?_, ?_, fun h hbig => jsPercent_lt_thirty h hbig, rfl, rfl⟩
  · intro h
    rw [hgen]
    unfold topicEntry visitTopic
    rw [if_pos ⟨by rw [hm]; exact h, htotal⟩, hm]
    split_ifs <;> rfl
  · intro h r hr
    rw [hgen] at hr
    unfold topicEntry visitTopic at hr
    rw [if_neg (fun hh => h (by rw [← hm]; exact hh.1))] at hr
    have hr' := List.mem_of_mem_take hr
    split_ifs at hr' <;> simp at hr' <;> rcases hr' with rfl | rfl <;> simp [practiceTopic, buildStudyHabit]

/-- Instance of `urgent_review_of_low_mastery`: one topic of 5 cards, 1 mastered. -/
theorem urgent_review_of_low_mastery_witness :
    generateRecommendations lowMasterySnapshot = [reviewTopic "Concept 1".toList 20] :=
  ((urgent_review_of_low_mastery lowMasterySnapshot "Concept 1".toList (TopicStats.mk 5 1 5 0 0)
    (by decide) rfl (by decide)).1 (by decide!)).trans (by decide!)

/-- C13, as stated, fails: of 40 results of the last 7 days 23 are correct, and
the accuracy is 57 although `round(100 * 23 / 40) = round(57.5) = 58`. -/
theorem accuracy_below_exact_round :
    (recentResults (utcClock scenarioNow) fortyResults).length = 40 ∧
    ((recentResults (utcClock scenarioNow) fortyResults).filter fun r => r.isCorrect).length = 23 ∧
    accuracy (utcClock scenarioNow) fortyResults = 57 ∧
    mathRound (100 * (23 : ℚ) / 40) = 58 := by
  decide!

/-- C13, amended: with `n` the number of results whose timestamp is at or after
`now - 7 days` and `c` the number of correct ones among them, the accuracy is 0
if `n = 0` and otherwise `Math.round` of the double-precision value of
`(c / n) * 100`; it is an integer from 0 to 100, and for `n < 2 ^ 44` it equals
`round(100 * c / n)`, except that it may be one less when `100 * c / n` lies
exactly halfway between two integers. -/
theorem accuracy_spec (clock : Clock) (quizResults : List QuizResult) (n c : Nat)
    (hn : n = (quizResults.filter fun r =>
      decide (clock.now - 7 * 24 * 60 * 60 * 1000 ≤ clock.parse r.timestamp)).length)
    (hc : c = (quizResults.filter fun r =>
      decide (clock.now - 7 * 24 * 60 * 60 * 1000 ≤ clock.parse r.timestamp) &&
        r.isCorrect).length) :
    (n = 0 → accuracy clock quizResults = 0) ∧
    (0 < n → accuracy clock quizResults = jsPercent c n) ∧
    0 ≤ accuracy clock quizResults ∧ accuracy clock quizResults ≤ 100 ∧
    (0 < n → n < 2 ^ 44 →
      accuracy clock quizResults = mathRound (100 * (c : ℚ) / (n : ℚ)) ∨
      (accuracy clock quizResults = mathRound (100 * (c : ℚ) / (n : ℚ)) - 1 ∧
        (200 * c + n) % (2 * n) = 0)) := by
  have hn' : n = (recentResults clock quizResults).length := hn
  have hc' : c = ((recentResults clock quizResults).filter fun r => r.isCorrect).length := by
    rw [hc]
    unfold recentResults
    rw [List.filter_filter]
    congr 1
    apply List.filter_congr
    intro r _
    rw [Bool.and_comm]
  have hcn : c ≤ n := by
    rw [hn', hc']
    exact List.length_filter_le _ _
  have hpos : 0 < n → accuracy clock quizResults = jsPercent c n := by
    intro h
    unfold accuracy
    rw [if_pos (by rw [← hn']; exact h), ← hn', ← hc']
  have hzero : n = 0 → accuracy clock quizResults = 0 := by
    intro h
    unfold accuracy
    rw [if_neg (by rw [← hn']; omega)]
  refine ⟨hzero, hpos, ?_, ?_, ?_⟩
  · rcases Nat.eq_zero_or_pos n with h | h
    · rw [hzero h]
    · rw [hpos h]; exact (jsPercent_bounds hcn).1
  · rcases Nat.eq_zero_or_pos n with h | h
    · rw [hzero h]; decide
    · rw [hpos h]; exact (jsPercent_bounds hcn).2
  · intro h hbig
    rw [hpos h]
    exact jsPercent_exact h hcn hbig

/-- Instance of `accuracy_spec`: 3 results, 2 of them correct. -/
theorem accuracy_spec_witness :
    accuracy (utcClock scenarioNow) scenarioResults = jsPercent 2 3 ∧
    accuracy (utcClock scenarioNow) scenarioResults = mathRound (100 * (2 : ℚ) / 3) ∧
    mathRound (100 * (2 : ℚ) / 3) = 67 := by
  have h := accuracy_spec (utcClock scenarioNow) scenarioResults 3 2 (by decide!) (by decide!)
  refine ⟨h.2.1 (by decide), ?_, by decide!⟩
  rcases h.2.2.2.2 (by decide) (by decide) with h1 | ⟨-, h2⟩
  · exact_mod_cast h1
  · exact absurd h2 (by decide)

/-- The counters `total` and `mastered` after a run of `forEach` rounds on one record. -/
theorem foldl_tally (cards : List Flashcard) (data : TopicStats) :
    (cards.foldl tally data).total = data.total + cards.length ∧
    (cards.foldl tally data).mastered =
      data.mastered + (cards.filter fun card => decide (card.leitnerBox ≥ 3)).length := by
  induction cards generalizing data with
  | nil => exact ⟨rfl, rfl⟩
  | cons c cs ih =>
    rw [List.foldl_cons]
    obtain ⟨h1, h2⟩ := ih (tally data c)
    rw [h1, h2]
    constructor
    · simp only [tally, List.length_cons]; omega
    · by_cases hc : c.leitnerBox ≥ 3
      · rw [List.filter_cons_of_pos (by simpa using hc)]
        simp only [tally, if_pos hc, List.length_cons]; omega
      · rw [List.filter_cons_of_neg (by simpa using hc)]
        simp only [tally, if_neg hc]

/-- Cards of the topic of the only record all go to that record. -/
theorem foldl_addCard_single (topic : Str) (cards : List Flashcard) (data : TopicStats)
    (h : ∀ card ∈ cards, card.topic = topic) :
    cards.foldl addCard [(topic, data)] = [(topic, cards.foldl tally data)] := by
  induction cards generalizing data with
  | nil => rfl
  | cons c cs ih =>
    rw [List.foldl_cons, List.foldl_cons]
    have hc : c.topic = topic := h c (List.mem_cons_self _ _)
    have : addCard [(topic, data)] c = [(topic, tally data c)] := by
      unfold addCard
      rw [if_pos (by rw [hc]; exact beq_self_eq_true topic)]
    rw [this]
    exact ih _ fun card hcard => h card (List.mem_cons_of_mem _ hcard)

/-- The grouping of `calculateStats` for cards of one topic (not an inherited
property name): one record, whose `total` is the number of cards and whose
`mastered` is the number of cards with `leitnerBox >= 3`. -/
theorem groupByTopic_single (topic : Str) (cards : List Flashcard) (hne : cards ≠ [])
    (htopic : ∀ card ∈ cards, card.topic = topic) (hown : inheritedNames.contains topic = false) :
    ∃ data : TopicStats, groupByTopic cards = some [(topic, data)] ∧
      data.total = cards.length ∧
      data.mastered = (cards.filter fun card => decide (card.leitnerBox ≥ 3)).length := by
  cases cards with
  | nil => exact absurd rfl hne
  | cons c cs =>
    have hany : (List.any (c :: cs) fun card => inheritedNames.contains card.topic) = false := by
      rw [List.any_eq_false]
      intro card hcard
      rw [htopic card hcard, hown]
      exact Bool.false_ne_true
    have hc : c.topic = topic := htopic c (List.mem_cons_self _ _)
    refine ⟨(c :: cs).foldl tally (TopicStats.mk 0 0 0 0 0), ?_, ?_, ?_⟩
    · unfold groupByTopic
      rw [hany]
      simp only [Bool.false_eq_true, if_false]
      rw [List.foldl_cons, List.foldl_cons]
      have : addCard [] c = [(topic, tally (TopicStats.mk 0 0 0 0 0) c)] := by
        unfold addCard
        rw [hc]
      rw [this]
      rw [foldl_addCard_single topic cs _ fun card hcard => htopic card (List.mem_cons_of_mem _ hcard)]
    · rw [(foldl_tally _ _).1]; simp
    · rw [(foldl_tally _ _).2]; simp

end StatisticsManager
